import Mathlib

/-!
# 2048-cli: a shallow embedding of `2048cli.c`

The C program keeps three globals: `board[4][4]`, `backup[4][4]` (both arrays of
`cell { int val; bool isAvailable; }`) and the spawn lock `gLockNumGen`.
They are modelled as an explicit `State`.  Every `while` loop of `make_move` is
run with a fuel bound and the neighbour index is an `Int` that is resolved to an
array index only when the pointer is dereferenced, so that both non-termination
and an out-of-range read are visible as a `Fault`.

Cell values are of type `Int`.  The only arithmetic the program does on them is
the doubling `val *= 2` of a merge, and it is given twice: `shift` and the
loops `whileW`, `whileA`, `whileS`, `whileD` read the product over the
mathematical integers, `shift32` and the loops `whileW32`, `whileA32`,
`whileS32`, `whileD32` store it in the 32-bit `int` of the C type.  On a board
whose tiles lie between -2^30 and 2^30 - 1 what `shift` returns is what
`shift32` returns (`shift32_of_shift`).
-/

namespace Game2048

/-! ## Data model -/

/-- One board cell: `typedef struct { int val; bool isAvailable; } cell;` -/
structure cell where
  val : Int
  isAvailable : Bool
deriving DecidableEq

/-- The type of `cell board[BOARD_ROW_CNT][BOARD_COL_CNT]`, indexed `[row][col]`. -/
abbrev Board := Fin 4 → Fin 4 → cell

/-- Ways in which a run of a loop of `make_move` can fail to produce a result. -/
inductive Fault where
  | fuel
  | bounds
deriving DecidableEq

/-- The three globals of the program. -/
structure State where
  board : Board
  backup : Board
  gLockNumGen : Bool

/-- The validated, case-folded key read by `make_move` (`"wasderx"`). -/
inductive Key where
  | w | a | s | d | r | x | e
deriving DecidableEq

/-- What `make_move` leaves behind: a new state, or the process has exited. -/
inductive Step where
  | running (st : State)
  | exited

/-- Assignment `board[r][c].val = v`. -/
def setVal (b : Board) (r c : Fin 4) (v : Int) : Board :=
  fun i j => if i = r ∧ j = c then { b i j with val := v } else b i j

/-- Assignment `board[r][c].isAvailable = f`. -/
def setAvail (b : Board) (r c : Fin 4) (f : Bool) : Board :=
  fun i j => if i = r ∧ j = c then { b i j with isAvailable := f } else b i j

/-- Resolve a C `int` index to an index of a dimension of size 4. -/
def idx? (k : Int) : Option (Fin 4) :=
  if h : 0 ≤ k ∧ k < 4 then some ⟨k.toNat, by omega⟩ else none

/-- The cells in the order of the nested loops `for i` / `for j` (row-major). -/
def scanOrder : List (Fin 4 × Fin 4) :=
  [(0,0),(0,1),(0,2),(0,3),(1,0),(1,1),(1,2),(1,3),
   (2,0),(2,1),(2,2),(2,3),(3,0),(3,1),(3,2),(3,3)]

/-! ## `get_valid_pos_count`, `spawn_random_number`, `backup_board`, `init` -/

/-- The function `get_valid_pos_count`: number of cells flagged available. -/
def get_valid_pos_count (b : Board) : Int :=
  scanOrder.foldl (fun count p => if (b p.1 p.2).isAvailable then count + 1 else count) 0

/-- The scan of `spawn_random_number` from a given position on, with the running
`counter`; `r` is `rand() % numOfValids` and `v` the value `rand() % 10 == 1 ? 4 : 2`.
The `goto done` is the return in the `then` branch. -/
def spawnScan (b : Board) (r v : Int) : List (Fin 4 × Fin 4) → Int → Board
  | [], _ => b
  | p :: rest, counter =>
    let counter := if (b p.1 p.2).isAvailable then counter + 1 else counter
    if counter - 1 = r then setAvail (setVal b p.1 p.2 v) p.1 p.2 false
    else spawnScan b r v rest counter

/-- The function `spawn_random_number`; `d1` and `d2` are the values the two
calls of `rand()` return.  The result is the returned `int` and the new state. -/
def spawn_random_number (d1 d2 : Nat) (s : State) : Int × State :=
  let numOfValids := get_valid_pos_count s.board
  if numOfValids = 0 then (0, s)
  else if s.gLockNumGen then (1, s)
  else
    let r : Int := (d1 : Int) % numOfValids
    let v : Int := if (d2 : Int) % 10 = 1 then 4 else 2
    (1, { s with board := spawnScan s.board r v scanOrder 0, gLockNumGen := true })

/-- The function `backup_board`. -/
def backup_board (s : State) : State :=
  { s with backup := s.board }

/-- The board after the clearing loop of `init`. -/
def clearedBoard : Board := fun _ _ => ⟨0, true⟩

/-- The function `init`, run on the globals as they stand. -/
def init (d1 d2 : Nat) (s : State) : State :=
  let s := { s with board := clearedBoard }
  let s := (spawn_random_number d1 d2 s).2
  let s := { s with gLockNumGen := false }
  backup_board s

/-- The zero-initialised globals at program start. -/
def startGlobals : State :=
  { board := fun _ _ => ⟨0, false⟩, backup := fun _ _ => ⟨0, false⟩, gLockNumGen := false }

/-! ## The four directional shifts of `make_move` -/

/-- The `while (!done && aboveRow >= 0)` loop of case `'w'`, column `j`, with
`above->val *= 2` read over the mathematical integers; `whileW32` is the same
loop with the product stored in the C `int`. -/
def whileW : Nat → Fin 4 → Board → Fin 4 → Int → Bool → Bool → Except Fault (Board × Bool)
  | 0, _, _, _, _, _, _ => .error .fuel
  | n + 1, j, b, curr, aboveRow, done, didMove =>
    if !done && decide (0 ≤ aboveRow) then
      match idx? aboveRow with
      | none => .error .bounds
      | some above =>
        if (b above j).isAvailable then
          let b := setVal b above j (b curr j).val
          let b := setVal b curr j 0
          let b := setAvail b above j false
          let b := setAvail b curr j true
          whileW n j b above (aboveRow - 1) done true
        else if (b above j).val = (b curr j).val then
          let b := setVal b above j ((b above j).val * 2)
          let b := setVal b curr j 0
          let b := setAvail b above j false
          let b := setAvail b curr j true
          whileW n j b curr aboveRow done true
        else whileW n j b curr aboveRow true didMove
    else .ok (b, didMove)

/-- The `while (!done && belowRow < BOARD_ROW_CNT)` loop of case `'s'`, column `j`,
with `below->val *= 2` read over the mathematical integers; `whileS32` is the
same loop with the product stored in the C `int`. -/
def whileS : Nat → Fin 4 → Board → Fin 4 → Int → Bool → Bool → Except Fault (Board × Bool)
  | 0, _, _, _, _, _, _ => .error .fuel
  | n + 1, j, b, curr, belowRow, done, didMove =>
    if !done && decide (belowRow < 4) then
      match idx? belowRow with
      | none => .error .bounds
      | some below =>
        if (b below j).isAvailable then
          let b := setVal b below j (b curr j).val
          let b := setVal b curr j 0
          let b := setAvail b below j false
          let b := setAvail b curr j true
          whileS n j b below (belowRow + 1) done true
        else if (b below j).val = (b curr j).val then
          let b := setVal b below j ((b below j).val * 2)
          let b := setVal b curr j 0
          let b := setAvail b below j false
          let b := setAvail b curr j true
          whileS n j b curr belowRow done true
        else whileS n j b curr belowRow true didMove
    else .ok (b, didMove)

/-- The `while (!done && rightCol < BOARD_COL_CNT)` loop of case `'d'`, row `r`,
with `right->val *= 2` read over the mathematical integers; `whileD32` is the
same loop with the product stored in the C `int`. -/
def whileD : Nat → Fin 4 → Board → Fin 4 → Int → Bool → Bool → Except Fault (Board × Bool)
  | 0, _, _, _, _, _, _ => .error .fuel
  | n + 1, r, b, curr, rightCol, done, didMove =>
    if !done && decide (rightCol < 4) then
      match idx? rightCol with
      | none => .error .bounds
      | some right =>
        if (b r right).isAvailable then
          let b := setVal b r right (b r curr).val
          let b := setVal b r curr 0
          let b := setAvail b r right false
          let b := setAvail b r curr true
          whileD n r b right (rightCol + 1) done true
        else if (b r right).val = (b r curr).val then
          let b := setVal b r right ((b r right).val * 2)
          let b := setVal b r curr 0
          let b := setAvail b r right false
          let b := setAvail b r curr true
          whileD n r b curr rightCol done true
        else whileD n r b curr rightCol true didMove
    else .ok (b, didMove)

/-- The `while (!done && leftCol >= 0)` loop of case `'a'`, row `r`, with
`left->val *= 2` read over the mathematical integers; `whileA32` is the same
loop with the product stored in the C `int`. -/
def whileA : Nat → Fin 4 → Board → Fin 4 → Int → Bool → Bool → Except Fault (Board × Bool)
  | 0, _, _, _, _, _, _ => .error .fuel
  | n + 1, r, b, curr, leftCol, done, didMove =>
    if !done && decide (0 ≤ leftCol) then
      match idx? leftCol with
      | none => .error .bounds
      | some left =>
        if (b r left).isAvailable then
          let b := setVal b r left (b r curr).val
          let b := setVal b r curr 0
          let b := setAvail b r left false
          let b := setAvail b r curr true
          whileA n r b left (leftCol - 1) done true
        else if (b r left).val = (b r curr).val then
          let b := setVal b r left ((b r left).val * 2)
          let b := setVal b r curr 0
          let b := setAvail b r left false
          let b := setAvail b r curr true
          whileA n r b curr leftCol done true
        else whileA n r b curr leftCol true didMove
    else .ok (b, didMove)

/-- Body of the two `for` loops of case `'w'` at cell `(i, j)`. -/
def tileW (fuel : Nat) (i j : Fin 4) (st : Board × Bool) : Except Fault (Board × Bool) :=
  if !(st.1 i j).isAvailable then whileW fuel j st.1 i ((i : Int) - 1) false st.2 else .ok st

/-- Body of the two `for` loops of case `'s'` at cell `(i, j)`. -/
def tileS (fuel : Nat) (i j : Fin 4) (st : Board × Bool) : Except Fault (Board × Bool) :=
  if !(st.1 i j).isAvailable then whileS fuel j st.1 i ((i : Int) + 1) false st.2 else .ok st

/-- Body of the two `for` loops of case `'d'` at cell `(r, c)`. -/
def tileD (fuel : Nat) (c r : Fin 4) (st : Board × Bool) : Except Fault (Board × Bool) :=
  if !(st.1 r c).isAvailable then whileD fuel r st.1 c ((c : Int) + 1) false st.2 else .ok st

/-- Body of the two `for` loops of case `'a'` at cell `(r, c)`. -/
def tileA (fuel : Nat) (c r : Fin 4) (st : Board × Bool) : Except Fault (Board × Bool) :=
  if !(st.1 r c).isAvailable then whileA fuel r st.1 c ((c : Int) - 1) false st.2 else .ok st

/-- Case `'w'`: `for (i = 1; i < 4; ++i) for (j = 0; j < 4; ++j)`; the pair
returned is the board and `didMove`. -/
def shiftW (fuel : Nat) (b : Board) : Except Fault (Board × Bool) :=
  [1, 2, 3].foldlM (fun st i => [0, 1, 2, 3].foldlM (fun st j => tileW fuel i j st) st) (b, false)

/-- Case `'s'`: `for (i = 2; i >= 0; --i) for (j = 0; j < 4; ++j)`. -/
def shiftS (fuel : Nat) (b : Board) : Except Fault (Board × Bool) :=
  [2, 1, 0].foldlM (fun st i => [0, 1, 2, 3].foldlM (fun st j => tileS fuel i j st) st) (b, false)

/-- Case `'d'`: `for (c = 2; c >= 0; --c) for (r = 0; r < 4; ++r)`. -/
def shiftD (fuel : Nat) (b : Board) : Except Fault (Board × Bool) :=
  [2, 1, 0].foldlM (fun st c => [0, 1, 2, 3].foldlM (fun st r => tileD fuel c r st) st) (b, false)

/-- Case `'a'`: `for (c = 1; c < 4; ++c) for (r = 0; r < 4; ++r)`. -/
def shiftA (fuel : Nat) (b : Board) : Except Fault (Board × Bool) :=
  [1, 2, 3].foldlM (fun st c => [0, 1, 2, 3].foldlM (fun st r => tileA fuel c r st) st) (b, false)

/-- The four directions. -/
inductive Dir where
  | up | left | down | right
deriving DecidableEq

/-- The key of a direction. -/
def Dir.key : Dir → Key
  | .up => .w
  | .left => .a
  | .down => .s
  | .right => .d

/-- The directional shift selected by the `switch` of `make_move`. -/
def shift (fuel : Nat) : Dir → Board → Except Fault (Board × Bool)
  | .up => shiftW fuel
  | .left => shiftA fuel
  | .down => shiftS fuel
  | .right => shiftD fuel

/-- The tail of `make_move`: `if (didMove) gLockNumGen = false;`. -/
def finishMove (s : State) (r : Board × Bool) : Step :=
  .running { s with board := r.1, gLockNumGen := if r.2 then false else s.gLockNumGen }

/-- The function `make_move` after the key has been read and validated.
`confirmed` is what `confirm` returns when it is called (cases `'x'`, `'e'`);
`d1`, `d2` are the `rand()` draws used when `init` runs (case `'x'`). -/
def make_move (fuel : Nat) (input : Key) (confirmed : Bool) (d1 d2 : Nat) (s : State) :
    Except Fault Step :=
  let s := if input ≠ Key.r then backup_board s else s
  match input with
  | .w => (shiftW fuel s.board).map (finishMove s)
  | .s => (shiftS fuel s.board).map (finishMove s)
  | .d => (shiftD fuel s.board).map (finishMove s)
  | .a => (shiftA fuel s.board).map (finishMove s)
  | .r => .ok (.running { s with board := s.backup })
  | .x =>
    if confirmed then .ok (.running (init d1 d2 { s with gLockNumGen := false }))
    else .ok (.running s)
  | .e => if confirmed then .ok .exited else .ok (.running s)

/-! ## Reading boards -/

/-- The board whose cells hold the given values, a cell being flagged
available exactly when its value is 0. -/
def ofVals (v : Fin 4 → Fin 4 → Int) : Board :=
  fun i j => ⟨v i j, decide (v i j = 0)⟩

/-- The values of a board, row by row. -/
def vals (b : Board) : List (List Int) :=
  (List.finRange 4).map (fun i => (List.finRange 4).map (fun j => (b i j).val))

/-- The availability flags of a board, row by row. -/
def flags (b : Board) : List (List Bool) :=
  (List.finRange 4).map (fun i => (List.finRange 4).map (fun j => (b i j).isAvailable))


/-! ## Lines: one row or one column on its own -/

/-- A line of four cells, index 0 first. -/
abbrev Line := Fin 4 → cell

/-- Assignment to the `val` field of cell `k` of a line. -/
def lsetVal (l : Line) (k : Fin 4) (v : Int) : Line :=
  fun i => if i = k then { l i with val := v } else l i

/-- Assignment to the `isAvailable` field of cell `k` of a line. -/
def lsetAvail (l : Line) (k : Fin 4) (f : Bool) : Line :=
  fun i => if i = k then { l i with isAvailable := f } else l i

/-- The slide loop of cases `'w'` and `'a'` restricted to the one line it works
on: the neighbour index decreases towards 0. -/
def whileLo : Nat → Line → Fin 4 → Int → Bool → Bool → Except Fault (Line × Bool)
  | 0, _, _, _, _, _ => .error .fuel
  | n + 1, l, curr, nb, done, didMove =>
    if !done && decide (0 ≤ nb) then
      match idx? nb with
      | none => .error .bounds
      | some near =>
        if (l near).isAvailable then
          let l := lsetVal l near (l curr).val
          let l := lsetVal l curr 0
          let l := lsetAvail l near false
          let l := lsetAvail l curr true
          whileLo n l near (nb - 1) done true
        else if (l near).val = (l curr).val then
          let l := lsetVal l near ((l near).val * 2)
          let l := lsetVal l curr 0
          let l := lsetAvail l near false
          let l := lsetAvail l curr true
          whileLo n l curr nb done true
        else whileLo n l curr nb true didMove
    else .ok (l, didMove)

/-- The slide loop of cases `'s'` and `'d'` restricted to the one line it works
on: the neighbour index increases towards 3. -/
def whileHi : Nat → Line → Fin 4 → Int → Bool → Bool → Except Fault (Line × Bool)
  | 0, _, _, _, _, _ => .error .fuel
  | n + 1, l, curr, nb, done, didMove =>
    if !done && decide (nb < 4) then
      match idx? nb with
      | none => .error .bounds
      | some near =>
        if (l near).isAvailable then
          let l := lsetVal l near (l curr).val
          let l := lsetVal l curr 0
          let l := lsetAvail l near false
          let l := lsetAvail l curr true
          whileHi n l near (nb + 1) done true
        else if (l near).val = (l curr).val then
          let l := lsetVal l near ((l near).val * 2)
          let l := lsetVal l curr 0
          let l := lsetAvail l near false
          let l := lsetAvail l curr true
          whileHi n l curr nb done true
        else whileHi n l curr nb true didMove
    else .ok (l, didMove)

/-- One tile of a line handled towards index 0. -/
def tileLo (fuel : Nat) (c : Fin 4) (st : Line × Bool) : Except Fault (Line × Bool) :=
  if !(st.1 c).isAvailable then whileLo fuel st.1 c ((c : Int) - 1) false st.2 else .ok st

/-- One tile of a line handled towards index 3. -/
def tileHi (fuel : Nat) (c : Fin 4) (st : Line × Bool) : Except Fault (Line × Bool) :=
  if !(st.1 c).isAvailable then whileHi fuel st.1 c ((c : Int) + 1) false st.2 else .ok st

/-- The single-line shift towards index 0: tiles 1, 2, 3 in this order. -/
def lineLo (fuel : Nat) (l : Line) : Except Fault (Line × Bool) :=
  [1, 2, 3].foldlM (fun st c => tileLo fuel c st) (l, false)

/-- The single-line shift towards index 3: tiles 2, 1, 0 in this order. -/
def lineHi (fuel : Nat) (l : Line) : Except Fault (Line × Bool) :=
  [2, 1, 0].foldlM (fun st c => tileHi fuel c st) (l, false)

/-- Replace row `r` of a board. -/
def putRow (b : Board) (r : Fin 4) (l : Line) : Board :=
  fun i j => if i = r then l j else b i j

/-- Replace column `c` of a board. -/
def putCol (b : Board) (c : Fin 4) (l : Line) : Board :=
  fun i j => if j = c then l i else b i j

/-- Column `c` of a board, top first. -/
def col (b : Board) (c : Fin 4) : Line := fun i => b i c

/-- Lift a line result to the board whose row `r` it replaces. -/
def inRow (b : Board) (r : Fin 4) (p : Line × Bool) : Board × Bool := (putRow b r p.1, p.2)

/-- Lift a line result to the board whose column `c` it replaces. -/
def inCol (b : Board) (c : Fin 4) (p : Line × Bool) : Board × Bool := (putCol b c p.1, p.2)

/-- Record an earlier `didMove` in a line result. -/
def orFlag (dm : Bool) (p : Line × Bool) : Line × Bool := (p.1, dm || p.2)

/-- The board whose columns are the given lines. -/
def ofCols (L : Fin 4 → Line) : Board := fun i j => L j i

/-! ## What a line shift does to a well-formed line -/

/-- The line with the given four cells. -/
def ln (x0 x1 x2 x3 : cell) : Line := fun k =>
  match k with
  | 0 => x0
  | 1 => x1
  | 2 => x2
  | 3 => x3

/-- The well-formed cell holding `v`: available exactly when `v = 0`. -/
def wfCell (v : Int) : cell := ⟨v, decide (v = 0)⟩

/-- Tile `v` arrives at a stack of settled tiles (top first). -/
def push (st : List Int) (v : Int) : List Int :=
  if v = 0 then st
  else match st with
    | [] => [v]
    | t :: rest => if t = v then (t * 2) :: rest else v :: t :: rest

/-- The values of a line after a shift towards index 0, as four values. -/
def settle (vs : List Int) : List Int :=
  let st := (vs.foldl push []).reverse
  [st.getD 0 0, st.getD 1 0, st.getD 2 0, st.getD 3 0]

/-- The well-formed line with the given values. -/
def lineOf (vs : List Int) : Line :=
  ln (wfCell (vs.getD 0 0)) (wfCell (vs.getD 1 0)) (wfCell (vs.getD 2 0)) (wfCell (vs.getD 3 0))

/-! ## Mirrored lines -/

/-- A line read from the other end. -/
def mirror (l : Line) : Line := fun k => l k.rev

/-- Mirror the line of a result. -/
def mirrorRes (p : Line × Bool) : Line × Bool := (mirror p.1, p.2)

/-! ## Counting tiles -/

/-- Number of tiles (non-zero values) in a list of values. -/
def tileCount (vs : List Int) : Nat := (vs.filter (fun v => v ≠ 0)).length

/-- No two neighbouring entries hold the same non-zero value. -/
def noEqualNeighbours : List Int → Prop
  | x :: y :: rest => ¬ (x ≠ 0 ∧ x = y) ∧ noEqualNeighbours (y :: rest)
  | _ => True

/-- The first four entries of a list, missing ones read as 0. -/
def pad4 (st : List Int) : List Int := [st.getD 0 0, st.getD 1 0, st.getD 2 0, st.getD 3 0]

/-! ## Boards as four lines along a direction -/

/-- The values of a line, index 0 first. -/
def lineVals (l : Line) : List Int := [(l 0).val, (l 1).val, (l 2).val, (l 3).val]

/-- The four lines of a board along a direction, each read from the edge the
tiles move to: rows for left and right, columns for up and down. -/
def lines : Dir → Board → Fin 4 → Line
  | .left, b => fun r => b r
  | .right, b => fun r => mirror (b r)
  | .up, b => fun j => col b j
  | .down, b => fun j => mirror (col b j)

/-- The board with the given four lines along a direction. -/
def unlines : Dir → (Fin 4 → Line) → Board
  | .left, L => L
  | .right, L => fun r => mirror (L r)
  | .up, L => ofCols L
  | .down, L => ofCols (fun j => mirror (L j))

/-! ## Well-formed boards -/

/-- A cell is flagged available exactly when its value is 0, and no value is negative. -/
def WF (b : Board) : Prop :=
  ∀ i j, ((b i j).isAvailable = true ↔ (b i j).val = 0) ∧ 0 ≤ (b i j).val

/-- The values of line `k` after the shift in direction `d`. -/
def settled (d : Dir) (b : Board) (k : Fin 4) : List Int := settle (lineVals (lines d b k))

/-- The board after the shift in direction `d`, line by line. -/
def shifted (d : Dir) (b : Board) : Board := unlines d (fun k => lineOf (settled d b k))

/-- Whether line `k` changes under the shift in direction `d`. -/
def lineMoved (d : Dir) (b : Board) (k : Fin 4) : Bool :=
  decide (settled d b k ≠ lineVals (lines d b k))

/-- Whether some line changes under the shift in direction `d`. -/
def moved (d : Dir) (b : Board) : Bool :=
  lineMoved d b 0 || lineMoved d b 1 || lineMoved d b 2 || lineMoved d b 3

/-! ## Definitions for the claims about spawning -/

/-- The empty cells of a board in row-major scan order. -/
def emptyCells (b : Board) : List (Fin 4 × Fin 4) :=
  scanOrder.filter (fun p => (b p.1 p.2).isAvailable)

/-- Sum of the values of all 16 cells. -/
def tileSum (b : Board) : Int := (scanOrder.map (fun p => (b p.1 p.2).val)).sum

/-- Sum of the values of the occupied cells. -/
def occupiedSum (b : Board) : Int :=
  (scanOrder.map (fun p => if (b p.1 p.2).isAvailable then 0 else (b p.1 p.2).val)).sum

/-- The board `b` with cell `p` replaced by `x`. -/
def withCell (b : Board) (p : Fin 4 × Fin 4) (x : cell) : Board :=
  fun i j => if (i, j) = p then x else b i j

/-- The value `rand() % 10 == 1 ? 4 : 2` for the draw `d2`. -/
def drawnValue (d2 : Nat) : Int := if (d2 : Int) % 10 = 1 then 4 else 2

/-- A freshly dealt session: one tile of value 2 or 4, fifteen empty cells of
value 0, spawn lock clear, backup equal to the board. -/
def FreshDeal (s : State) : Prop :=
  s.gLockNumGen = false ∧ s.backup = s.board ∧
    ∃ (p : Fin 4 × Fin 4) (v : Int), (v = 2 ∨ v = 4) ∧
      ∀ i j, s.board i j = if (i, j) = p then ⟨v, false⟩ else ⟨0, true⟩

/-- The board of the scenario "row [2,2,0,0] over three empty rows". -/
def sampleBoard : Board := ofVals ![![2, 2, 0, 0], ![0, 0, 0, 0], ![0, 0, 0, 0], ![0, 0, 0, 0]]

/-- A session on `sampleBoard` with an empty backup and the lock set. -/
def sampleState : State :=
  { board := sampleBoard, backup := clearedBoard, gLockNumGen := true }

/-! ## Claims about revert and spawning -/

/-- A board with no empty cell (and no two equal neighbours). -/
def fullBoard : Board := ofVals ![![2, 4, 2, 4], ![4, 2, 4, 2], ![2, 4, 2, 4], ![4, 2, 4, 2]]

/-- A session on the full board, lock clear. -/
def fullState : State := { board := fullBoard, backup := sampleBoard, gLockNumGen := false }

/-- A session on `sampleBoard` with the lock clear. -/
def openState : State := { board := sampleBoard, backup := clearedBoard, gLockNumGen := false }

/-! ## Claims about `init`, restart and the spawn lock -/

/-- The values of the backup that `make_move` leaves, if it returns a state. -/
def stepBackup (r : Except Fault Step) : Option (List (List Int)) :=
  match r with
  | .ok (.running s) => some (vals s.backup)
  | _ => none

/-! ## Claims about merging -/

/-- Row `[2,0,2,4]` over three empty rows. -/
def slideMergeBoard : Board :=
  ofVals ![![2, 0, 2, 4], ![0, 0, 0, 0], ![0, 0, 0, 0], ![0, 0, 0, 0]]

/-- Row `[2,2,4,8]` over three empty rows. -/
def chainBoard : Board :=
  ofVals ![![2, 2, 4, 8], ![0, 0, 0, 0], ![0, 0, 0, 0], ![0, 0, 0, 0]]

/-- Row `[4,2,2,0]` over three empty rows. -/
def pairBoard : Board :=
  ofVals ![![4, 2, 2, 0], ![0, 0, 0, 0], ![0, 0, 0, 0], ![0, 0, 0, 0]]

/-- The values of the board a shift returns, if it returns. -/
def shiftVals (r : Except Fault (Board × Bool)) : Option (List (List Int)) :=
  r.toOption.map (fun p => vals p.1)

/-! ## Sessions: the main loop as a sequence of events -/

/-- What happens in a session: the spawn at the start of a turn, or one command. -/
inductive Event where
  | spawn (d1 d2 : Nat)
  | key (k : Key) (confirmed : Bool) (d1 d2 : Nat)

/-- One event of the main loop: `spawn_random_number` (a return of 0 ends the
game and the process) or `make_move`. -/
def stepEvent (fuel : Nat) (s : State) : Event → Except Fault Step
  | .spawn d1 d2 =>
    if (spawn_random_number d1 d2 s).1 = 0 then .ok .exited
    else .ok (.running (spawn_random_number d1 d2 s).2)
  | .key k confirmed d1 d2 => make_move fuel k confirmed d1 d2 s

/-- Whether two boards differ in some value or flag. -/
def differs (b b' : Board) : Bool := decide (vals b ≠ vals b' ∨ flags b ≠ flags b')

/-- The board "as it stood immediately before the most recent directional move
that changed the board (or the deal if there was none)", updated over one
event that leads from `s` to `s'`. -/
def lastChanging (ghost : Board) (s s' : State) : Event → Board
  | .key .w _ _ _ => if differs s.board s'.board then s.board else ghost
  | .key .a _ _ _ => if differs s.board s'.board then s.board else ghost
  | .key .s _ _ _ => if differs s.board s'.board then s.board else ghost
  | .key .d _ _ _ => if differs s.board s'.board then s.board else ghost
  | .key .x true _ _ => s'.board
  | _ => ghost

/-- The board as it stood immediately before the most recent command other
than a revert (for a confirmed restart: the board it dealt), updated over one
event that leads from `s` to `s'`. -/
def lastSnapshot (ghost : Board) (s s' : State) : Event → Board
  | .spawn _ _ => ghost
  | .key .r _ _ _ => ghost
  | .key .x true _ _ => s'.board
  | .key _ _ _ _ => s.board

/-- A session state together with the two history boards. -/
structure Traced where
  st : State
  changing : Board
  snapshot : Board

/-- Run a list of events; `none` when the process has exited. -/
def run (fuel : Nat) : List Event → Traced → Except Fault (Option Traced)
  | [], t => .ok (some t)
  | e :: es, t =>
    match stepEvent fuel t.st e with
    | .error f => .error f
    | .ok .exited => .ok none
    | .ok (.running s') =>
      run fuel es ⟨s', lastChanging t.changing t.st s' e, lastSnapshot t.snapshot t.st s' e⟩

/-- The session right after `init` at program start. -/
def start (d1 d2 : Nat) : Traced :=
  ⟨init d1 d2 startGlobals, (init d1 d2 startGlobals).board, (init d1 d2 startGlobals).board⟩

/-- Two turns: a move left that merges, then a move left that changes nothing. -/
def idleSecondMove : List Event :=
  [.spawn 0 0, .key .a false 0 0, .spawn 3 0, .key .a false 0 0]

/-- The boards to compare at the end of a run: current board, backup, and the
board before the last board-changing move. -/
def runView (r : Except Fault (Option Traced)) :
    Option (List (List Int) × List (List Int) × List (List Int)) :=
  r.toOption.join.map (fun t => (vals t.st.board, vals t.st.backup, vals t.changing))

/-- What an invariant of sessions has to say: both boards well-formed and the
backup equal to the last snapshot. -/
def BackupInv (t : Traced) : Prop :=
  WF t.st.board ∧ WF t.st.backup ∧ t.st.backup = t.snapshot


/-! ## Definitions for the claims about counting, revert and the first turn -/

/-- Number of occupied cells of a board. -/
def occupiedCount (b : Board) : Nat :=
  (scanOrder.filter (fun p => !(b p.1 p.2).isAvailable)).length

/-- The board with the given tiles (cell and value) and every other cell empty
with value 0; an earlier entry of the list wins. -/
def tilesBoard (ts : List ((Fin 4 × Fin 4) × Int)) : Board :=
  fun i j => match ts.lookup (i, j) with
    | some v => ⟨v, false⟩
    | none => ⟨0, true⟩

/-- A board whose second column holds four 2s. -/
def fullRowsBoard : Board :=
  ofVals ![![4, 2, 0, 0], ![0, 2, 8, 0], ![0, 2, 0, 0], ![2, 2, 0, 4]]

/-- A tile value: a power of two that is at least 2. -/
def IsTile (v : Int) : Prop := ∃ e : Nat, 1 ≤ e ∧ v = 2 ^ e

/-- In a board, a cell is flagged available exactly when its value is 0 and
every occupied cell holds a power of two that is at least 2. -/
def TileWF (b : Board) : Prop :=
  ∀ i j, ((b i j).isAvailable = true ↔ (b i j).val = 0) ∧
    ((b i j).isAvailable = false → IsTile (b i j).val)

/-- The predicate of the tile invariant on both boards of a session. -/
def SessionWF (s : State) : Prop := TileWF s.board ∧ TileWF s.backup


/-! ## The slide loop with a record of the branches it takes -/

/-- The three branches of the body of a slide loop: the neighbour is empty
(slide), the neighbour holds the same value (merge), or neither (stop). -/
inductive Branch where
  | slide
  | merge
  | stop
deriving DecidableEq

/-- Forget the ghost list. -/
def dropTrace (p : Line × Bool × List Branch) : Line × Bool := (p.1, p.2.1)

/-- Every occupied cell of the line has a non-zero value. -/
def NonZeroLine (l : Line) : Prop := ∀ k, (l k).isAvailable = false → (l k).val ≠ 0

/-- Every occupied cell of the board has a non-zero value. -/
def NonZeroTiles (b : Board) : Prop := ∀ i j, (b i j).isAvailable = false → (b i j).val ≠ 0

/-- The branches one tile may take: at most three slides, then nothing more,
or a stop, or one merge followed at once by a stop. -/
def SlideShape (tr : List Branch) : Prop :=
  ∃ s : Nat, s ≤ 3 ∧
    (tr = List.replicate s Branch.slide ∨ tr = List.replicate s Branch.slide ++ [Branch.stop] ∨
      tr = List.replicate s Branch.slide ++ [Branch.merge, Branch.stop])

/-! ## Reflections of a board, and shifts with another order of the inner loop -/

/-- Reverse each row of a board. -/
def mirrorB (b : Board) : Board := fun i j => b i j.rev

/-- Exchange rows and columns of a board. -/
def transposeB (b : Board) : Board := fun i j => b j i

/-- Reverse the order of the rows of a board. -/
def flipB (b : Board) : Board := fun i j => b i.rev j

/-- Apply a board transformation to the board of a result, keeping `didMove`. -/
def mapB (f : Board → Board) (p : Board × Bool) : Board × Bool := (f p.1, p.2)

/-- The four directional shifts with the inner `for` loop visiting the lines in
the given order; `[0, 1, 2, 3]` is the order of the source. -/
def shiftOrd (fuel : Nat) (d : Dir) (order : List (Fin 4)) (b : Board) : Except Fault (Board × Bool) :=
  match d with
  | .up => [1, 2, 3].foldlM (fun st i => order.foldlM (fun st j => tileW fuel i j st) st) (b, false)
  | .left => [1, 2, 3].foldlM (fun st c => order.foldlM (fun st r => tileA fuel c r st) st) (b, false)
  | .down => [2, 1, 0].foldlM (fun st i => order.foldlM (fun st j => tileS fuel i j st) st) (b, false)
  | .right =>
    [2, 1, 0].foldlM (fun st c => order.foldlM (fun st r => tileD fuel c r st) st) (b, false)

/-- The single-line shift function of a direction. -/
def lineShift (fuel : Nat) : Dir → Line → Except Fault (Line × Bool)
  | .left => lineLo fuel
  | .up => lineLo fuel
  | .right => lineHi fuel
  | .down => lineHi fuel

/-- The lines a direction works on: rows for left and right, columns for up and down. -/
def cut : Dir → Board → Fin 4 → Line
  | .left, b => fun r => b r
  | .right, b => fun r => b r
  | .up, b => col b
  | .down, b => col b

/-- The board made of the given rows (left, right) or columns (up, down). -/
def paste : Dir → (Fin 4 → Line) → Board
  | .left, L => L
  | .right, L => L
  | .up, L => ofCols L
  | .down, L => ofCols L

/-- The shift done line by line: the single-line shift applied to each of the
four lines on its own, `didMove` being the disjunction of the four flags. -/
def shiftByLines (fuel : Nat) (d : Dir) (b : Board) : Except Fault (Board × Bool) :=
  lineShift fuel d (cut d b 0) >>= fun r0 =>
  lineShift fuel d (cut d b 1) >>= fun r1 =>
  lineShift fuel d (cut d b 2) >>= fun r2 =>
  lineShift fuel d (cut d b 3) >>= fun r3 =>
  pure (paste d ![r0.1, r1.1, r2.1, r3.1], r0.2 || r1.2 || r2.2 || r3.2)


/-! ## The shifts on the 32-bit `int` of the C type `cell`
The field `val` of a `cell` is a C `int`.  The definitions above read the
doubling `val *= 2` of the merge branch over the mathematical integers, as the
claims about sums and powers of two do.  The definitions of this section are
the same four routines with the product stored as the build stores it: in 32
bits, two's complement, wrapping.  Nothing else in the routines is arithmetic
on cell values (they are copied, compared and set to 0). -/

/-- The least value of the C type `int` (32 bits, two's complement). -/
def INT_MIN : Int := -2147483648

/-- The greatest value of the C type `int`. -/
def INT_MAX : Int := 2147483647

/-- The `int` stored for the mathematical value `v`: the one value in
`INT_MIN..INT_MAX` that is congruent to `v` modulo 2^32. -/
def wrap32 (v : Int) : Int := (v + 2147483648) % 4294967296 - 2147483648

/-- The `while (!done && aboveRow >= 0)` loop of case `'w'`, column `j`, on the C
`int`: `above->val *= 2` stores the wrapped product. -/
def whileW32 : Nat → Fin 4 → Board → Fin 4 → Int → Bool → Bool → Except Fault (Board × Bool)
  | 0, _, _, _, _, _, _ => .error .fuel
  | n + 1, j, b, curr, aboveRow, done, didMove =>
    if !done && decide (0 ≤ aboveRow) then
      match idx? aboveRow with
      | none => .error .bounds
      | some above =>
        if (b above j).isAvailable then
          let b := setVal b above j (b curr j).val
          let b := setVal b curr j 0
          let b := setAvail b above j false
          let b := setAvail b curr j true
          whileW32 n j b above (aboveRow - 1) done true
        else if (b above j).val = (b curr j).val then
          let b := setVal b above j (wrap32 ((b above j).val * 2))
          let b := setVal b curr j 0
          let b := setAvail b above j false
          let b := setAvail b curr j true
          whileW32 n j b curr aboveRow done true
        else whileW32 n j b curr aboveRow true didMove
    else .ok (b, didMove)

/-- The `while (!done && belowRow < BOARD_ROW_CNT)` loop of case `'s'`, column `j`,
on the C `int`: `below->val *= 2` stores the wrapped product. -/
def whileS32 : Nat → Fin 4 → Board → Fin 4 → Int → Bool → Bool → Except Fault (Board × Bool)
  | 0, _, _, _, _, _, _ => .error .fuel
  | n + 1, j, b, curr, belowRow, done, didMove =>
    if !done && decide (belowRow < 4) then
      match idx? belowRow with
      | none => .error .bounds
      | some below =>
        if (b below j).isAvailable then
          let b := setVal b below j (b curr j).val
          let b := setVal b curr j 0
          let b := setAvail b below j false
          let b := setAvail b curr j true
          whileS32 n j b below (belowRow + 1) done true
        else if (b below j).val = (b curr j).val then
          let b := setVal b below j (wrap32 ((b below j).val * 2))
          let b := setVal b curr j 0
          let b := setAvail b below j false
          let b := setAvail b curr j true
          whileS32 n j b curr belowRow done true
        else whileS32 n j b curr belowRow true didMove
    else .ok (b, didMove)

/-- The `while (!done && rightCol < BOARD_COL_CNT)` loop of case `'d'`, row `r`, on
the C `int`: `right->val *= 2` stores the wrapped product. -/
def whileD32 : Nat → Fin 4 → Board → Fin 4 → Int → Bool → Bool → Except Fault (Board × Bool)
  | 0, _, _, _, _, _, _ => .error .fuel
  | n + 1, r, b, curr, rightCol, done, didMove =>
    if !done && decide (rightCol < 4) then
      match idx? rightCol with
      | none => .error .bounds
      | some right =>
        if (b r right).isAvailable then
          let b := setVal b r right (b r curr).val
          let b := setVal b r curr 0
          let b := setAvail b r right false
          let b := setAvail b r curr true
          whileD32 n r b right (rightCol + 1) done true
        else if (b r right).val = (b r curr).val then
          let b := setVal b r right (wrap32 ((b r right).val * 2))
          let b := setVal b r curr 0
          let b := setAvail b r right false
          let b := setAvail b r curr true
          whileD32 n r b curr rightCol done true
        else whileD32 n r b curr rightCol true didMove
    else .ok (b, didMove)

/-- The `while (!done && leftCol >= 0)` loop of case `'a'`, row `r`, on the C `int`:
`left->val *= 2` stores the wrapped product. -/
def whileA32 : Nat → Fin 4 → Board → Fin 4 → Int → Bool → Bool → Except Fault (Board × Bool)
  | 0, _, _, _, _, _, _ => .error .fuel
  | n + 1, r, b, curr, leftCol, done, didMove =>
    if !done && decide (0 ≤ leftCol) then
      match idx? leftCol with
      | none => .error .bounds
      | some left =>
        if (b r left).isAvailable then
          let b := setVal b r left (b r curr).val
          let b := setVal b r curr 0
          let b := setAvail b r left false
          let b := setAvail b r curr true
          whileA32 n r b left (leftCol - 1) done true
        else if (b r left).val = (b r curr).val then
          let b := setVal b r left (wrap32 ((b r left).val * 2))
          let b := setVal b r curr 0
          let b := setAvail b r left false
          let b := setAvail b r curr true
          whileA32 n r b curr leftCol done true
        else whileA32 n r b curr leftCol true didMove
    else .ok (b, didMove)

/-- Body of the two `for` loops of case `'w'` at cell `(i, j)`, on the C `int`. -/
def tileW32 (fuel : Nat) (i j : Fin 4) (st : Board × Bool) : Except Fault (Board × Bool) :=
  if !(st.1 i j).isAvailable then whileW32 fuel j st.1 i ((i : Int) - 1) false st.2 else .ok st

/-- Body of the two `for` loops of case `'s'` at cell `(i, j)`, on the C `int`. -/
def tileS32 (fuel : Nat) (i j : Fin 4) (st : Board × Bool) : Except Fault (Board × Bool) :=
  if !(st.1 i j).isAvailable then whileS32 fuel j st.1 i ((i : Int) + 1) false st.2 else .ok st

/-- Body of the two `for` loops of case `'d'` at cell `(r, c)`, on the C `int`. -/
def tileD32 (fuel : Nat) (c r : Fin 4) (st : Board × Bool) : Except Fault (Board × Bool) :=
  if !(st.1 r c).isAvailable then whileD32 fuel r st.1 c ((c : Int) + 1) false st.2 else .ok st

/-- Body of the two `for` loops of case `'a'` at cell `(r, c)`, on the C `int`. -/
def tileA32 (fuel : Nat) (c r : Fin 4) (st : Board × Bool) : Except Fault (Board × Bool) :=
  if !(st.1 r c).isAvailable then whileA32 fuel r st.1 c ((c : Int) - 1) false st.2 else .ok st

/-- Case `'w'` on the C `int`: `for (i = 1; i < 4; ++i) for (j = 0; j < 4; ++j)`. -/
def shiftW32 (fuel : Nat) (b : Board) : Except Fault (Board × Bool) :=
  [1, 2, 3].foldlM (fun st i => [0, 1, 2, 3].foldlM (fun st j => tileW32 fuel i j st) st) (b, false)

/-- Case `'s'` on the C `int`: `for (i = 2; i >= 0; --i) for (j = 0; j < 4; ++j)`. -/
def shiftS32 (fuel : Nat) (b : Board) : Except Fault (Board × Bool) :=
  [2, 1, 0].foldlM (fun st i => [0, 1, 2, 3].foldlM (fun st j => tileS32 fuel i j st) st) (b, false)

/-- Case `'d'` on the C `int`: `for (c = 2; c >= 0; --c) for (r = 0; r < 4; ++r)`. -/
def shiftD32 (fuel : Nat) (b : Board) : Except Fault (Board × Bool) :=
  [2, 1, 0].foldlM (fun st c => [0, 1, 2, 3].foldlM (fun st r => tileD32 fuel c r st) st) (b, false)

/-- Case `'a'` on the C `int`: `for (c = 1; c < 4; ++c) for (r = 0; r < 4; ++r)`. -/
def shiftA32 (fuel : Nat) (b : Board) : Except Fault (Board × Bool) :=
  [1, 2, 3].foldlM (fun st c => [0, 1, 2, 3].foldlM (fun st r => tileA32 fuel c r st) st) (b, false)

/-- The directional shift selected by the `switch` of `make_move`, on the C `int`. -/
def shift32 (fuel : Nat) : Dir → Board → Except Fault (Board × Bool)
  | .up => shiftW32 fuel
  | .left => shiftA32 fuel
  | .down => shiftS32 fuel
  | .right => shiftD32 fuel

/-- The slide loop of cases `'w'` and `'a'` on the C `int`, restricted to the one
line it works on: the neighbour index decreases towards 0. -/
def whileLo32 : Nat → Line → Fin 4 → Int → Bool → Bool → Except Fault (Line × Bool)
  | 0, _, _, _, _, _ => .error .fuel
  | n + 1, l, curr, nb, done, didMove =>
    if !done && decide (0 ≤ nb) then
      match idx? nb with
      | none => .error .bounds
      | some near =>
        if (l near).isAvailable then
          let l := lsetVal l near (l curr).val
          let l := lsetVal l curr 0
          let l := lsetAvail l near false
          let l := lsetAvail l curr true
          whileLo32 n l near (nb - 1) done true
        else if (l near).val = (l curr).val then
          let l := lsetVal l near (wrap32 ((l near).val * 2))
          let l := lsetVal l curr 0
          let l := lsetAvail l near false
          let l := lsetAvail l curr true
          whileLo32 n l curr nb done true
        else whileLo32 n l curr nb true didMove
    else .ok (l, didMove)

/-- The slide loop of cases `'s'` and `'d'` on the C `int`, restricted to the one
line it works on: the neighbour index increases towards 3. -/
def whileHi32 : Nat → Line → Fin 4 → Int → Bool → Bool → Except Fault (Line × Bool)
  | 0, _, _, _, _, _ => .error .fuel
  | n + 1, l, curr, nb, done, didMove =>
    if !done && decide (nb < 4) then
      match idx? nb with
      | none => .error .bounds
      | some near =>
        if (l near).isAvailable then
          let l := lsetVal l near (l curr).val
          let l := lsetVal l curr 0
          let l := lsetAvail l near false
          let l := lsetAvail l curr true
          whileHi32 n l near (nb + 1) done true
        else if (l near).val = (l curr).val then
          let l := lsetVal l near (wrap32 ((l near).val * 2))
          let l := lsetVal l curr 0
          let l := lsetAvail l near false
          let l := lsetAvail l curr true
          whileHi32 n l curr nb done true
        else whileHi32 n l curr nb true didMove
    else .ok (l, didMove)

/-- One tile of a line handled towards index 0, on the C `int`. -/
def tileLo32 (fuel : Nat) (c : Fin 4) (st : Line × Bool) : Except Fault (Line × Bool) :=
  if !(st.1 c).isAvailable then whileLo32 fuel st.1 c ((c : Int) - 1) false st.2 else .ok st

/-- One tile of a line handled towards index 3, on the C `int`. -/
def tileHi32 (fuel : Nat) (c : Fin 4) (st : Line × Bool) : Except Fault (Line × Bool) :=
  if !(st.1 c).isAvailable then whileHi32 fuel st.1 c ((c : Int) + 1) false st.2 else .ok st

/-- The single-line shift towards index 0 on the C `int`: tiles 1, 2, 3 in this order. -/
def lineLo32 (fuel : Nat) (l : Line) : Except Fault (Line × Bool) :=
  [1, 2, 3].foldlM (fun st c => tileLo32 fuel c st) (l, false)

/-- The single-line shift towards index 3 on the C `int`: tiles 2, 1, 0 in this order. -/
def lineHi32 (fuel : Nat) (l : Line) : Except Fault (Line × Bool) :=
  [2, 1, 0].foldlM (fun st c => tileHi32 fuel c st) (l, false)

/-- The loop `whileLo32` with a ghost list to which every iteration appends the
branch it takes. -/
def whileLoTrace32 : Nat → Line → Fin 4 → Int → Bool → Bool → List Branch →
    Except Fault (Line × Bool × List Branch)
  | 0, _, _, _, _, _, _ => .error .fuel
  | n + 1, l, curr, nb, done, didMove, tr =>
    if !done && decide (0 ≤ nb) then
      match idx? nb with
      | none => .error .bounds
      | some near =>
        if (l near).isAvailable then
          let l := lsetVal l near (l curr).val
          let l := lsetVal l curr 0
          let l := lsetAvail l near false
          let l := lsetAvail l curr true
          whileLoTrace32 n l near (nb - 1) done true (tr ++ [.slide])
        else if (l near).val = (l curr).val then
          let l := lsetVal l near (wrap32 ((l near).val * 2))
          let l := lsetVal l curr 0
          let l := lsetAvail l near false
          let l := lsetAvail l curr true
          whileLoTrace32 n l curr nb done true (tr ++ [.merge])
        else whileLoTrace32 n l curr nb true didMove (tr ++ [.stop])
    else .ok (l, didMove, tr)

/-- The loop `whileHi32` with a ghost list to which every iteration appends the
branch it takes. -/
def whileHiTrace32 : Nat → Line → Fin 4 → Int → Bool → Bool → List Branch →
    Except Fault (Line × Bool × List Branch)
  | 0, _, _, _, _, _, _ => .error .fuel
  | n + 1, l, curr, nb, done, didMove, tr =>
    if !done && decide (nb < 4) then
      match idx? nb with
      | none => .error .bounds
      | some near =>
        if (l near).isAvailable then
          let l := lsetVal l near (l curr).val
          let l := lsetVal l curr 0
          let l := lsetAvail l near false
          let l := lsetAvail l curr true
          whileHiTrace32 n l near (nb + 1) done true (tr ++ [.slide])
        else if (l near).val = (l curr).val then
          let l := lsetVal l near (wrap32 ((l near).val * 2))
          let l := lsetVal l curr 0
          let l := lsetAvail l near false
          let l := lsetAvail l curr true
          whileHiTrace32 n l curr nb done true (tr ++ [.merge])
        else whileHiTrace32 n l curr nb true didMove (tr ++ [.stop])
    else .ok (l, didMove, tr)

/-- A value an arriving tile may have for its slide loop to end: an `int` other
than 0 and `INT_MIN`, the two values whose double is stored as 0. -/
def SafeTile (v : Int) : Prop := INT_MIN < v ∧ v ≤ INT_MAX ∧ v ≠ 0

instance (v : Int) : Decidable (SafeTile v) :=
  inferInstanceAs (Decidable (INT_MIN < v ∧ v ≤ INT_MAX ∧ v ≠ 0))

/-- Every occupied cell of the line holds an `int` other than 0 and `INT_MIN`. -/
def SafeLine (l : Line) : Prop := ∀ k, (l k).isAvailable = false → SafeTile (l k).val

/-- Every occupied cell of the board holds an `int` other than 0 and `INT_MIN`. -/
def SafeTiles (b : Board) : Prop := ∀ i j, (b i j).isAvailable = false → SafeTile (b i j).val

/-- Every occupied cell of the board holds a value whose double is an `int`:
a value from -2^30 up to 2^30 - 1. -/
def SmallTiles (b : Board) : Prop :=
  ∀ i j, (b i j).isAvailable = false → -1073741824 ≤ (b i j).val ∧ (b i j).val < 1073741824

/-- The availability flags of a line, index 0 first. -/
def lineFlags (l : Line) : List Bool :=
  [(l 0).isAvailable, (l 1).isAvailable, (l 2).isAvailable, (l 3).isAvailable]

/-- The flags of the board a shift returns, if it returns. -/
def shiftFlags (r : Except Fault (Board × Bool)) : Option (List (List Bool)) :=
  r.toOption.map (fun p => flags p.1)

/-- A board whose first row holds four tiles of value 2^30. -/
def bigRowBoard : Board :=
  ofVals ![![1073741824, 1073741824, 1073741824, 1073741824], ![0, 0, 0, 0], ![0, 0, 0, 0],
    ![0, 0, 0, 0]]

/-- A board whose first row starts with two tiles of value `INT_MIN`. -/
def intMinBoard : Board :=
  ofVals ![![-2147483648, -2147483648, 0, 0], ![0, 0, 0, 0], ![0, 0, 0, 0], ![0, 0, 0, 0]]

/-- A board whose first row holds four 2s, the other rows being empty. -/
def twosRowBoard : Board :=
  ofVals ![![2, 2, 2, 2], ![0, 0, 0, 0], ![0, 0, 0, 0], ![0, 0, 0, 0]]


/-! # Theorems -/

/-! ## Board loops act on one line -/

theorem putRow_self (b : Board) (r : Fin 4) : putRow b r (b r) = b := by
  funext i j; by_cases h : i = r <;> simp [putRow, h]

theorem putCol_self (b : Board) (c : Fin 4) : putCol b c (col b c) = b := by
  funext i j; by_cases h : j = c <;> simp [putCol, col, h]

@[simp] theorem putRow_get (b : Board) (r : Fin 4) (l : Line) (k : Fin 4) :
    putRow b r l r k = l k := by simp [putRow]

@[simp] theorem putCol_get (b : Board) (c : Fin 4) (l : Line) (k : Fin 4) :
    putCol b c l k c = l k := by simp [putCol]

@[simp] theorem setVal_putRow (b : Board) (r : Fin 4) (l : Line) (k : Fin 4) (v : Int) :
    setVal (putRow b r l) r k v = putRow b r (lsetVal l k v) := by
  funext i j
  by_cases hi : i = r <;> by_cases hj : j = k <;> simp [setVal, putRow, lsetVal, hi, hj]

@[simp] theorem setAvail_putRow (b : Board) (r : Fin 4) (l : Line) (k : Fin 4) (f : Bool) :
    setAvail (putRow b r l) r k f = putRow b r (lsetAvail l k f) := by
  funext i j
  by_cases hi : i = r <;> by_cases hj : j = k <;> simp [setAvail, putRow, lsetAvail, hi, hj]

@[simp] theorem setVal_putCol (b : Board) (c : Fin 4) (l : Line) (k : Fin 4) (v : Int) :
    setVal (putCol b c l) k c v = putCol b c (lsetVal l k v) := by
  funext i j
  by_cases hi : i = k <;> by_cases hj : j = c <;> simp [setVal, putCol, lsetVal, hi, hj]

@[simp] theorem setAvail_putCol (b : Board) (c : Fin 4) (l : Line) (k : Fin 4) (f : Bool) :
    setAvail (putCol b c l) k c f = putCol b c (lsetAvail l k f) := by
  funext i j
  by_cases hi : i = k <;> by_cases hj : j = c <;> simp [setAvail, putCol, lsetAvail, hi, hj]

theorem whileA_line (n : Nat) (r : Fin 4) (b : Board) (l : Line) (curr : Fin 4) (nb : Int)
    (done dm : Bool) :
    whileA n r (putRow b r l) curr nb done dm = (whileLo n l curr nb done dm).map (inRow b r) := by
  induction n generalizing l curr nb done dm with
  | zero => rfl
  | succ n ih =>
    unfold whileA whileLo
    split
    · cases h : idx? nb with
      | none => rfl
      | some near =>
        simp only [putRow_get, setVal_putRow, setAvail_putRow]
        split
        · exact ih _ _ _ _ _
        · split
          · exact ih _ _ _ _ _
          · exact ih _ _ _ _ _
    · rfl

theorem whileD_line (n : Nat) (r : Fin 4) (b : Board) (l : Line) (curr : Fin 4) (nb : Int)
    (done dm : Bool) :
    whileD n r (putRow b r l) curr nb done dm = (whileHi n l curr nb done dm).map (inRow b r) := by
  induction n generalizing l curr nb done dm with
  | zero => rfl
  | succ n ih =>
    unfold whileD whileHi
    split
    · cases h : idx? nb with
      | none => rfl
      | some near =>
        simp only [putRow_get, setVal_putRow, setAvail_putRow]
        split
        · exact ih _ _ _ _ _
        · split
          · exact ih _ _ _ _ _
          · exact ih _ _ _ _ _
    · rfl

theorem whileW_line (n : Nat) (j : Fin 4) (b : Board) (l : Line) (curr : Fin 4) (nb : Int)
    (done dm : Bool) :
    whileW n j (putCol b j l) curr nb done dm = (whileLo n l curr nb done dm).map (inCol b j) := by
  induction n generalizing l curr nb done dm with
  | zero => rfl
  | succ n ih =>
    unfold whileW whileLo
    split
    · cases h : idx? nb with
      | none => rfl
      | some near =>
        simp only [putCol_get, setVal_putCol, setAvail_putCol]
        split
        · exact ih _ _ _ _ _
        · split
          · exact ih _ _ _ _ _
          · exact ih _ _ _ _ _
    · rfl

theorem whileS_line (n : Nat) (j : Fin 4) (b : Board) (l : Line) (curr : Fin 4) (nb : Int)
    (done dm : Bool) :
    whileS n j (putCol b j l) curr nb done dm = (whileHi n l curr nb done dm).map (inCol b j) := by
  induction n generalizing l curr nb done dm with
  | zero => rfl
  | succ n ih =>
    unfold whileS whileHi
    split
    · cases h : idx? nb with
      | none => rfl
      | some near =>
        simp only [putCol_get, setVal_putCol, setAvail_putCol]
        split
        · exact ih _ _ _ _ _
        · split
          · exact ih _ _ _ _ _
          · exact ih _ _ _ _ _
    · rfl

theorem tileA_line (n : Nat) (c r : Fin 4) (b : Board) (l : Line) (dm : Bool) :
    tileA n c r (putRow b r l, dm) = (tileLo n c (l, dm)).map (inRow b r) := by
  unfold tileA tileLo
  simp only [putRow_get]
  split
  · exact whileA_line _ _ _ _ _ _ _ _
  · rfl

theorem tileD_line (n : Nat) (c r : Fin 4) (b : Board) (l : Line) (dm : Bool) :
    tileD n c r (putRow b r l, dm) = (tileHi n c (l, dm)).map (inRow b r) := by
  unfold tileD tileHi
  simp only [putRow_get]
  split
  · exact whileD_line _ _ _ _ _ _ _ _
  · rfl

theorem tileW_line (n : Nat) (i j : Fin 4) (b : Board) (l : Line) (dm : Bool) :
    tileW n i j (putCol b j l, dm) = (tileLo n i (l, dm)).map (inCol b j) := by
  unfold tileW tileLo
  simp only [putCol_get]
  split
  · exact whileW_line _ _ _ _ _ _ _ _
  · rfl

theorem tileS_line (n : Nat) (i j : Fin 4) (b : Board) (l : Line) (dm : Bool) :
    tileS n i j (putCol b j l, dm) = (tileHi n i (l, dm)).map (inCol b j) := by
  unfold tileS tileHi
  simp only [putCol_get]
  split
  · exact whileS_line _ _ _ _ _ _ _ _
  · rfl


/-! ## The `didMove` flag only accumulates -/

@[simp] theorem ok_bind {ε α β : Type} (a : α) (f : α → Except ε β) :
    (Except.ok a >>= f) = f a := rfl

theorem whileLo_flag (n : Nat) (l : Line) (curr : Fin 4) (nb : Int) (done dm : Bool) :
    whileLo n l curr nb done dm = (whileLo n l curr nb done false).map (orFlag dm) := by
  induction n generalizing l curr nb done dm with
  | zero => rfl
  | succ n ih =>
    unfold whileLo
    split
    · cases h : idx? nb with
      | none => rfl
      | some near =>
        simp only
        split
        · rw [ih _ _ _ _ true]
          cases whileLo n _ near (nb - 1) done false <;> simp [Except.map, orFlag]
        · split
          · rw [ih _ _ _ _ true]
            cases whileLo n _ curr nb done false <;> simp [Except.map, orFlag]
          · exact ih _ _ _ _ _
    · simp [Except.map, orFlag]

theorem whileHi_flag (n : Nat) (l : Line) (curr : Fin 4) (nb : Int) (done dm : Bool) :
    whileHi n l curr nb done dm = (whileHi n l curr nb done false).map (orFlag dm) := by
  induction n generalizing l curr nb done dm with
  | zero => rfl
  | succ n ih =>
    unfold whileHi
    split
    · cases h : idx? nb with
      | none => rfl
      | some near =>
        simp only
        split
        · rw [ih _ _ _ _ true]
          cases whileHi n _ near (nb + 1) done false <;> simp [Except.map, orFlag]
        · split
          · rw [ih _ _ _ _ true]
            cases whileHi n _ curr nb done false <;> simp [Except.map, orFlag]
          · exact ih _ _ _ _ _
    · simp [Except.map, orFlag]

theorem tileLo_flag (n : Nat) (c : Fin 4) (l : Line) (dm : Bool) :
    tileLo n c (l, dm) = (tileLo n c (l, false)).map (orFlag dm) := by
  unfold tileLo
  split
  · exact whileLo_flag _ _ _ _ _ _
  · simp [Except.map, orFlag]

theorem tileHi_flag (n : Nat) (c : Fin 4) (l : Line) (dm : Bool) :
    tileHi n c (l, dm) = (tileHi n c (l, false)).map (orFlag dm) := by
  unfold tileHi
  split
  · exact whileHi_flag _ _ _ _ _ _
  · simp [Except.map, orFlag]

theorem tileLo_eval {n : Nat} {c : Fin 4} {l l1 : Line} {f : Bool}
    (h : tileLo n c (l, false) = .ok (l1, f)) (dm : Bool) :
    tileLo n c (l, dm) = .ok (l1, dm || f) := by
  rw [tileLo_flag, h]; rfl

theorem tileHi_eval {n : Nat} {c : Fin 4} {l l1 : Line} {f : Bool}
    (h : tileHi n c (l, false) = .ok (l1, f)) (dm : Bool) :
    tileHi n c (l, dm) = .ok (l1, dm || f) := by
  rw [tileHi_flag, h]; rfl

/-- A line shift succeeds exactly when its three tiles succeed in turn. -/
theorem lineLo_ok_iff (n : Nat) (l L : Line) (m : Bool) :
    lineLo n l = .ok (L, m) ↔ ∃ l1 f1 l2 f2 f3,
      tileLo n 1 (l, false) = .ok (l1, f1) ∧ tileLo n 2 (l1, false) = .ok (l2, f2) ∧
      tileLo n 3 (l2, false) = .ok (L, f3) ∧ m = (f1 || f2 || f3) := by
  unfold lineLo
  simp only [List.foldlM, bind_pure]
  constructor
  · intro h
    cases h1 : tileLo n 1 (l, false) with
    | error e => rw [h1] at h; cases h
    | ok p1 =>
      obtain ⟨l1, f1⟩ := p1
      rw [h1, ok_bind] at h
      cases h2 : tileLo n 2 (l1, false) with
      | error e => rw [tileLo_flag, h2] at h; cases h
      | ok p2 =>
        obtain ⟨l2, f2⟩ := p2
        rw [tileLo_eval h2, ok_bind] at h
        cases h3 : tileLo n 3 (l2, false) with
        | error e => rw [tileLo_flag, h3] at h; cases h
        | ok p3 =>
          obtain ⟨l3, f3⟩ := p3
          rw [tileLo_eval h3] at h
          injection h with h
          injection h with hL hm
          subst hL
          exact ⟨l1, f1, l2, f2, f3, rfl, h2, h3, hm.symm⟩
  · rintro ⟨l1, f1, l2, f2, f3, h1, h2, h3, rfl⟩
    rw [h1, ok_bind, tileLo_eval h2, ok_bind, tileLo_eval h3]

theorem lineHi_ok_iff (n : Nat) (l L : Line) (m : Bool) :
    lineHi n l = .ok (L, m) ↔ ∃ l1 f1 l2 f2 f3,
      tileHi n 2 (l, false) = .ok (l1, f1) ∧ tileHi n 1 (l1, false) = .ok (l2, f2) ∧
      tileHi n 0 (l2, false) = .ok (L, f3) ∧ m = (f1 || f2 || f3) := by
  unfold lineHi
  simp only [List.foldlM, bind_pure]
  constructor
  · intro h
    cases h1 : tileHi n 2 (l, false) with
    | error e => rw [h1] at h; cases h
    | ok p1 =>
      obtain ⟨l1, f1⟩ := p1
      rw [h1, ok_bind] at h
      cases h2 : tileHi n 1 (l1, false) with
      | error e => rw [tileHi_flag, h2] at h; cases h
      | ok p2 =>
        obtain ⟨l2, f2⟩ := p2
        rw [tileHi_eval h2, ok_bind] at h
        cases h3 : tileHi n 0 (l2, false) with
        | error e => rw [tileHi_flag, h3] at h; cases h
        | ok p3 =>
          obtain ⟨l3, f3⟩ := p3
          rw [tileHi_eval h3] at h
          injection h with h
          injection h with hL hm
          subst hL
          exact ⟨l1, f1, l2, f2, f3, rfl, h2, h3, hm.symm⟩
  · rintro ⟨l1, f1, l2, f2, f3, h1, h2, h3, rfl⟩
    rw [h1, ok_bind, tileHi_eval h2, ok_bind, tileHi_eval h3]

/-! ## A pass of the inner `for` loop over the four lines -/

theorem tileA_eval {n : Nat} {c r : Fin 4} {B : Board} {l1 : Line} {f : Bool}
    (h : tileLo n c (B r, false) = .ok (l1, f)) (dm : Bool) :
    tileA n c r (B, dm) = .ok (putRow B r l1, dm || f) := by
  have := tileA_line n c r B (B r) dm
  rw [putRow_self, tileLo_eval h] at this
  exact this

theorem tileD_eval {n : Nat} {c r : Fin 4} {B : Board} {l1 : Line} {f : Bool}
    (h : tileHi n c (B r, false) = .ok (l1, f)) (dm : Bool) :
    tileD n c r (B, dm) = .ok (putRow B r l1, dm || f) := by
  have := tileD_line n c r B (B r) dm
  rw [putRow_self, tileHi_eval h] at this
  exact this

theorem tileW_eval {n : Nat} {i j : Fin 4} {B : Board} {l1 : Line} {f : Bool}
    (h : tileLo n i (col B j, false) = .ok (l1, f)) (dm : Bool) :
    tileW n i j (B, dm) = .ok (putCol B j l1, dm || f) := by
  have := tileW_line n i j B (col B j) dm
  rw [putCol_self, tileLo_eval h] at this
  exact this

theorem tileS_eval {n : Nat} {i j : Fin 4} {B : Board} {l1 : Line} {f : Bool}
    (h : tileHi n i (col B j, false) = .ok (l1, f)) (dm : Bool) :
    tileS n i j (B, dm) = .ok (putCol B j l1, dm || f) := by
  have := tileS_line n i j B (col B j) dm
  rw [putCol_self, tileHi_eval h] at this
  exact this

theorem putRow_other (b : Board) (r i : Fin 4) (l : Line) (h : i ≠ r) : putRow b r l i = b i := by
  funext j; simp [putRow, h]

theorem col_putCol_other (b : Board) (c j : Fin 4) (l : Line) (h : j ≠ c) :
    col (putCol b c l) j = col b j := by
  funext i; simp [putCol, col, h]

theorem passA (n : Nat) (c : Fin 4) (B : Board) (dm : Bool) (L : Fin 4 → Line) (f : Fin 4 → Bool)
    (h : ∀ r, tileLo n c (B r, false) = .ok (L r, f r)) :
    [0, 1, 2, 3].foldlM (fun st r => tileA n c r st) (B, dm)
      = .ok (L, dm || f 0 || f 1 || f 2 || f 3) := by
  have e0 := tileA_eval (h 0) dm
  have e1 : tileA n c 1 (putRow B 0 (L 0), dm || f 0) = _ :=
    tileA_eval (B := putRow B 0 (L 0)) (by rw [putRow_other _ _ _ _ (by decide)]; exact h 1) _
  have e2 : tileA n c 2 (putRow (putRow B 0 (L 0)) 1 (L 1), dm || f 0 || f 1) = _ :=
    tileA_eval (B := putRow (putRow B 0 (L 0)) 1 (L 1))
      (by rw [putRow_other _ _ _ _ (by decide), putRow_other _ _ _ _ (by decide)]; exact h 2) _
  have e3 : tileA n c 3 (putRow (putRow (putRow B 0 (L 0)) 1 (L 1)) 2 (L 2),
      dm || f 0 || f 1 || f 2) = _ :=
    tileA_eval (B := putRow (putRow (putRow B 0 (L 0)) 1 (L 1)) 2 (L 2))
      (by rw [putRow_other _ _ _ _ (by decide), putRow_other _ _ _ _ (by decide),
            putRow_other _ _ _ _ (by decide)]; exact h 3) _
  simp only [List.foldlM, bind_pure, e0, ok_bind, e1, e2, e3]
  congr 2
  funext i j
  fin_cases i <;> simp [putRow]

theorem passD (n : Nat) (c : Fin 4) (B : Board) (dm : Bool) (L : Fin 4 → Line) (f : Fin 4 → Bool)
    (h : ∀ r, tileHi n c (B r, false) = .ok (L r, f r)) :
    [0, 1, 2, 3].foldlM (fun st r => tileD n c r st) (B, dm)
      = .ok (L, dm || f 0 || f 1 || f 2 || f 3) := by
  have e0 := tileD_eval (h 0) dm
  have e1 : tileD n c 1 (putRow B 0 (L 0), dm || f 0) = _ :=
    tileD_eval (B := putRow B 0 (L 0)) (by rw [putRow_other _ _ _ _ (by decide)]; exact h 1) _
  have e2 : tileD n c 2 (putRow (putRow B 0 (L 0)) 1 (L 1), dm || f 0 || f 1) = _ :=
    tileD_eval (B := putRow (putRow B 0 (L 0)) 1 (L 1))
      (by rw [putRow_other _ _ _ _ (by decide), putRow_other _ _ _ _ (by decide)]; exact h 2) _
  have e3 : tileD n c 3 (putRow (putRow (putRow B 0 (L 0)) 1 (L 1)) 2 (L 2),
      dm || f 0 || f 1 || f 2) = _ :=
    tileD_eval (B := putRow (putRow (putRow B 0 (L 0)) 1 (L 1)) 2 (L 2))
      (by rw [putRow_other _ _ _ _ (by decide), putRow_other _ _ _ _ (by decide),
            putRow_other _ _ _ _ (by decide)]; exact h 3) _
  simp only [List.foldlM, bind_pure, e0, ok_bind, e1, e2, e3]
  congr 2
  funext i j
  fin_cases i <;> simp [putRow]

theorem passW (n : Nat) (i : Fin 4) (B : Board) (dm : Bool) (L : Fin 4 → Line) (f : Fin 4 → Bool)
    (h : ∀ j, tileLo n i (col B j, false) = .ok (L j, f j)) :
    [0, 1, 2, 3].foldlM (fun st j => tileW n i j st) (B, dm)
      = .ok (ofCols L, dm || f 0 || f 1 || f 2 || f 3) := by
  have e0 := tileW_eval (h 0) dm
  have e1 : tileW n i 1 (putCol B 0 (L 0), dm || f 0) = _ :=
    tileW_eval (B := putCol B 0 (L 0)) (by rw [col_putCol_other _ _ _ _ (by decide)]; exact h 1) _
  have e2 : tileW n i 2 (putCol (putCol B 0 (L 0)) 1 (L 1), dm || f 0 || f 1) = _ :=
    tileW_eval (B := putCol (putCol B 0 (L 0)) 1 (L 1))
      (by rw [col_putCol_other _ _ _ _ (by decide), col_putCol_other _ _ _ _ (by decide)]
          exact h 2) _
  have e3 : tileW n i 3 (putCol (putCol (putCol B 0 (L 0)) 1 (L 1)) 2 (L 2),
      dm || f 0 || f 1 || f 2) = _ :=
    tileW_eval (B := putCol (putCol (putCol B 0 (L 0)) 1 (L 1)) 2 (L 2))
      (by rw [col_putCol_other _ _ _ _ (by decide), col_putCol_other _ _ _ _ (by decide),
            col_putCol_other _ _ _ _ (by decide)]; exact h 3) _
  simp only [List.foldlM, bind_pure, e0, ok_bind, e1, e2, e3]
  congr 2
  funext i j
  fin_cases j <;> simp [putCol, ofCols]

theorem passS (n : Nat) (i : Fin 4) (B : Board) (dm : Bool) (L : Fin 4 → Line) (f : Fin 4 → Bool)
    (h : ∀ j, tileHi n i (col B j, false) = .ok (L j, f j)) :
    [0, 1, 2, 3].foldlM (fun st j => tileS n i j st) (B, dm)
      = .ok (ofCols L, dm || f 0 || f 1 || f 2 || f 3) := by
  have e0 := tileS_eval (h 0) dm
  have e1 : tileS n i 1 (putCol B 0 (L 0), dm || f 0) = _ :=
    tileS_eval (B := putCol B 0 (L 0)) (by rw [col_putCol_other _ _ _ _ (by decide)]; exact h 1) _
  have e2 : tileS n i 2 (putCol (putCol B 0 (L 0)) 1 (L 1), dm || f 0 || f 1) = _ :=
    tileS_eval (B := putCol (putCol B 0 (L 0)) 1 (L 1))
      (by rw [col_putCol_other _ _ _ _ (by decide), col_putCol_other _ _ _ _ (by decide)]
          exact h 2) _
  have e3 : tileS n i 3 (putCol (putCol (putCol B 0 (L 0)) 1 (L 1)) 2 (L 2),
      dm || f 0 || f 1 || f 2) = _ :=
    tileS_eval (B := putCol (putCol (putCol B 0 (L 0)) 1 (L 1)) 2 (L 2))
      (by rw [col_putCol_other _ _ _ _ (by decide), col_putCol_other _ _ _ _ (by decide),
            col_putCol_other _ _ _ _ (by decide)]; exact h 3) _
  simp only [List.foldlM, bind_pure, e0, ok_bind, e1, e2, e3]
  congr 2
  funext i j
  fin_cases j <;> simp [putCol, ofCols]


theorem shiftA_of_lines (n : Nat) (b : Board) (L : Fin 4 → Line) (m : Fin 4 → Bool)
    (h : ∀ r, lineLo n (b r) = .ok (L r, m r)) :
    shiftA n b = .ok (L, m 0 || m 1 || m 2 || m 3) := by
  choose l1 f1 l2 f2 f3 h1 h2 h3 hm using fun r => (lineLo_ok_iff n (b r) (L r) (m r)).mp (h r)
  have e : shiftA n b =
      ([0, 1, 2, 3].foldlM (fun st r => tileA n 1 r st) (b, false) >>= fun s1 =>
       [0, 1, 2, 3].foldlM (fun st r => tileA n 2 r st) s1 >>= fun s2 =>
       [0, 1, 2, 3].foldlM (fun st r => tileA n 3 r st) s2 >>= pure) := rfl
  rw [e]
  rw [passA n 1 b false l1 f1 h1, ok_bind, passA n 2 l1 _ l2 f2 h2, ok_bind,
    passA n 3 l2 _ L f3 h3, ok_bind]
  simp only [hm]
  show Except.ok _ = Except.ok _
  congr 2
  simp only [Bool.false_or, Bool.or_assoc, Bool.or_comm, Bool.or_left_comm]

theorem shiftD_of_lines (n : Nat) (b : Board) (L : Fin 4 → Line) (m : Fin 4 → Bool)
    (h : ∀ r, lineHi n (b r) = .ok (L r, m r)) :
    shiftD n b = .ok (L, m 0 || m 1 || m 2 || m 3) := by
  choose l1 f1 l2 f2 f3 h1 h2 h3 hm using fun r => (lineHi_ok_iff n (b r) (L r) (m r)).mp (h r)
  have e : shiftD n b =
      ([0, 1, 2, 3].foldlM (fun st r => tileD n 2 r st) (b, false) >>= fun s1 =>
       [0, 1, 2, 3].foldlM (fun st r => tileD n 1 r st) s1 >>= fun s2 =>
       [0, 1, 2, 3].foldlM (fun st r => tileD n 0 r st) s2 >>= pure) := rfl
  rw [e]
  rw [passD n 2 b false l1 f1 h1, ok_bind, passD n 1 l1 _ l2 f2 h2, ok_bind,
    passD n 0 l2 _ L f3 h3, ok_bind]
  simp only [hm]
  show Except.ok _ = Except.ok _
  congr 2
  simp only [Bool.false_or, Bool.or_assoc, Bool.or_comm, Bool.or_left_comm]

theorem shiftW_of_lines (n : Nat) (b : Board) (L : Fin 4 → Line) (m : Fin 4 → Bool)
    (h : ∀ j, lineLo n (col b j) = .ok (L j, m j)) :
    shiftW n b = .ok (ofCols L, m 0 || m 1 || m 2 || m 3) := by
  choose l1 f1 l2 f2 f3 h1 h2 h3 hm using
    fun j => (lineLo_ok_iff n (col b j) (L j) (m j)).mp (h j)
  have e : shiftW n b =
      ([0, 1, 2, 3].foldlM (fun st j => tileW n 1 j st) (b, false) >>= fun s1 =>
       [0, 1, 2, 3].foldlM (fun st j => tileW n 2 j st) s1 >>= fun s2 =>
       [0, 1, 2, 3].foldlM (fun st j => tileW n 3 j st) s2 >>= pure) := rfl
  rw [e]
  rw [passW n 1 b false l1 f1 h1, ok_bind, passW n 2 (ofCols l1) _ l2 f2 h2, ok_bind,
    passW n 3 (ofCols l2) _ L f3 h3, ok_bind]
  simp only [hm]
  show Except.ok _ = Except.ok _
  congr 2
  simp only [Bool.false_or, Bool.or_assoc, Bool.or_comm, Bool.or_left_comm]

theorem shiftS_of_lines (n : Nat) (b : Board) (L : Fin 4 → Line) (m : Fin 4 → Bool)
    (h : ∀ j, lineHi n (col b j) = .ok (L j, m j)) :
    shiftS n b = .ok (ofCols L, m 0 || m 1 || m 2 || m 3) := by
  choose l1 f1 l2 f2 f3 h1 h2 h3 hm using
    fun j => (lineHi_ok_iff n (col b j) (L j) (m j)).mp (h j)
  have e : shiftS n b =
      ([0, 1, 2, 3].foldlM (fun st j => tileS n 2 j st) (b, false) >>= fun s1 =>
       [0, 1, 2, 3].foldlM (fun st j => tileS n 1 j st) s1 >>= fun s2 =>
       [0, 1, 2, 3].foldlM (fun st j => tileS n 0 j st) s2 >>= pure) := rfl
  rw [e]
  rw [passS n 2 b false l1 f1 h1, ok_bind, passS n 1 (ofCols l1) _ l2 f2 h2, ok_bind,
    passS n 0 (ofCols l2) _ L f3 h3, ok_bind]
  simp only [hm]
  show Except.ok _ = Except.ok _
  congr 2
  simp only [Bool.false_or, Bool.or_assoc, Bool.or_comm, Bool.or_left_comm]


/-! ## Running a line shift on four named cells -/

@[simp] theorem ln_0 (x0 x1 x2 x3 : cell) : ln x0 x1 x2 x3 0 = x0 := rfl
@[simp] theorem ln_1 (x0 x1 x2 x3 : cell) : ln x0 x1 x2 x3 1 = x1 := rfl
@[simp] theorem ln_2 (x0 x1 x2 x3 : cell) : ln x0 x1 x2 x3 2 = x2 := rfl
@[simp] theorem ln_3 (x0 x1 x2 x3 : cell) : ln x0 x1 x2 x3 3 = x3 := rfl

theorem ln_eta (l : Line) : l = ln (l 0) (l 1) (l 2) (l 3) := by
  funext k; fin_cases k <;> rfl

@[simp] theorem lsetVal_ln_0 (x0 x1 x2 x3 : cell) (v : Int) :
    lsetVal (ln x0 x1 x2 x3) 0 v = ln ⟨v, x0.isAvailable⟩ x1 x2 x3 := by
  funext k; fin_cases k <;> rfl
@[simp] theorem lsetVal_ln_1 (x0 x1 x2 x3 : cell) (v : Int) :
    lsetVal (ln x0 x1 x2 x3) 1 v = ln x0 ⟨v, x1.isAvailable⟩ x2 x3 := by
  funext k; fin_cases k <;> rfl
@[simp] theorem lsetVal_ln_2 (x0 x1 x2 x3 : cell) (v : Int) :
    lsetVal (ln x0 x1 x2 x3) 2 v = ln x0 x1 ⟨v, x2.isAvailable⟩ x3 := by
  funext k; fin_cases k <;> rfl
@[simp] theorem lsetVal_ln_3 (x0 x1 x2 x3 : cell) (v : Int) :
    lsetVal (ln x0 x1 x2 x3) 3 v = ln x0 x1 x2 ⟨v, x3.isAvailable⟩ := by
  funext k; fin_cases k <;> rfl
@[simp] theorem lsetAvail_ln_0 (x0 x1 x2 x3 : cell) (f : Bool) :
    lsetAvail (ln x0 x1 x2 x3) 0 f = ln ⟨x0.val, f⟩ x1 x2 x3 := by
  funext k; fin_cases k <;> rfl
@[simp] theorem lsetAvail_ln_1 (x0 x1 x2 x3 : cell) (f : Bool) :
    lsetAvail (ln x0 x1 x2 x3) 1 f = ln x0 ⟨x1.val, f⟩ x2 x3 := by
  funext k; fin_cases k <;> rfl
@[simp] theorem lsetAvail_ln_2 (x0 x1 x2 x3 : cell) (f : Bool) :
    lsetAvail (ln x0 x1 x2 x3) 2 f = ln x0 x1 ⟨x2.val, f⟩ x3 := by
  funext k; fin_cases k <;> rfl
@[simp] theorem lsetAvail_ln_3 (x0 x1 x2 x3 : cell) (f : Bool) :
    lsetAvail (ln x0 x1 x2 x3) 3 f = ln x0 x1 x2 ⟨x3.val, f⟩ := by
  funext k; fin_cases k <;> rfl

@[simp] theorem idx?_neg : idx? (-1) = none := rfl
@[simp] theorem idx?_0 : idx? 0 = some 0 := rfl
@[simp] theorem idx?_1 : idx? 1 = some 1 := rfl
@[simp] theorem idx?_2 : idx? 2 = some 2 := rfl
@[simp] theorem idx?_3 : idx? 3 = some 3 := rfl
@[simp] theorem idx?_4 : idx? 4 = none := rfl

theorem whileLo_succ (n : Nat) (l : Line) (curr : Fin 4) (nb : Int) (done dm : Bool) :
    whileLo (n + 1) l curr nb done dm =
    if !done && decide (0 ≤ nb) then
      match idx? nb with
      | none => .error .bounds
      | some near =>
        if (l near).isAvailable then
          whileLo n (lsetAvail (lsetAvail (lsetVal (lsetVal l near (l curr).val) curr 0)
            near false) curr true) near (nb - 1) done true
        else if (l near).val = (l curr).val then
          whileLo n (lsetAvail (lsetAvail (lsetVal (lsetVal l near ((l near).val * 2)) curr 0)
            near false) curr true) curr nb done true
        else whileLo n l curr nb true dm
    else .ok (l, dm) := rfl

theorem tileLo_1 (n : Nat) (l : Line) (dm : Bool) :
    tileLo n 1 (l, dm) = if !(l 1).isAvailable then whileLo n l 1 0 false dm else .ok (l, dm) := rfl
theorem tileLo_2 (n : Nat) (l : Line) (dm : Bool) :
    tileLo n 2 (l, dm) = if !(l 2).isAvailable then whileLo n l 2 1 false dm else .ok (l, dm) := rfl
theorem tileLo_3 (n : Nat) (l : Line) (dm : Bool) :
    tileLo n 3 (l, dm) = if !(l 3).isAvailable then whileLo n l 3 2 false dm else .ok (l, dm) := rfl

theorem lineLo_unfold (n : Nat) (l : Line) :
    lineLo n l = (tileLo n 1 (l, false) >>= fun s1 => tileLo n 2 s1 >>= fun s2 =>
      tileLo n 3 s2 >>= pure) := rfl

set_option maxHeartbeats 4000000 in
theorem lineLo_wf (n : Nat) (a b c d : Int) :
    lineLo (n + 5) (ln (wfCell a) (wfCell b) (wfCell c) (wfCell d))
      = .ok (lineOf (settle [a, b, c, d]), decide (settle [a, b, c, d] ≠ [a, b, c, d])) := by
  rw [lineLo_unfold]
  by_cases ha : a = 0 <;> by_cases hb : b = 0 <;> by_cases hc : c = 0 <;> by_cases hd : d = 0 <;>
    simp [ha, hb, hc, hd, tileLo_1, tileLo_2, tileLo_3, whileLo_succ, wfCell, lineOf, settle, push]
  all_goals try (split_ifs <;>
    simp_all [tileLo_1, tileLo_2, tileLo_3, whileLo_succ, wfCell, lineOf, settle, push])
  all_goals try (split_ifs <;>
    simp_all [tileLo_1, tileLo_2, tileLo_3, whileLo_succ, wfCell, lineOf, settle, push])
  all_goals try (split_ifs <;>
    simp_all [tileLo_1, tileLo_2, tileLo_3, whileLo_succ, wfCell, lineOf, settle, push])
  all_goals omega

/-! ## The shift towards index 3 mirrors the shift towards index 0 -/

@[simp] theorem mirror_mirror (l : Line) : mirror (mirror l) = l := by
  funext k; simp [mirror]

@[simp] theorem mirror_rev (l : Line) (k : Fin 4) : mirror l k.rev = l k := by
  simp [mirror]

theorem lsetVal_mirror (l : Line) (k : Fin 4) (v : Int) :
    lsetVal (mirror l) k.rev v = mirror (lsetVal l k v) := by
  funext i
  by_cases h : i = k.rev
  · subst h; simp [lsetVal, mirror]
  · have : i.rev ≠ k := fun e => h (by rw [← e, Fin.rev_rev])
    simp [lsetVal, mirror, h, this]

theorem lsetAvail_mirror (l : Line) (k : Fin 4) (f : Bool) :
    lsetAvail (mirror l) k.rev f = mirror (lsetAvail l k f) := by
  funext i
  by_cases h : i = k.rev
  · subst h; simp [lsetAvail, mirror]
  · have : i.rev ≠ k := fun e => h (by rw [← e, Fin.rev_rev])
    simp [lsetAvail, mirror, h, this]

theorem idx?_mirror (nb : Int) : idx? (3 - nb) = (idx? nb).map Fin.rev := by
  unfold idx?
  by_cases h : 0 ≤ nb ∧ nb < 4
  · have h2 : 0 ≤ 3 - nb ∧ 3 - nb < 4 := by omega
    rw [dif_pos h, dif_pos h2]
    simp only [Option.map_some']
    congr 1
    apply Fin.ext
    simp only [Fin.val_rev]
    omega
  · have h2 : ¬ (0 ≤ 3 - nb ∧ 3 - nb < 4) := by omega
    rw [dif_neg h, dif_neg h2]
    rfl

theorem whileHi_mirror (n : Nat) (l : Line) (curr : Fin 4) (nb : Int) (done dm : Bool) :
    whileHi n l curr nb done dm
      = (whileLo n (mirror l) curr.rev (3 - nb) done dm).map mirrorRes := by
  induction n generalizing l curr nb done dm with
  | zero => rfl
  | succ n ih =>
    unfold whileHi whileLo
    have hc : (!done && decide (nb < 4)) = (!done && decide (0 ≤ 3 - nb)) := by
      congr 1
      by_cases h : nb < 4
      · have : 0 ≤ 3 - nb := by omega
        simp [h, this]
      · have : ¬ 0 ≤ 3 - nb := by omega
        simp [h, this]
    rw [hc, idx?_mirror]
    split
    · cases h : idx? nb with
      | none => rfl
      | some near =>
        simp only [Option.map_some', mirror_rev, lsetVal_mirror, lsetAvail_mirror]
        have e : 3 - nb - 1 = 3 - (nb + 1) := by omega
        split
        · rw [e]; exact ih _ _ _ _ _
        · split
          · exact ih _ _ _ _ _
          · exact ih _ _ _ _ _
    · simp [Except.map, mirrorRes]

theorem tileHi_mirror (n : Nat) (c : Fin 4) (l : Line) (dm : Bool) :
    tileHi n c (l, dm) = (tileLo n c.rev (mirror l, dm)).map mirrorRes := by
  unfold tileHi tileLo
  simp only [mirror_rev]
  have e : ((c.rev : Fin 4) : Int) - 1 = 3 - ((c : Int) + 1) := by
    have := Fin.val_rev c
    have := c.isLt
    omega
  split
  · rw [e]; exact whileHi_mirror _ _ _ _ _ _
  · simp [Except.map, mirrorRes]

theorem lineHi_mirror (n : Nat) (l : Line) :
    lineHi n l = (lineLo n (mirror l)).map mirrorRes := by
  have e : lineHi n l = (tileHi n 2 (l, false) >>= fun s1 => tileHi n 1 s1 >>= fun s2 =>
      tileHi n 0 s2 >>= pure) := rfl
  rw [e, lineLo_unfold, tileHi_mirror]
  have r2 : (2 : Fin 4).rev = 1 := rfl
  have r1 : (1 : Fin 4).rev = 2 := rfl
  have r0 : (0 : Fin 4).rev = 3 := rfl
  rw [r2]
  cases h1 : tileLo n 1 (mirror l, false) with
  | error e => rfl
  | ok p1 =>
    obtain ⟨l1, f1⟩ := p1
    show tileHi n 1 (mirror l1, f1) >>= _ = _
    rw [tileHi_mirror, r1, mirror_mirror, ok_bind]
    cases h2 : tileLo n 2 (l1, f1) with
    | error e => rfl
    | ok p2 =>
      obtain ⟨l2, f2⟩ := p2
      show tileHi n 0 (mirror l2, f2) >>= _ = _
      rw [tileHi_mirror, r0, mirror_mirror, ok_bind]
      cases h3 : tileLo n 3 (l2, f2) with
      | error e => rfl
      | ok p3 => rfl


/-! ## Facts about `push` and `settle` -/

theorem settle_eq (vs : List Int) : settle vs = pad4 (vs.foldl push []).reverse := rfl

theorem push_sum (st : List Int) (v : Int) : (push st v).sum = st.sum + v := by
  unfold push
  split_ifs with h0
  · simp [h0]
  · cases st with
    | nil => simp
    | cons t rest =>
      simp only
      split_ifs with h
      · simp only [List.sum_cons]; omega
      · simp only [List.sum_cons]; omega

theorem push_length (st : List Int) (v : Int) : (push st v).length ≤ st.length + 1 := by
  unfold push
  split_ifs with h0
  · omega
  · cases st with
    | nil => simp
    | cons t rest =>
      simp only
      split_ifs <;> simp

theorem push_all (P : Int → Prop) (hP : ∀ t, P t → P (t * 2)) (st : List Int) (v : Int)
    (hst : ∀ x ∈ st, P x) (hv : v ≠ 0 → P v) : ∀ x ∈ push st v, P x := by
  unfold push
  split_ifs with h0
  · exact hst
  · cases st with
    | nil => simpa using hv h0
    | cons t rest =>
      simp only
      split_ifs with h
      · intro x hx
        rcases List.mem_cons.mp hx with rfl | hx
        · exact hP _ (hst _ (List.mem_cons_self _ _))
        · exact hst _ (List.mem_cons_of_mem _ hx)
      · intro x hx
        rcases List.mem_cons.mp hx with rfl | hx
        · exact hv h0
        · exact hst _ hx

theorem stack_sum (vs st : List Int) : (vs.foldl push st).sum = st.sum + vs.sum := by
  induction vs generalizing st with
  | nil => simp
  | cons v vs ih => simp only [List.foldl_cons, ih, push_sum, List.sum_cons]; omega

theorem stack_length (vs st : List Int) : (vs.foldl push st).length ≤ st.length + vs.length := by
  induction vs generalizing st with
  | nil => simp
  | cons v vs ih =>
    simp only [List.foldl_cons, List.length_cons]
    have := ih (push st v)
    have := push_length st v
    omega

theorem stack_all (P : Int → Prop) (hP : ∀ t, P t → P (t * 2)) (vs st : List Int)
    (hst : ∀ x ∈ st, P x) (hvs : ∀ v ∈ vs, v ≠ 0 → P v) : ∀ x ∈ vs.foldl push st, P x := by
  induction vs generalizing st with
  | nil => simpa using hst
  | cons v vs ih =>
    simp only [List.foldl_cons]
    exact ih _ (push_all P hP st v hst (hvs v (List.mem_cons_self _ _)))
      (fun w hw => hvs w (List.mem_cons_of_mem _ hw))

theorem stack_nonzero (vs : List Int) : ∀ x ∈ (vs.foldl push []).reverse, x ≠ 0 := by
  intro x hx
  exact stack_all (fun t => t ≠ 0) (fun t ht => by omega) vs [] (by simp) (fun v _ hv => hv) x
    (List.mem_reverse.mp hx)

/-- A list of at most four values is one of five explicit shapes. -/
theorem short_cases (st : List Int) (h : st.length ≤ 4) :
    st = [] ∨ (∃ x, st = [x]) ∨ (∃ x y, st = [x, y]) ∨ (∃ x y z, st = [x, y, z]) ∨
      (∃ x y z w, st = [x, y, z, w]) := by
  match st, h with
  | [], _ => simp
  | [x], _ => simp
  | [x, y], _ => simp
  | [x, y, z], _ => simp
  | [x, y, z, w], _ => simp
  | _ :: _ :: _ :: _ :: _ :: _, h => simp at h

theorem pad4_sum (st : List Int) (h : st.length ≤ 4) : (pad4 st).sum = st.sum := by
  rcases short_cases st h with rfl | ⟨x, rfl⟩ | ⟨x, y, rfl⟩ | ⟨x, y, z, rfl⟩ | ⟨x, y, z, w, rfl⟩ <;>
    simp [pad4]

theorem pad4_tileCount (st : List Int) (h : st.length ≤ 4) (hz : ∀ x ∈ st, x ≠ 0) :
    tileCount (pad4 st) = st.length := by
  rcases short_cases st h with rfl | ⟨x, rfl⟩ | ⟨x, y, rfl⟩ | ⟨x, y, z, rfl⟩ | ⟨x, y, z, w, rfl⟩ <;>
    simp_all [pad4, tileCount, List.filter]

theorem settle_sum (a b c d : Int) : (settle [a, b, c, d]).sum = a + b + c + d := by
  rw [settle_eq, pad4_sum, List.sum_reverse, stack_sum]
  · simp; omega
  · have := stack_length [a, b, c, d] []
    simpa using this

theorem settle_tileCount (a b c d : Int) :
    tileCount (settle [a, b, c, d]) = ([a, b, c, d].foldl push []).length := by
  rw [settle_eq, pad4_tileCount _ _ (stack_nonzero _), List.length_reverse]
  have := stack_length [a, b, c, d] []
  simpa using this

theorem settle_nonneg (a b c d : Int) (ha : 0 ≤ a) (hb : 0 ≤ b) (hc : 0 ≤ c) (hd : 0 ≤ d) :
    ∀ x ∈ settle [a, b, c, d], 0 ≤ x := by
  have h := stack_all (fun t => 0 ≤ t) (fun t ht => by omega) [a, b, c, d] [] (by simp)
    (by simp; omega)
  have hl := stack_length [a, b, c, d] []
  intro x hx
  rw [settle_eq] at hx
  have hl' : ([a, b, c, d].foldl push []).reverse.length ≤ 4 := by simpa using hl
  have h' : ∀ x ∈ ([a, b, c, d].foldl push []).reverse, 0 ≤ x :=
    fun x hx => h x (List.mem_reverse.mp hx)
  revert hx h'
  rcases short_cases _ hl' with e | ⟨x, e⟩ | ⟨x, y, e⟩ | ⟨x, y, z, e⟩ | ⟨x, y, z, w, e⟩ <;>
    rw [e] <;> simp [pad4] <;> omega


theorem settle_fixed_iff (st : List Int) (h : st.length ≤ 4) (hz : ∀ x ∈ st, x ≠ 0) :
    settle (pad4 st) = pad4 st ↔ noEqualNeighbours (pad4 st) := by
  rcases short_cases st h with rfl | ⟨x, rfl⟩ | ⟨x, y, rfl⟩ | ⟨x, y, z, rfl⟩ | ⟨x, y, z, w, rfl⟩
  · simp [pad4, settle, push, noEqualNeighbours]
  · have hx : x ≠ 0 := hz x (by simp)
    simp [pad4, settle, push, noEqualNeighbours, hx]
  · have hx : x ≠ 0 := hz x (by simp)
    have hy : y ≠ 0 := hz y (by simp)
    simp [pad4, settle, push, noEqualNeighbours, hx, hy]
    split_ifs <;> simp_all
  · have hx : x ≠ 0 := hz x (by simp)
    have hy : y ≠ 0 := hz y (by simp)
    have hz' : z ≠ 0 := hz z (by simp)
    simp [pad4, settle, push, noEqualNeighbours, hx, hy, hz']
    by_cases e1 : x = y <;> by_cases e2 : y = z <;> simp [e1, e2, hy, hz']
    all_goals try (split_ifs <;> simp_all)
  · have hx : x ≠ 0 := hz x (by simp)
    have hy : y ≠ 0 := hz y (by simp)
    have hz' : z ≠ 0 := hz z (by simp)
    have hw : w ≠ 0 := hz w (by simp)
    simp [pad4, settle, push, noEqualNeighbours, hx, hy, hz', hw]
    by_cases e1 : x = y <;> by_cases e2 : y = z <;> by_cases e3 : z = w <;>
      simp [e1, e2, e3, hy, hz', hw]
    all_goals try (split_ifs <;> simp_all)
    all_goals try (split_ifs <;> simp_all)
    all_goals try omega

theorem settle_settle_iff (a b c d : Int) :
    settle (settle [a, b, c, d]) = settle [a, b, c, d]
      ↔ noEqualNeighbours (settle [a, b, c, d]) := by
  rw [settle_eq [a, b, c, d]]
  apply settle_fixed_iff _ _ (stack_nonzero _)
  have := stack_length [a, b, c, d] []
  simpa using this


/-! ## The closed form of a shift on a well-formed board -/

theorem unlines_lines (d : Dir) (b : Board) : unlines d (lines d b) = b := by
  cases d <;> funext i j <;> simp [unlines, lines, mirror, ofCols, col]

theorem lines_unlines (d : Dir) (L : Fin 4 → Line) : lines d (unlines d L) = L := by
  cases d <;> funext k t <;> simp [unlines, lines, mirror, ofCols, col]

theorem shift_of_lines (n : Nat) (d : Dir) (b : Board) (L : Fin 4 → Line) (m : Fin 4 → Bool)
    (h : ∀ k, lineLo n (lines d b k) = .ok (L k, m k)) :
    shift n d b = .ok (unlines d L, m 0 || m 1 || m 2 || m 3) := by
  cases d with
  | left => exact shiftA_of_lines n b L m h
  | up => exact shiftW_of_lines n b L m h
  | right =>
    refine shiftD_of_lines n b (fun r => mirror (L r)) m (fun r => ?_)
    have := h r
    simp only [lines] at this
    rw [lineHi_mirror, this]
    rfl
  | down =>
    refine shiftS_of_lines n b (fun j => mirror (L j)) m (fun j => ?_)
    have := h j
    simp only [lines] at this
    rw [lineHi_mirror, this]
    rfl

theorem lines_cell (d : Dir) (b : Board) (k t : Fin 4) : ∃ i j, lines d b k t = b i j := by
  cases d
  · exact ⟨t, k, rfl⟩
  · exact ⟨k, t, rfl⟩
  · exact ⟨t.rev, k, rfl⟩
  · exact ⟨k, t.rev, rfl⟩

theorem unlines_cell (d : Dir) (L : Fin 4 → Line) (i j : Fin 4) : ∃ k t, unlines d L i j = L k t := by
  cases d
  · exact ⟨j, i, rfl⟩
  · exact ⟨i, j, rfl⟩
  · exact ⟨j, i.rev, rfl⟩
  · exact ⟨i, j.rev, rfl⟩

theorem wfCell_eq (x : cell) (h : x.isAvailable = true ↔ x.val = 0) : x = wfCell x.val := by
  cases x with
  | mk v f =>
    simp only [wfCell, cell.mk.injEq, true_and]
    simp only at h
    by_cases hv : v = 0
    · simp [hv, h.mpr hv]
    · cases f with
      | false => simp [hv]
      | true => exact absurd (h.mp rfl) hv

theorem line_eq_lineOf (l : Line) (h : ∀ k, (l k).isAvailable = true ↔ (l k).val = 0) :
    l = ln (wfCell (l 0).val) (wfCell (l 1).val) (wfCell (l 2).val) (wfCell (l 3).val) := by
  funext k
  fin_cases k
  · exact wfCell_eq _ (h 0)
  · exact wfCell_eq _ (h 1)
  · exact wfCell_eq _ (h 2)
  · exact wfCell_eq _ (h 3)

theorem lines_wf (d : Dir) (b : Board) (h : WF b) (k t : Fin 4) :
    ((lines d b k t).isAvailable = true ↔ (lines d b k t).val = 0) ∧ 0 ≤ (lines d b k t).val := by
  obtain ⟨i, j, e⟩ := lines_cell d b k t
  rw [e]
  exact h i j

/-- On a well-formed board every directional shift returns, with fuel 5 or
more per slide loop, the board settled line by line. -/
theorem shift_wf (n : Nat) (d : Dir) (b : Board) (h : WF b) :
    shift (n + 5) d b = .ok (shifted d b, moved d b) := by
  refine shift_of_lines (n + 5) d b (fun k => lineOf (settled d b k)) (lineMoved d b) (fun k => ?_)
  have e := line_eq_lineOf (lines d b k) (fun t => (lines_wf d b h k t).1)
  have := lineLo_wf n (lines d b k 0).val (lines d b k 1).val (lines d b k 2).val
    (lines d b k 3).val
  rw [← e] at this
  exact this

theorem lineVals_lineOf_settle (vs : List Int) : lineVals (lineOf (settle vs)) = settle vs := by
  simp [lineVals, lineOf, settle, wfCell]

theorem lineOf_lineVals (l : Line) (h : ∀ k, (l k).isAvailable = true ↔ (l k).val = 0) :
    lineOf (lineVals l) = l := by
  conv_rhs => rw [line_eq_lineOf l h]
  simp [lineOf, lineVals]

theorem unlines_inj (d : Dir) (L M : Fin 4 → Line) (h : unlines d L = unlines d M) : L = M := by
  rw [← lines_unlines d L, ← lines_unlines d M, h]

/-- A line of a well-formed board is unchanged by the shift exactly when its values are. -/
theorem shifted_eq_iff (d : Dir) (b : Board) (h : WF b) :
    shifted d b = b ↔ ∀ k, settled d b k = lineVals (lines d b k) := by
  constructor
  · intro e k
    have e2 : (fun k => lineOf (settled d b k)) = lines d b := by
      apply unlines_inj d
      rw [unlines_lines]
      exact e
    have := congrFun e2 k
    simp only at this
    calc settled d b k = lineVals (lineOf (settled d b k)) := (lineVals_lineOf_settle _).symm
      _ = lineVals (lines d b k) := by rw [this]
  · intro e
    unfold shifted
    have : (fun k => lineOf (settled d b k)) = lines d b := by
      funext k
      rw [e k]
      exact lineOf_lineVals _ (fun t => (lines_wf d b h k t).1)
    rw [this, unlines_lines]

theorem moved_iff (d : Dir) (b : Board) (h : WF b) : moved d b = true ↔ shifted d b ≠ b := by
  rw [Ne, shifted_eq_iff d b h]
  simp only [moved, lineMoved, Bool.or_eq_true, decide_eq_true_eq]
  constructor
  · intro hm hall
    rcases hm with ((hm | hm) | hm) | hm <;> exact hm (hall _)
  · intro hn
    by_contra hc
    apply hn
    intro k
    by_contra hk
    apply hc
    fin_cases k
    · exact Or.inl (Or.inl (Or.inl hk))
    · exact Or.inl (Or.inl (Or.inr hk))
    · exact Or.inl (Or.inr hk)
    · exact Or.inr hk

theorem lineOf_settle_wf (vs : List Int) (hvs : ∀ x ∈ settle vs, 0 ≤ x) (t : Fin 4) :
    ((lineOf (settle vs) t).isAvailable = true ↔ (lineOf (settle vs) t).val = 0) ∧
      0 ≤ (lineOf (settle vs) t).val := by
  have hv : (lineOf (settle vs) t).val ∈ settle vs := by
    fin_cases t <;> simp [lineOf, settle, wfCell]
  refine ⟨?_, hvs _ hv⟩
  fin_cases t <;> simp [lineOf, wfCell]

theorem shifted_wf (d : Dir) (b : Board) (h : WF b) : WF (shifted d b) := by
  intro i j
  obtain ⟨k, t, e⟩ := unlines_cell d (fun k => lineOf (settled d b k)) i j
  unfold shifted
  rw [e]
  apply lineOf_settle_wf
  exact settle_nonneg _ _ _ _ (lines_wf d b h k 0).2 (lines_wf d b h k 1).2
    (lines_wf d b h k 2).2 (lines_wf d b h k 3).2


/-! ## Counting and summing over the scan order -/

theorem scanOrder_nodup : scanOrder.Nodup := by decide

theorem mem_scanOrder (p : Fin 4 × Fin 4) : p ∈ scanOrder := by
  obtain ⟨i, j⟩ := p
  fin_cases i <;> fin_cases j <;> decide

theorem foldl_count {α : Type} (f : α → Bool) (ps : List α) (c : Int) :
    ps.foldl (fun count p => if f p then count + 1 else count) c
      = c + ((ps.filter f).length : Int) := by
  induction ps generalizing c with
  | nil => simp
  | cons q qs ih =>
    simp only [List.foldl_cons, ih, List.filter_cons]
    by_cases h : f q = true
    · simp only [h, if_true, List.length_cons]; push_cast; omega
    · simp only [h, if_false]
      simp

theorem get_valid_pos_count_eq (b : Board) :
    get_valid_pos_count b = ((emptyCells b).length : Int) := by
  have := foldl_count (fun p : Fin 4 × Fin 4 => (b p.1 p.2).isAvailable) scanOrder 0
  simpa [get_valid_pos_count, emptyCells] using this

theorem map_sum_update {α : Type} (ps : List α) (hnd : ps.Nodup) (p : α) (hp : p ∈ ps)
    (g g' : α → Int) (hg : ∀ q, q ≠ p → g' q = g q) :
    (ps.map g').sum = (ps.map g).sum - g p + g' p := by
  induction ps with
  | nil => cases hp
  | cons q qs ih =>
    rw [List.nodup_cons] at hnd
    simp only [List.map_cons, List.sum_cons]
    by_cases hq : q = p
    · subst hq
      have : qs.map g' = qs.map g :=
        List.map_congr_left (fun x hx => hg x (fun e => hnd.1 (e ▸ hx)))
      rw [this]; omega
    · have hp' : p ∈ qs := by
        rcases List.mem_cons.mp hp with e | e
        · exact absurd e.symm hq
        · exact e
      rw [ih hnd.2 hp', hg q hq]; omega

theorem filter_length_eq_sum {α : Type} (f : α → Bool) (ps : List α) :
    ((ps.filter f).length : Int) = (ps.map (fun p => if f p then (1 : Int) else 0)).sum := by
  induction ps with
  | nil => simp
  | cons q qs ih =>
    simp only [List.filter_cons, List.map_cons, List.sum_cons]
    by_cases h : f q = true
    · simp only [h, if_true, List.length_cons]; push_cast; omega
    · simp only [h, if_false]
      simpa using ih

theorem withCell_same (b : Board) (p : Fin 4 × Fin 4) (x : cell) : withCell b p x p.1 p.2 = x := by
  simp [withCell]

theorem withCell_other (b : Board) (p q : Fin 4 × Fin 4) (x : cell) (h : q ≠ p) :
    withCell b p x q.1 q.2 = b q.1 q.2 := by
  simp [withCell, h]

theorem set_eq_withCell (b : Board) (p : Fin 4 × Fin 4) (v : Int) :
    setAvail (setVal b p.1 p.2 v) p.1 p.2 false = withCell b p ⟨v, false⟩ := by
  funext i j
  by_cases h : (i, j) = p
  · subst h; simp [setAvail, setVal, withCell]
  · have h2 : ¬ (i = p.1 ∧ j = p.2) := fun e => h (Prod.ext e.1 e.2)
    simp [setAvail, setVal, withCell, h, h2]

/-- The scan of `spawn_random_number` writes the empty cell of rank `r - counter`
among the empty cells still ahead. -/
theorem spawnScan_spec (b : Board) (r v : Int) (ps : List (Fin 4 × Fin 4)) (counter : Int)
    (k : Nat) (hk : r = counter + k) (p : Fin 4 × Fin 4)
    (hp : (ps.filter (fun q => (b q.1 q.2).isAvailable))[k]? = some p) :
    spawnScan b r v ps counter = withCell b p ⟨v, false⟩ := by
  induction ps generalizing counter k with
  | nil => simp at hp
  | cons q qs ih =>
    unfold spawnScan
    by_cases hq : (b q.1 q.2).isAvailable = true
    · simp only [hq, if_true]
      rw [List.filter_cons_of_pos (by simpa using hq)] at hp
      cases k with
      | zero =>
        have e : q = p := by simpa using hp
        have : counter + 1 - 1 = r := by omega
        rw [if_pos this, e]
        exact set_eq_withCell b p v
      | succ k' =>
        have : ¬ counter + 1 - 1 = r := by omega
        rw [if_neg this]
        exact ih (counter + 1) k' (by omega) (by simpa using hp)
    · simp only [hq]
      rw [List.filter_cons_of_neg (by simpa using hq)] at hp
      have : ¬ counter - 1 = r := by omega
      simp only [Bool.false_eq_true, if_false, this]
      exact ih counter k hk hp

/-- What `spawn_random_number` does when there is an empty cell and the lock is clear. -/
theorem spawn_spec (d1 d2 : Nat) (s : State) (hn : 0 < (emptyCells s.board).length)
    (hl : s.gLockNumGen = false) :
    ∃ p, (emptyCells s.board)[d1 % (emptyCells s.board).length]? = some p ∧
      spawn_random_number d1 d2 s
        = (1, { board := withCell s.board p ⟨drawnValue d2, false⟩, backup := s.backup,
                gLockNumGen := true }) := by
  have hlt : d1 % (emptyCells s.board).length < (emptyCells s.board).length := Nat.mod_lt _ hn
  refine ⟨(emptyCells s.board)[d1 % (emptyCells s.board).length], List.getElem?_eq_getElem hlt, ?_⟩
  unfold spawn_random_number
  have hc := get_valid_pos_count_eq s.board
  have hne : ¬ get_valid_pos_count s.board = 0 := by rw [hc]; omega
  simp only [hne, if_false, hl, Bool.false_eq_true]
  congr 2
  rw [hc]
  refine spawnScan_spec s.board _ _ scanOrder 0 (d1 % (emptyCells s.board).length) ?_ _
    (List.getElem?_eq_getElem hlt)
  rw [Int.natCast_mod]; omega


/-! ## Claim C1: a shift preserves the sum of the tiles -/

theorem ofVals_wf (v : Fin 4 → Fin 4 → Int) (h : ∀ i j, 0 ≤ v i j) : WF (ofVals v) := by
  intro i j
  simp [ofVals, h i j]

theorem make_move_dir (n : Nat) (d : Dir) (confirmed : Bool) (d1 d2 : Nat) (s : State) :
    make_move n d.key confirmed d1 d2 s
      = (shift n d s.board).map (finishMove (backup_board s)) := by
  cases d <;> rfl

theorem make_move_wf (n : Nat) (d : Dir) (confirmed : Bool) (d1 d2 : Nat) (s : State)
    (h : WF s.board) :
    make_move (n + 5) d.key confirmed d1 d2 s
      = .ok (.running { board := shifted d s.board, backup := s.board,
                        gLockNumGen := if moved d s.board then false else s.gLockNumGen }) := by
  rw [make_move_dir, shift_wf n d s.board h]
  rfl

theorem rev_0 : (0 : Fin 4).rev = 3 := rfl
theorem rev_1 : (1 : Fin 4).rev = 2 := rfl
theorem rev_2 : (2 : Fin 4).rev = 1 := rfl
theorem rev_3 : (3 : Fin 4).rev = 0 := rfl

theorem tileSum_unlines (d : Dir) (L : Fin 4 → Line) :
    tileSum (unlines d L) = (lineVals (L 0)).sum + (lineVals (L 1)).sum + (lineVals (L 2)).sum
      + (lineVals (L 3)).sum := by
  cases d <;>
    simp only [tileSum, scanOrder, unlines, ofCols, mirror, lineVals, rev_0, rev_1, rev_2, rev_3,
      List.map, List.sum_cons, List.sum_nil] <;> omega

theorem tileSum_shifted (d : Dir) (b : Board) : tileSum (shifted d b) = tileSum b := by
  conv_rhs => rw [← unlines_lines d b]
  unfold shifted
  rw [tileSum_unlines, tileSum_unlines]
  simp only [settled, lineVals_lineOf_settle]
  simp only [lineVals, settle_sum, List.sum_cons, List.sum_nil]
  omega

/-- C1: on a well-formed board each of the four directional moves of
`make_move` returns (with fuel 5 or more per slide loop) and leaves the sum of
the 16 cell values unchanged. -/
theorem shift_preserves_tile_sum (n : Nat) (d : Dir) (confirmed : Bool) (d1 d2 : Nat) (s : State)
    (h : WF s.board) :
    ∃ s', make_move (n + 5) d.key confirmed d1 d2 s = .ok (.running s') ∧
      tileSum s'.board = tileSum s.board := by
  refine ⟨_, make_move_wf n d confirmed d1 d2 s h, ?_⟩
  exact tileSum_shifted d s.board

theorem shift_preserves_tile_sum_witness :
    WF sampleState.board ∧
    ∃ s', make_move (0 + 5) Dir.left.key false 0 0 sampleState = .ok (.running s') ∧
      tileSum s'.board = tileSum sampleState.board :=
  ⟨ofVals_wf _ (by decide),
   shift_preserves_tile_sum 0 Dir.left false 0 0 sampleState (ofVals_wf _ (by decide))⟩


/-! ## Claims C2, C3, C4: revert and `spawn_random_number` -/

theorem make_move_backup (fuel : Nat) (d : Dir) (confirmed : Bool) (d1 d2 : Nat) (s s1 : State)
    (h : make_move fuel d.key confirmed d1 d2 s = .ok (.running s1)) : s1.backup = s.board := by
  rw [make_move_dir] at h
  cases hs : shift fuel d s.board with
  | error e => rw [hs] at h; cases h
  | ok r =>
    rw [hs] at h
    injection h with h
    injection h with h
    rw [← h]
    rfl

theorem revert_eq (fuel : Nat) (confirmed : Bool) (d1 d2 : Nat) (s : State) :
    make_move fuel Key.r confirmed d1 d2 s = .ok (.running { s with board := s.backup }) := rfl

theorem spawn_backup (d1 d2 : Nat) (s : State) : (spawn_random_number d1 d2 s).2.backup = s.backup := by
  unfold spawn_random_number
  simp only
  split_ifs <;> rfl

/-- C2: a directional `make_move` on a well-formed board returns, and whenever
a directional `make_move` returns, a revert issued next (directly, or after a
`spawn_random_number` call with any draws) returns a state whose board is, cell
for cell, the board as it stood before the directional move. -/
theorem revert_after_move_restores (n : Nat) (d : Dir) (confirmed : Bool) (d1 d2 : Nat) (s : State) :
    (WF s.board → ∃ s1, make_move (n + 5) d.key confirmed d1 d2 s = .ok (.running s1)) ∧
    ∀ (fuel fuel2 : Nat) (c2 : Bool) (e1 e2 a b : Nat) (s1 : State),
      make_move fuel d.key confirmed d1 d2 s = .ok (.running s1) →
      (∃ s2, make_move fuel2 Key.r c2 e1 e2 s1 = .ok (.running s2) ∧ s2.board = s.board) ∧
      (∃ s3, make_move fuel2 Key.r c2 e1 e2 (spawn_random_number a b s1).2 = .ok (.running s3) ∧
        s3.board = s.board) := by
  refine ⟨fun h => ⟨_, make_move_wf n d confirmed d1 d2 s h⟩, ?_⟩
  intro fuel fuel2 c2 e1 e2 a b s1 h
  have hb := make_move_backup fuel d confirmed d1 d2 s s1 h
  refine ⟨⟨_, revert_eq _ _ _ _ _, hb⟩, ⟨_, revert_eq _ _ _ _ _, ?_⟩⟩
  show (spawn_random_number a b s1).2.backup = s.board
  rw [spawn_backup, hb]

theorem revert_after_move_restores_witness :
    WF sampleState.board ∧
    (∃ s1, make_move (0 + 5) Dir.left.key false 0 0 sampleState = .ok (.running s1)) ∧
    ∃ s3, make_move 0 Key.r false 0 0
        (spawn_random_number 7 1 (State.mk (shifted Dir.left sampleState.board) sampleState.board
          (if moved Dir.left sampleState.board then false else sampleState.gLockNumGen))).2
        = .ok (.running s3) ∧
      s3.board = sampleState.board :=
  ⟨ofVals_wf _ (by decide),
   (revert_after_move_restores 0 Dir.left false 0 0 sampleState).1 (ofVals_wf _ (by decide)),
   ((revert_after_move_restores 0 Dir.left false 0 0 sampleState).2 (0 + 5) 0 false 0 0 7 1 _
      (make_move_wf 0 Dir.left false 0 0 sampleState (ofVals_wf _ (by decide)))).2⟩

theorem emptyCells_nil_iff (b : Board) :
    emptyCells b = [] ↔ ∀ i j, (b i j).isAvailable = false := by
  unfold emptyCells
  rw [List.filter_eq_nil_iff]
  constructor
  · intro h i j
    have := h (i, j) (mem_scanOrder _)
    simpa using this
  · intro h p _
    simp [h p.1 p.2]

/-- C3: `spawn_random_number` returns 0 exactly when no cell is flagged
available (that is, when `get_valid_pos_count` is 0), it then leaves the whole
state (board, backup, lock) as it was, and in every other case it returns 1. -/
theorem spawn_returns_zero_iff_full (d1 d2 : Nat) (s : State) :
    ((spawn_random_number d1 d2 s).1 = 0 ↔ ∀ i j, (s.board i j).isAvailable = false) ∧
    ((spawn_random_number d1 d2 s).1 = 0 ↔ get_valid_pos_count s.board = 0) ∧
    ((spawn_random_number d1 d2 s).1 = 0 → (spawn_random_number d1 d2 s).2 = s) ∧
    ((spawn_random_number d1 d2 s).1 ≠ 0 → (spawn_random_number d1 d2 s).1 = 1) := by
  have key : (spawn_random_number d1 d2 s).1 = 0 ↔ get_valid_pos_count s.board = 0 := by
    unfold spawn_random_number
    simp only
    split_ifs <;> simp_all
  have hfull : get_valid_pos_count s.board = 0 ↔ ∀ i j, (s.board i j).isAvailable = false := by
    rw [get_valid_pos_count_eq, ← emptyCells_nil_iff]
    simp
  refine ⟨key.trans hfull, key, ?_, ?_⟩
  · intro h
    have h0 := key.mp h
    unfold spawn_random_number
    simp only [h0, if_true]
  · intro h
    have h0 : ¬ get_valid_pos_count s.board = 0 := fun e => h (key.mpr e)
    unfold spawn_random_number
    simp only [h0, if_false]
    split_ifs <;> rfl

theorem spawn_returns_zero_iff_full_witness :
    (spawn_random_number 3 1 fullState).1 = 0 ∧ (spawn_random_number 3 1 fullState).2 = fullState :=
  ⟨((spawn_returns_zero_iff_full 3 1 fullState).2.1).mpr (by decide),
   (spawn_returns_zero_iff_full 3 1 fullState).2.2.1
     (((spawn_returns_zero_iff_full 3 1 fullState).2.1).mpr (by decide))⟩


theorem withCell_apply (b : Board) (p q : Fin 4 × Fin 4) (x : cell) :
    withCell b p x q.1 q.2 = if q = p then x else b q.1 q.2 := by
  simp [withCell]

theorem count_withCell (b : Board) (p : Fin 4 × Fin 4) (x : cell)
    (hp : (b p.1 p.2).isAvailable = true) (hx : x.isAvailable = false) :
    get_valid_pos_count (withCell b p x) = get_valid_pos_count b - 1 := by
  rw [get_valid_pos_count_eq, get_valid_pos_count_eq]
  unfold emptyCells
  rw [filter_length_eq_sum, filter_length_eq_sum]
  rw [map_sum_update scanOrder scanOrder_nodup p (mem_scanOrder p)
    (fun q => if (b q.1 q.2).isAvailable then (1 : Int) else 0)
    (fun q => if (withCell b p x q.1 q.2).isAvailable then (1 : Int) else 0)
    (fun q hq => by simp only [withCell_other b p q x hq])]
  simp only [withCell_same, hp, hx, if_true, Bool.false_eq_true, if_false]
  omega

theorem occupiedSum_withCell (b : Board) (p : Fin 4 × Fin 4) (v : Int)
    (hp : (b p.1 p.2).isAvailable = true) :
    occupiedSum (withCell b p ⟨v, false⟩) = occupiedSum b + v := by
  unfold occupiedSum
  rw [map_sum_update scanOrder scanOrder_nodup p (mem_scanOrder p)
    (fun q => if (b q.1 q.2).isAvailable then 0 else (b q.1 q.2).val)
    (fun q => if (withCell b p ⟨v, false⟩ q.1 q.2).isAvailable then 0
      else (withCell b p ⟨v, false⟩ q.1 q.2).val)
    (fun q hq => by simp only [withCell_other b p q _ hq])]
  simp only [withCell_same, hp, if_true, Bool.false_eq_true, if_false]
  omega

theorem tileSum_withCell (b : Board) (p : Fin 4 × Fin 4) (x : cell) :
    tileSum (withCell b p x) = tileSum b - (b p.1 p.2).val + x.val := by
  unfold tileSum
  rw [map_sum_update scanOrder scanOrder_nodup p (mem_scanOrder p)
    (fun q => (b q.1 q.2).val) (fun q => (withCell b p x q.1 q.2).val)
    (fun q hq => by simp only [withCell_other b p q _ hq])]
  simp only [withCell_same]

theorem mem_emptyCells (b : Board) (p : Fin 4 × Fin 4) (k : Nat)
    (h : (emptyCells b)[k]? = some p) : (b p.1 p.2).isAvailable = true := by
  have hm : p ∈ emptyCells b := List.getElem?_mem h
  unfold emptyCells at hm
  simpa using (List.mem_filter.mp hm).2

/-- C4: with `n > 0` empty cells and the spawn lock clear, `spawn_random_number`
with draws `d1`, `d2` returns 1, replaces exactly the empty cell of rank
`d1 mod n` in row-major order by an occupied cell holding 4 if `d2 mod 10 = 1`
and 2 otherwise, leaves the other cells and the backup alone and sets the lock;
the empty count drops by 1 and the sum of the tiles rises by the spawned value. -/
theorem spawn_places_one_tile (d1 d2 : Nat) (s : State) (hn : 0 < get_valid_pos_count s.board)
    (hl : s.gLockNumGen = false) :
    ((emptyCells s.board).length : Int) = get_valid_pos_count s.board ∧
    ∃ p, (emptyCells s.board)[d1 % (emptyCells s.board).length]? = some p ∧
      (s.board p.1 p.2).isAvailable = true ∧
      spawn_random_number d1 d2 s
        = (1, { board := withCell s.board p ⟨drawnValue d2, false⟩, backup := s.backup,
                gLockNumGen := true }) ∧
      (∀ q, withCell s.board p ⟨drawnValue d2, false⟩ q.1 q.2
          = if q = p then ⟨drawnValue d2, false⟩ else s.board q.1 q.2) ∧
      (drawnValue d2 = if d2 % 10 = 1 then 4 else 2) ∧
      (List.range 10).filter (fun r => decide (drawnValue r = 4)) = [1] ∧
      get_valid_pos_count (withCell s.board p ⟨drawnValue d2, false⟩)
        = get_valid_pos_count s.board - 1 ∧
      occupiedSum (withCell s.board p ⟨drawnValue d2, false⟩)
        = occupiedSum s.board + drawnValue d2 ∧
      ((s.board p.1 p.2).val = 0 →
        tileSum (withCell s.board p ⟨drawnValue d2, false⟩) = tileSum s.board + drawnValue d2) := by
  have hc := get_valid_pos_count_eq s.board
  refine ⟨hc.symm, ?_⟩
  obtain ⟨p, hp, hs⟩ := spawn_spec d1 d2 s (by omega) hl
  have ha := mem_emptyCells s.board p _ hp
  refine ⟨p, hp, ha, hs, fun q => withCell_apply _ _ _ _, ?_, by decide,
    count_withCell _ _ _ ha rfl, occupiedSum_withCell _ _ _ ha, ?_⟩
  · unfold drawnValue
    by_cases h : d2 % 10 = 1
    · have : (d2 : Int) % 10 = 1 := by omega
      simp [h, this]
    · have : ¬ (d2 : Int) % 10 = 1 := by omega
      simp [h, this]
  · intro h0
    rw [tileSum_withCell, h0]
    simp

theorem spawn_places_one_tile_witness :
    0 < get_valid_pos_count openState.board ∧ openState.gLockNumGen = false ∧
    ∃ p, (emptyCells openState.board)[7 % (emptyCells openState.board).length]? = some p ∧
      spawn_random_number 7 11 openState
        = (1, { board := withCell openState.board p ⟨drawnValue 11, false⟩,
                backup := openState.backup, gLockNumGen := true }) :=
  ⟨by decide, rfl,
   (spawn_places_one_tile 7 11 openState (by decide) rfl).2.imp
     (fun _ h => ⟨h.1, h.2.2.1⟩)⟩


/-! ## Claims C9, C6, C7: `init`, restart, the spawn lock, declined commands -/

theorem drawnValue_cases (d2 : Nat) : drawnValue d2 = 2 ∨ drawnValue d2 = 4 := by
  unfold drawnValue
  split_ifs
  · exact Or.inr rfl
  · exact Or.inl rfl

theorem init_fresh (d1 d2 : Nat) (s : State) (hl : s.gLockNumGen = false) :
    FreshDeal (init d1 d2 s) := by
  have h16 : 0 < (emptyCells clearedBoard).length := by decide
  obtain ⟨p, _, hs⟩ := spawn_spec d1 d2 { s with board := clearedBoard } h16 hl
  have e : init d1 d2 s = State.mk (withCell clearedBoard p ⟨drawnValue d2, false⟩)
      (withCell clearedBoard p ⟨drawnValue d2, false⟩) false := by
    unfold init backup_board
    simp only [hs]
  rw [e]
  exact ⟨rfl, rfl, p, drawnValue d2, drawnValue_cases d2, fun i j => rfl⟩

/-- C9: `init` run with the spawn lock clear (in particular on the
zero-initialised globals at program start), and a confirmed restart run from
any state, leave exactly one occupied cell holding 2 or 4, fifteen empty cells
of value 0, the spawn lock false and the backup equal to the board. -/
theorem init_and_restart_deal_one_tile (d1 d2 : Nat) :
    FreshDeal (init d1 d2 startGlobals) ∧
    (∀ s : State, s.gLockNumGen = false → FreshDeal (init d1 d2 s)) ∧
    (∀ (fuel : Nat) (s : State), ∃ s', make_move fuel Key.x true d1 d2 s = .ok (.running s') ∧
      FreshDeal s') := by
  refine ⟨init_fresh d1 d2 startGlobals rfl, fun s hl => init_fresh d1 d2 s hl, ?_⟩
  intro fuel s
  exact ⟨_, rfl, init_fresh d1 d2 _ rfl⟩

theorem init_and_restart_deal_one_tile_witness :
    openState.gLockNumGen = false ∧ FreshDeal (init 5 21 openState) ∧
    ∃ s', make_move 0 Key.x true 5 21 sampleState = .ok (.running s') ∧ FreshDeal s' :=
  ⟨rfl, (init_and_restart_deal_one_tile 5 21).2.1 openState rfl,
   (init_and_restart_deal_one_tile 5 21).2.2 0 sampleState⟩

/-- C6: on a well-formed board a directional `make_move` returns; its `didMove`
flag is true exactly when the shifted board differs from the board before; the
lock is cleared when it is true and keeps its value otherwise.  Revert, a
declined restart and a declined exit leave the lock as it was. -/
theorem lock_cleared_iff_board_changed (n : Nat) (d : Dir) (confirmed : Bool) (d1 d2 : Nat)
    (s : State) (h : WF s.board) :
    (∃ b' m, shift (n + 5) d s.board = .ok (b', m) ∧ (m = true ↔ b' ≠ s.board) ∧
      make_move (n + 5) d.key confirmed d1 d2 s
        = .ok (.running { board := b', backup := s.board,
                          gLockNumGen := if m then false else s.gLockNumGen })) ∧
    (∀ (fuel : Nat) (c : Bool) (e1 e2 : Nat) (t : State),
      (∃ t', make_move fuel Key.r c e1 e2 t = .ok (.running t') ∧
        t'.gLockNumGen = t.gLockNumGen) ∧
      (∃ t', make_move fuel Key.x false e1 e2 t = .ok (.running t') ∧
        t'.gLockNumGen = t.gLockNumGen) ∧
      (∃ t', make_move fuel Key.e false e1 e2 t = .ok (.running t') ∧
        t'.gLockNumGen = t.gLockNumGen)) := by
  refine ⟨⟨shifted d s.board, moved d s.board, shift_wf n d s.board h, moved_iff d s.board h,
    make_move_wf n d confirmed d1 d2 s h⟩, ?_⟩
  intro fuel c e1 e2 t
  exact ⟨⟨_, rfl, rfl⟩, ⟨_, rfl, rfl⟩, ⟨_, rfl, rfl⟩⟩

theorem lock_cleared_iff_board_changed_witness :
    WF sampleState.board ∧
    ∃ b' m, shift (0 + 5) Dir.left sampleState.board = .ok (b', m) ∧
      (m = true ↔ b' ≠ sampleState.board) ∧
      make_move (0 + 5) Dir.left.key false 0 0 sampleState
        = .ok (.running { board := b', backup := sampleState.board,
                          gLockNumGen := if m then false else sampleState.gLockNumGen }) :=
  ⟨ofVals_wf _ (by decide),
   (lock_cleared_iff_board_changed 0 Dir.left false 0 0 sampleState (ofVals_wf _ (by decide))).1⟩

/-- C7, as the claim states it, fails: a declined restart on a state whose
backup (all zero) differs from its board overwrites the backup with the board;
a declined exit does the same. -/
theorem declined_restart_overwrites_backup :
    vals sampleState.backup = [[0, 0, 0, 0], [0, 0, 0, 0], [0, 0, 0, 0], [0, 0, 0, 0]] ∧
    stepBackup (make_move 0 Key.x false 0 0 sampleState)
      = some [[2, 2, 0, 0], [0, 0, 0, 0], [0, 0, 0, 0], [0, 0, 0, 0]] ∧
    stepBackup (make_move 0 Key.e false 0 0 sampleState)
      = some [[2, 2, 0, 0], [0, 0, 0, 0], [0, 0, 0, 0], [0, 0, 0, 0]] := by
  decide

/-- C7 amended: a declined restart and a declined exit leave the board and
the spawn lock as they were and set the backup to a copy of the board. -/
theorem declined_commands_keep_board_and_lock (fuel : Nat) (d1 d2 : Nat) (s : State) :
    make_move fuel Key.x false d1 d2 s
      = .ok (.running { board := s.board, backup := s.board, gLockNumGen := s.gLockNumGen }) ∧
    make_move fuel Key.e false d1 d2 s
      = .ok (.running { board := s.board, backup := s.board, gLockNumGen := s.gLockNumGen }) :=
  ⟨rfl, rfl⟩


/-! ## Claims C5, C10: merging and repeated shifts -/

theorem push_ne_nil (st : List Int) (v : Int) (h : st ≠ [] ∨ v ≠ 0) : push st v ≠ [] := by
  unfold push
  split_ifs with h0
  · rcases h with h | h
    · exact h
    · exact absurd h0 h
  · cases st with
    | nil => simp
    | cons t rest =>
      simp only
      split_ifs <;> simp

theorem stack_ne_nil (vs st : List Int) (h : st ≠ [] ∨ ∃ v ∈ vs, v ≠ 0) :
    vs.foldl push st ≠ [] := by
  induction vs generalizing st with
  | nil =>
    rcases h with h | ⟨v, hv, _⟩
    · simpa using h
    · cases hv
  | cons w ws ih =>
    simp only [List.foldl_cons]
    apply ih
    rcases h with h | ⟨v, hv, hv0⟩
    · exact Or.inl (push_ne_nil st w (Or.inl h))
    · rcases List.mem_cons.mp hv with e | e
      · exact Or.inl (push_ne_nil st w (Or.inr (e ▸ hv0)))
      · exact Or.inr ⟨v, e, hv0⟩

theorem settle_tileCount_pos (a b c d : Int) (h : 0 < tileCount [a, b, c, d]) :
    0 < tileCount (settle [a, b, c, d]) := by
  rw [settle_tileCount]
  apply List.length_pos.mpr
  apply stack_ne_nil
  right
  unfold tileCount at h
  obtain ⟨v, hv⟩ := List.exists_mem_of_length_pos h
  have := List.mem_filter.mp hv
  exact ⟨v, this.1, by simpa using this.2⟩

theorem lines_shifted (d : Dir) (b : Board) (k : Fin 4) :
    lineVals (lines d (shifted d b) k) = settled d b k := by
  unfold shifted
  rw [lines_unlines]
  exact lineVals_lineOf_settle _

/-- The scenario of the specification: row `[2,2,0,0]` shifted left becomes
`[4,0,0,0]`, the move reports a change, and row `[2,2,2,2]` becomes `[4,4,0,0]`. -/
theorem scenario_pairs_merge_left :
    shiftVals (shift 5 Dir.left sampleBoard)
      = some [[4, 0, 0, 0], [0, 0, 0, 0], [0, 0, 0, 0], [0, 0, 0, 0]] ∧
    (shift 5 Dir.left sampleBoard).toOption.map (fun r => r.2) = some true ∧
    shiftVals (shift 5 Dir.left
        (ofVals ![![2, 2, 2, 2], ![0, 0, 0, 0], ![0, 0, 0, 0], ![0, 0, 0, 0]]))
      = some [[4, 4, 0, 0], [0, 0, 0, 0], [0, 0, 0, 0], [0, 0, 0, 0]] := by
  decide

/-- C5, as the claim states it, fails: row `[2,0,2,4]` shifted left becomes
`[8,0,0,0]`, not `[4,4,0,0]`: the 4 produced by merging the two 2s is merged
again with the arriving 4, and three tiles leave one, fewer than two. -/
theorem merged_tile_merges_again :
    shiftVals (shift 5 Dir.left slideMergeBoard)
      = some [[8, 0, 0, 0], [0, 0, 0, 0], [0, 0, 0, 0], [0, 0, 0, 0]] ∧
    tileCount [2, 0, 2, 4] = 3 ∧ tileCount [8, 0, 0, 0] = 1 ∧
    ([8, 0, 0, 0] : List Int) ≠ [4, 4, 0, 0] := by
  decide

/-- C5 amended: on a well-formed board a shift returns, and a line that holds
at least one tile before it holds at least one tile after it; no better bound
holds, since a tile produced by a merge is merged again with a later-arriving
equal tile: row `[2,2,4,8]` shifted left becomes `[16,0,0,0]` and row
`[2,0,2,4]` becomes `[8,0,0,0]`.  The doubled tile itself does not move on
towards the edge: row `[4,2,2,0]` becomes `[4,4,0,0]`. -/
theorem shift_keeps_a_tile_per_line (n : Nat) (d : Dir) (b : Board) (h : WF b) :
    (∃ b1 m, shift (n + 5) d b = .ok (b1, m) ∧
      ∀ k, 0 < tileCount (lineVals (lines d b k)) → 0 < tileCount (lineVals (lines d b1 k))) ∧
    shiftVals (shift 5 Dir.left chainBoard)
      = some [[16, 0, 0, 0], [0, 0, 0, 0], [0, 0, 0, 0], [0, 0, 0, 0]] ∧
    shiftVals (shift 5 Dir.left slideMergeBoard)
      = some [[8, 0, 0, 0], [0, 0, 0, 0], [0, 0, 0, 0], [0, 0, 0, 0]] ∧
    shiftVals (shift 5 Dir.left pairBoard)
      = some [[4, 4, 0, 0], [0, 0, 0, 0], [0, 0, 0, 0], [0, 0, 0, 0]] := by
  refine ⟨⟨shifted d b, moved d b, shift_wf n d b h, fun k hk => ?_⟩, by decide, by decide,
    by decide⟩
  rw [lines_shifted]
  exact settle_tileCount_pos _ _ _ _ hk

theorem shift_keeps_a_tile_per_line_witness :
    WF chainBoard ∧
    ∃ b1 m, shift (0 + 5) Dir.left chainBoard = .ok (b1, m) ∧
      ∀ k, 0 < tileCount (lineVals (lines Dir.left chainBoard k)) →
        0 < tileCount (lineVals (lines Dir.left b1 k)) :=
  ⟨ofVals_wf _ (by decide),
   (shift_keeps_a_tile_per_line 0 Dir.left chainBoard (ofVals_wf _ (by decide))).1⟩

/-- C10, as the claim states it, fails: row `[4,2,2,0]` shifted left becomes
`[4,4,0,0]`, and shifted left once more becomes `[8,0,0,0]`. -/
theorem second_shift_can_merge_again :
    shiftVals (shift 5 Dir.left pairBoard)
      = some [[4, 4, 0, 0], [0, 0, 0, 0], [0, 0, 0, 0], [0, 0, 0, 0]] ∧
    shiftVals (shift 5 Dir.left pairBoard >>= fun r => shift 5 Dir.left r.1)
      = some [[8, 0, 0, 0], [0, 0, 0, 0], [0, 0, 0, 0], [0, 0, 0, 0]] ∧
    shiftVals (shift 5 Dir.left pairBoard >>= fun r => shift 5 Dir.left r.1)
      ≠ shiftVals (shift 5 Dir.left pairBoard) := by
  decide

theorem moved_false_iff (d : Dir) (b : Board) (h : WF b) : moved d b = false ↔ shifted d b = b := by
  have := moved_iff d b h
  cases hm : moved d b
  · simp only [true_iff]
    by_contra hc
    have := this.mpr hc
    rw [hm] at this
    cases this
  · simp only [Bool.true_eq_false, false_iff]
    exact this.mp hm

/-- C10 amended: on a well-formed board a shift returns a well-formed board,
and a second shift in the same direction returns that board unchanged (with
`didMove` false) exactly when the first shift left no two equal neighbouring
tiles along the direction of the shift. -/
theorem second_shift_idle_iff_no_equal_neighbours (n : Nat) (d : Dir) (b : Board) (h : WF b) :
    ∃ b1 m, shift (n + 5) d b = .ok (b1, m) ∧ WF b1 ∧
      (shift (n + 5) d b1 = .ok (b1, false)
        ↔ ∀ k, noEqualNeighbours (lineVals (lines d b1 k))) := by
  have hw := shifted_wf d b h
  refine ⟨shifted d b, moved d b, shift_wf n d b h, hw, ?_⟩
  rw [shift_wf n d _ hw]
  have e1 : (Except.ok (shifted d (shifted d b), moved d (shifted d b)) : Except Fault _)
      = .ok (shifted d b, false) ↔ shifted d (shifted d b) = shifted d b := by
    constructor
    · intro e
      injection e with e
      injection e
    · intro e
      rw [(moved_false_iff d _ hw).mpr e, e]
  rw [e1, shifted_eq_iff d _ hw]
  constructor
  · intro hk k
    have := hk k
    rw [settled, lines_shifted] at this
    rw [lines_shifted]
    unfold settled lineVals at this ⊢
    exact (settle_settle_iff _ _ _ _).mp this
  · intro hk k
    have := hk k
    rw [lines_shifted] at this
    rw [settled, lines_shifted]
    unfold settled lineVals at this ⊢
    exact (settle_settle_iff _ _ _ _).mpr this

theorem second_shift_idle_iff_no_equal_neighbours_witness :
    WF pairBoard ∧
    ∃ b1 m, shift (0 + 5) Dir.left pairBoard = .ok (b1, m) ∧ WF b1 ∧
      (shift (0 + 5) Dir.left b1 = .ok (b1, false)
        ↔ ∀ k, noEqualNeighbours (lineVals (lines Dir.left b1 k))) :=
  ⟨ofVals_wf _ (by decide),
   second_shift_idle_iff_no_equal_neighbours 0 Dir.left pairBoard (ofVals_wf _ (by decide))⟩


/-! ## Claim C8: the backup along a session -/

theorem differs_iff (b b' : Board) : differs b b' = true ↔ b ≠ b' := by
  unfold differs
  rw [decide_eq_true_iff]
  constructor
  · rintro (h | h) e
    · exact h (congrArg vals e)
    · exact h (congrArg flags e)
  · intro h
    by_contra hc
    rw [not_or, not_not, not_not] at hc
    apply h
    funext i j
    have hv : (b i j).val = (b' i j).val := by
      have := hc.1
      simp only [vals, List.finRange, List.pmap, List.range, List.range.loop, List.map,
        List.cons.injEq, and_true] at this
      fin_cases i <;> fin_cases j <;> simp_all
    have hf : (b i j).isAvailable = (b' i j).isAvailable := by
      have := hc.2
      simp only [flags, List.finRange, List.pmap, List.range, List.range.loop, List.map,
        List.cons.injEq, and_true] at this
      fin_cases i <;> fin_cases j <;> simp_all
    cases hb : b i j
    cases hb' : b' i j
    rw [hb, hb'] at hv hf
    simp only at hv hf
    rw [hv, hf]

theorem withCell_wf (b : Board) (p : Fin 4 × Fin 4) (v : Int) (h : WF b) (hv : 0 < v) :
    WF (withCell b p ⟨v, false⟩) := by
  intro i j
  unfold withCell
  split_ifs
  · simp only [Bool.false_eq_true, false_iff]
    omega
  · exact h i j

theorem drawnValue_pos (d2 : Nat) : 0 < drawnValue d2 := by
  rcases drawnValue_cases d2 with h | h <;> omega

theorem spawn_wf (d1 d2 : Nat) (s : State) (h : WF s.board) :
    WF (spawn_random_number d1 d2 s).2.board := by
  by_cases hn : get_valid_pos_count s.board = 0
  · unfold spawn_random_number
    simp only [hn, if_true]
    exact h
  · cases hl : s.gLockNumGen
    · have hc := get_valid_pos_count_eq s.board
      obtain ⟨p, _, hs⟩ := spawn_spec d1 d2 s (by omega) hl
      rw [hs]
      exact withCell_wf _ _ _ h (drawnValue_pos d2)
    · unfold spawn_random_number
      simp only [hn, if_false, hl, if_true]
      exact h

theorem freshDeal_wf (s : State) (h : FreshDeal s) : WF s.board := by
  obtain ⟨_, _, p, v, hv, hb⟩ := h
  intro i j
  rw [hb i j]
  split_ifs
  · simp only [Bool.false_eq_true, false_iff]
    omega
  · simp

theorem key_cases (k : Key) :
    (∃ d : Dir, k = d.key) ∨ k = Key.r ∨ k = Key.x ∨ k = Key.e := by
  cases k
  · exact Or.inl ⟨Dir.up, rfl⟩
  · exact Or.inl ⟨Dir.left, rfl⟩
  · exact Or.inl ⟨Dir.down, rfl⟩
  · exact Or.inl ⟨Dir.right, rfl⟩
  · exact Or.inr (Or.inl rfl)
  · exact Or.inr (Or.inr (Or.inl rfl))
  · exact Or.inr (Or.inr (Or.inr rfl))

theorem lastSnapshot_dir (ghost : Board) (s s' : State) (d : Dir) (c : Bool) (d1 d2 : Nat) :
    lastSnapshot ghost s s' (.key d.key c d1 d2) = s.board := by
  cases d <;> rfl

theorem inv_of_fresh (s : State) (hf : FreshDeal s) (c : Board) : BackupInv ⟨s, c, s.board⟩ := by
  refine ⟨freshDeal_wf _ hf, ?_, hf.2.1⟩
  show WF s.backup
  rw [hf.2.1]
  exact freshDeal_wf _ hf

/-- One event keeps the invariant. -/
theorem step_inv (n : Nat) (e : Event) (t : Traced) (h : BackupInv t) :
    stepEvent (n + 5) t.st e = .ok .exited ∨
    ∃ s', stepEvent (n + 5) t.st e = .ok (.running s') ∧
      BackupInv ⟨s', lastChanging t.changing t.st s' e, lastSnapshot t.snapshot t.st s' e⟩ := by
  obtain ⟨hb, hk, hs⟩ := h
  cases e with
  | spawn d1 d2 =>
    by_cases h0 : (spawn_random_number d1 d2 t.st).1 = 0
    · left
      simp only [stepEvent, h0, if_true]
    · right
      refine ⟨_, by simp only [stepEvent, h0, if_false], spawn_wf d1 d2 t.st hb, ?_, ?_⟩
      · show WF (spawn_random_number d1 d2 t.st).2.backup
        rw [spawn_backup]; exact hk
      · show (spawn_random_number d1 d2 t.st).2.backup = t.snapshot
        rw [spawn_backup]; exact hs
  | key k c d1 d2 =>
    rcases key_cases k with ⟨d, rfl⟩ | rfl | rfl | rfl
    · right
      refine ⟨_, make_move_wf n d c d1 d2 t.st hb, shifted_wf d _ hb, hb, ?_⟩
      rw [lastSnapshot_dir]
    · right
      exact ⟨_, rfl, hk, hk, hs⟩
    · right
      cases c with
      | false => exact ⟨_, rfl, hb, hb, rfl⟩
      | true =>
        have hf := init_fresh d1 d2 (State.mk t.st.board t.st.board false) rfl
        exact ⟨_, rfl, inv_of_fresh _ hf _⟩
    · cases c with
      | false => right; exact ⟨_, rfl, hb, hb, rfl⟩
      | true => left; rfl

theorem run_inv (n : Nat) (es : List Event) (t : Traced) (h : BackupInv t) :
    ∃ r, run (n + 5) es t = .ok r ∧ ∀ t', r = some t' → BackupInv t' := by
  induction es generalizing t with
  | nil => exact ⟨some t, rfl, fun t' e => by cases e; exact h⟩
  | cons e es ih =>
    rcases step_inv n e t h with hx | ⟨s', hs', hinv⟩
    · refine ⟨none, ?_, fun t' e => by cases e⟩
      simp only [run, hx]
    · obtain ⟨r, hr, hall⟩ := ih _ hinv
      refine ⟨r, ?_, hall⟩
      simp only [run, hs']
      exact hr

theorem start_inv (d1 d2 : Nat) : BackupInv (start d1 d2) := by
  exact inv_of_fresh _ (init_fresh d1 d2 startGlobals rfl) _

/-- C8, as the claim states it, fails: after a move left that merges, a spawn,
and a second move left that changes no cell, the backup is the current board
and not the board before the last board-changing move. -/
theorem idle_move_overwrites_backup :
    runView (run 5 idleSecondMove (start 0 0))
      = some ([[4, 0, 0, 0], [2, 0, 0, 0], [0, 0, 0, 0], [0, 0, 0, 0]],
              [[4, 0, 0, 0], [2, 0, 0, 0], [0, 0, 0, 0], [0, 0, 0, 0]],
              [[2, 2, 0, 0], [0, 0, 0, 0], [0, 0, 0, 0], [0, 0, 0, 0]]) := by
  decide

/-- C8 amended: every session from `init` runs without fault (fuel 5 or more),
and in every state it reaches the backup equals the board as it stood
immediately before the most recent command other than a revert, whether or
not that command changed the board (for a confirmed restart, and before any
command, the board just dealt); both boards stay well-formed. -/
theorem backup_is_last_snapshot (n : Nat) (d1 d2 : Nat) (es : List Event) :
    ∃ r, run (n + 5) es (start d1 d2) = .ok r ∧
      ∀ t, r = some t → t.st.backup = t.snapshot ∧ WF t.st.board ∧ WF t.st.backup := by
  obtain ⟨r, hr, hall⟩ := run_inv n es (start d1 d2) (start_inv d1 d2)
  exact ⟨r, hr, fun t ht => ⟨(hall t ht).2.2, (hall t ht).1, (hall t ht).2.1⟩⟩


/-! ## Why well-formedness matters: occupied cells of value 0 -/

theorem whileLo_spins (n : Nat) (l : Line) (dm : Bool) (h0 : l 0 = ⟨0, false⟩)
    (h1 : (l 1).val = 0) : whileLo n l 1 0 false dm = .error .fuel := by
  induction n generalizing l dm with
  | zero => rfl
  | succ n ih =>
    rw [whileLo_succ]
    simp only [Bool.not_false, le_refl, decide_True, Bool.and_self, if_true, idx?_0, h0, h1,
      Bool.false_eq_true, if_false]
    apply ih
    · simp [lsetAvail, lsetVal, h0]
    · simp [lsetAvail, lsetVal]

/-- On the zero-initialised board (every cell occupied with value 0), which
`init` replaces before any move, the slide loop of a left move never ends:
each merge of 0 with 0 leaves 0 next to 0. -/
theorem left_move_spins_on_zero_tiles (n : Nat) :
    shift n Dir.left startGlobals.board = .error .fuel := by
  have e : shiftA n startGlobals.board =
      ((tileA n 1 0 (startGlobals.board, false) >>= fun s0 =>
        [1, 2, 3].foldlM (fun st r => tileA n 1 r st) s0) >>= fun s1 =>
        [2, 3].foldlM (fun st c => [0, 1, 2, 3].foldlM (fun st r => tileA n c r st) st) s1) := rfl
  have t : tileA n 1 0 (startGlobals.board, false) = .error .fuel := by
    have := tileA_line n 1 0 startGlobals.board (startGlobals.board 0) false
    rw [putRow_self] at this
    rw [this, tileLo_1]
    have hs := whileLo_spins n (startGlobals.board 0) false rfl rfl
    simp only [startGlobals] at hs ⊢
    simp only [Bool.not_false, if_true, hs]
    rfl
  show shiftA n startGlobals.board = _
  rw [e, t]
  rfl


/-! ## Claims C13, C15, C20: repeated spawns, revert, the first turn -/

theorem spawn_cases (d1 d2 : Nat) (s : State) :
    (get_valid_pos_count s.board = 0 ∧ spawn_random_number d1 d2 s = (0, s)) ∨
    (get_valid_pos_count s.board ≠ 0 ∧ s.gLockNumGen = true ∧
      spawn_random_number d1 d2 s = (1, s)) ∨
    (get_valid_pos_count s.board ≠ 0 ∧ s.gLockNumGen = false ∧
      (spawn_random_number d1 d2 s).1 = 1 ∧ (spawn_random_number d1 d2 s).2.gLockNumGen = true) := by
  by_cases hn : get_valid_pos_count s.board = 0
  · left
    refine ⟨hn, ?_⟩
    unfold spawn_random_number
    simp only [hn, if_true]
  · right
    cases hl : s.gLockNumGen
    · right
      refine ⟨hn, rfl, ?_, ?_⟩ <;>
      · unfold spawn_random_number
        simp only [hn, if_false, hl, Bool.false_eq_true]
    · left
      refine ⟨hn, rfl, ?_⟩
      unfold spawn_random_number
      simp only [hn, if_false, hl, if_true]

theorem spawn_locked (d1 d2 : Nat) (s : State) (hl : s.gLockNumGen = true) :
    (spawn_random_number d1 d2 s).2 = s := by
  rcases spawn_cases d1 d2 s with ⟨_, h⟩ | ⟨_, _, h⟩ | ⟨_, h, _⟩
  · rw [h]
  · rw [h]
  · rw [hl] at h; cases h

/-- C13: with at least one empty cell and the spawn lock set,
`spawn_random_number` returns 1 and leaves board, backup and lock as they were;
and from any state, with any draws, a second call right after a first one
leaves the state the first call left. -/
theorem spawn_once_per_turn (d1 d2 e1 e2 : Nat) (s : State) :
    (0 < get_valid_pos_count s.board → s.gLockNumGen = true →
      spawn_random_number d1 d2 s = (1, s)) ∧
    (spawn_random_number e1 e2 (spawn_random_number d1 d2 s).2).2
      = (spawn_random_number d1 d2 s).2 := by
  constructor
  · intro hn hl
    rcases spawn_cases d1 d2 s with ⟨h0, _⟩ | ⟨_, _, h⟩ | ⟨_, h, _⟩
    · omega
    · exact h
    · rw [hl] at h; cases h
  · rcases spawn_cases d1 d2 s with ⟨h0, h⟩ | ⟨_, hl, h⟩ | ⟨_, _, _, hl⟩
    · rw [h]
      show (spawn_random_number e1 e2 s).2 = s
      rcases spawn_cases e1 e2 s with ⟨_, h'⟩ | ⟨h', _⟩ | ⟨h', _⟩
      · rw [h']
      · exact absurd h0 h'
      · exact absurd h0 h'
    · rw [h]
      exact spawn_locked e1 e2 s hl
    · exact spawn_locked e1 e2 _ hl

theorem spawn_once_per_turn_witness :
    0 < get_valid_pos_count sampleState.board ∧ sampleState.gLockNumGen = true ∧
    spawn_random_number 7 1 sampleState = (1, sampleState) :=
  ⟨by decide, rfl, (spawn_once_per_turn 7 1 0 0 sampleState).1 (by decide) rfl⟩

/-- C15: the revert command returns the state whose board is the backup and
whose backup and spawn lock are unchanged; a second revert returns that same
state again. -/
theorem revert_copies_backup (fuel fuel2 : Nat) (c c2 : Bool) (d1 d2 e1 e2 : Nat) (s : State) :
    make_move fuel Key.r c d1 d2 s
      = .ok (.running { board := s.backup, backup := s.backup, gLockNumGen := s.gLockNumGen }) ∧
    make_move fuel2 Key.r c2 e1 e2
        { board := s.backup, backup := s.backup, gLockNumGen := s.gLockNumGen }
      = make_move fuel Key.r c d1 d2 s :=
  ⟨rfl, rfl⟩

theorem freshDeal_board (s : State) (h : FreshDeal s) :
    ∃ (p : Fin 4 × Fin 4) (v : Int), (v = 2 ∨ v = 4) ∧ s.board = tilesBoard [(p, v)] := by
  obtain ⟨_, _, p, v, hv, hb⟩ := h
  refine ⟨p, v, hv, ?_⟩
  funext i j
  rw [hb i j]
  by_cases e : (i, j) = p
  · subst e; simp [tilesBoard, List.lookup]
  · have e' : ((i, j) == p) = false := by simpa using e
    simp [tilesBoard, List.lookup, e, e']

theorem withCell_tilesBoard (p q : Fin 4 × Fin 4) (v w : Int) :
    withCell (tilesBoard [(p, v)]) q ⟨w, false⟩ = tilesBoard [(q, w), (p, v)] := by
  funext i j
  by_cases e : (i, j) = q
  · subst e; simp [withCell, tilesBoard, List.lookup]
  · have e' : ((i, j) == q) = false := by simpa using e
    simp [withCell, tilesBoard, List.lookup, e, e']

theorem occupiedCount_add (b : Board) : (occupiedCount b : Int) + get_valid_pos_count b = 16 := by
  rw [get_valid_pos_count_eq]
  unfold occupiedCount emptyCells
  have h := List.length_eq_countP_add_countP (fun p : Fin 4 × Fin 4 => (b p.1 p.2).isAvailable)
    scanOrder
  rw [List.countP_eq_length_filter, List.countP_eq_length_filter] at h
  have h16 : scanOrder.length = 16 := rfl
  have e : (fun p : Fin 4 × Fin 4 => !(b p.1 p.2).isAvailable)
      = (fun a => decide ¬(b a.1 a.2).isAvailable = true) := by
    funext p; cases (b p.1 p.2).isAvailable <;> rfl
  rw [e]
  omega

theorem occupiedCount_two (p q : Fin 4 × Fin 4) (v w : Int) (h : q ≠ p) :
    occupiedCount (tilesBoard [(q, w), (p, v)]) = 2 := by
  have h1 : get_valid_pos_count (tilesBoard [(p, v)]) = 15 := by
    have e : tilesBoard [(p, v)] = withCell clearedBoard p ⟨v, false⟩ := by
      funext i j
      by_cases e : (i, j) = p
      · subst e; simp [withCell, tilesBoard, List.lookup]
      · have e' : ((i, j) == p) = false := by simpa using e
        simp [withCell, tilesBoard, List.lookup, e, e', clearedBoard]
    rw [e, count_withCell _ _ _ rfl rfl]
    rfl
  have h2 : get_valid_pos_count (tilesBoard [(q, w), (p, v)]) = 14 := by
    rw [← withCell_tilesBoard, count_withCell _ _ _ _ rfl, h1]
    · rfl
    · have e' : (q == p) = false := by simpa using h
      simp [tilesBoard, List.lookup, e']
  have := occupiedCount_add (tilesBoard [(q, w), (p, v)])
  omega

/-- C20: after `init` at program start and the first `spawn_random_number` of
the main loop (any draws), the spawn returned 1, the board holds exactly two
tiles, each 2 or 4, in two different cells, the backup holds only the first of
them and the lock is set; a revert as the first command returns the board with
that one tile and leaves the lock set. -/
theorem first_turn_two_tiles (fuel : Nat) (c : Bool) (d1 d2 e1 e2 f1 f2 : Nat) :
    ∃ (p q : Fin 4 × Fin 4) (v w : Int), q ≠ p ∧ (v = 2 ∨ v = 4) ∧ (w = 2 ∨ w = 4) ∧
      spawn_random_number e1 e2 (init d1 d2 startGlobals)
        = (1, { board := tilesBoard [(q, w), (p, v)], backup := tilesBoard [(p, v)],
                gLockNumGen := true }) ∧
      occupiedCount (tilesBoard [(q, w), (p, v)]) = 2 ∧
      occupiedCount (tilesBoard [(p, v)]) = 1 ∧
      make_move fuel Key.r c f1 f2 (spawn_random_number e1 e2 (init d1 d2 startGlobals)).2
        = .ok (.running { board := tilesBoard [(p, v)], backup := tilesBoard [(p, v)],
                          gLockNumGen := true }) := by
  have hf := init_fresh d1 d2 startGlobals rfl
  obtain ⟨p, v, hv, hb⟩ := freshDeal_board _ hf
  have hn : 0 < (emptyCells (init d1 d2 startGlobals).board).length := by
    have h1 : get_valid_pos_count (init d1 d2 startGlobals).board = 15 := by
      obtain ⟨_, _, p', v', _, hb'⟩ := hf
      have e : (init d1 d2 startGlobals).board = withCell clearedBoard p' ⟨v', false⟩ := by
        funext i j; rw [hb' i j]; rfl
      rw [e, count_withCell _ _ _ rfl rfl]
      rfl
    have := get_valid_pos_count_eq (init d1 d2 startGlobals).board
    omega
  obtain ⟨q, hq, hs⟩ := spawn_spec e1 e2 _ hn hf.1
  have hqa := mem_emptyCells _ q _ hq
  have hqp : q ≠ p := by
    intro e
    rw [hb, e] at hqa
    simp [tilesBoard, List.lookup] at hqa
  have hbk : (init d1 d2 startGlobals).backup = tilesBoard [(p, v)] := by rw [hf.2.1, hb]
  have hs' : spawn_random_number e1 e2 (init d1 d2 startGlobals)
      = (1, { board := tilesBoard [(q, drawnValue e2), (p, v)], backup := tilesBoard [(p, v)],
              gLockNumGen := true }) := by
    rw [hs, hb, hbk, withCell_tilesBoard]
  refine ⟨p, q, v, drawnValue e2, hqp, hv, drawnValue_cases e2, hs', occupiedCount_two p q v _ hqp,
    ?_, ?_⟩
  · have h1 : get_valid_pos_count (tilesBoard [(p, v)]) = 15 := by
      rw [← hb]
      obtain ⟨_, _, p', v', _, hb'⟩ := hf
      have e : (init d1 d2 startGlobals).board = withCell clearedBoard p' ⟨v', false⟩ := by
        funext i j; rw [hb' i j]; rfl
      rw [e, count_withCell _ _ _ rfl rfl]
      rfl
    have := occupiedCount_add (tilesBoard [(p, v)])
    omega
  · rw [hs']
    rfl


/-! ## Claims C11, C18: tile counts, compaction -/

theorem push_length_tiles (st : List Int) (v : Int) :
    (push st v).length ≤ st.length + tileCount [v] := by
  unfold push
  split_ifs with h0
  · simp [tileCount]
  · have : tileCount [v] = 1 := by simp [tileCount, List.filter, h0]
    rw [this]
    cases st with
    | nil => simp
    | cons t rest =>
      simp only
      split_ifs <;> simp

theorem tileCount_cons (v : Int) (vs : List Int) :
    tileCount (v :: vs) = tileCount [v] + tileCount vs := by
  unfold tileCount
  by_cases h : v = 0
  · simp [List.filter, h]
  · simp [List.filter, h]
    omega

theorem stack_length_tiles (vs st : List Int) :
    (vs.foldl push st).length ≤ st.length + tileCount vs := by
  induction vs generalizing st with
  | nil => simp [tileCount]
  | cons v vs ih =>
    simp only [List.foldl_cons]
    have h1 := ih (push st v)
    have h2 := push_length_tiles st v
    rw [tileCount_cons]
    omega

theorem settle_tileCount_le (a b c d : Int) :
    tileCount (settle [a, b, c, d]) ≤ tileCount [a, b, c, d] := by
  rw [settle_tileCount]
  have := stack_length_tiles [a, b, c, d] []
  simpa using this

theorem occupiedCount_unlines (d : Dir) (L : Fin 4 → Line)
    (h : ∀ k t, (L k t).isAvailable = true ↔ (L k t).val = 0) :
    occupiedCount (unlines d L) = tileCount (lineVals (L 0)) + tileCount (lineVals (L 1))
      + tileCount (lineVals (L 2)) + tileCount (lineVals (L 3)) := by
  have key : ∀ k t, (!(L k t).isAvailable) = decide ((L k t).val ≠ 0) := by
    intro k t
    by_cases hv : (L k t).val = 0
    · simp [hv, (h k t).mpr hv]
    · have : (L k t).isAvailable = false := by
        cases ha : (L k t).isAvailable
        · rfl
        · exact absurd ((h k t).mp ha) hv
      simp [hv, this]
  have one : ∀ (c : Bool) (xs : List (Fin 4 × Fin 4)) (p : Fin 4 × Fin 4 → Bool) (q : Fin 4 × Fin 4),
      p q = c → (List.filter p (q :: xs)).length = (if c then 1 else 0) + (List.filter p xs).length := by
    intro c xs p q hq
    cases c <;> simp [List.filter, hq]
    omega
  have cnt : ∀ (v : Int) (vs : List Int),
      tileCount (v :: vs) = (if decide (v ≠ 0) then 1 else 0) + tileCount vs := by
    intro v vs
    unfold tileCount
    by_cases hv : v = 0
    · simp [List.filter, hv]
    · simp [List.filter, hv]
      omega
  cases d <;>
  · simp only [occupiedCount, scanOrder, unlines, ofCols, mirror, lineVals, rev_0, rev_1, rev_2,
      rev_3]
    rw [one _ _ _ _ (key _ _), one _ _ _ _ (key _ _), one _ _ _ _ (key _ _), one _ _ _ _ (key _ _),
      one _ _ _ _ (key _ _), one _ _ _ _ (key _ _), one _ _ _ _ (key _ _), one _ _ _ _ (key _ _),
      one _ _ _ _ (key _ _), one _ _ _ _ (key _ _), one _ _ _ _ (key _ _), one _ _ _ _ (key _ _),
      one _ _ _ _ (key _ _), one _ _ _ _ (key _ _), one _ _ _ _ (key _ _), one _ _ _ _ (key _ _)]
    simp only [cnt, List.filter_nil, List.length_nil, rev_0, rev_1, rev_2, rev_3]
    have : tileCount [] = 0 := rfl
    rw [this]
    omega

theorem occupiedCount_shifted_le (d : Dir) (b : Board) (h : WF b) :
    occupiedCount (shifted d b) ≤ occupiedCount b := by
  have e1 := occupiedCount_unlines d (lines d b) (fun k t => (lines_wf d b h k t).1)
  rw [unlines_lines] at e1
  have hw := shifted_wf d b h
  have e2 := occupiedCount_unlines d (fun k => lineOf (settled d b k)) (fun k t => by
      have := lines_wf d (shifted d b) hw k t
      unfold shifted at this
      rw [lines_unlines] at this
      exact this.1)
  have e3 : occupiedCount (shifted d b) = occupiedCount (unlines d fun k => lineOf (settled d b k)) :=
    rfl
  rw [e1, e3, e2]
  simp only [settled, lineVals_lineOf_settle]
  have s0 := settle_tileCount_le (lines d b 0 0).val (lines d b 0 1).val (lines d b 0 2).val
    (lines d b 0 3).val
  have s1 := settle_tileCount_le (lines d b 1 0).val (lines d b 1 1).val (lines d b 1 2).val
    (lines d b 1 3).val
  have s2 := settle_tileCount_le (lines d b 2 0).val (lines d b 2 1).val (lines d b 2 2).val
    (lines d b 2 3).val
  have s3 := settle_tileCount_le (lines d b 3 0).val (lines d b 3 1).val (lines d b 3 2).val
    (lines d b 3 3).val
  simp only [lineVals]
  omega

/-- C11: on a well-formed board every directional shift returns a board with
at most as many occupied cells as before, that is, with at least as many cells
counted by `get_valid_pos_count`. -/
theorem shift_never_adds_tiles (n : Nat) (d : Dir) (b : Board) (h : WF b) :
    ∃ b1 m, shift (n + 5) d b = .ok (b1, m) ∧ occupiedCount b1 ≤ occupiedCount b ∧
      get_valid_pos_count b ≤ get_valid_pos_count b1 := by
  refine ⟨shifted d b, moved d b, shift_wf n d b h, occupiedCount_shifted_le d b h, ?_⟩
  have h1 := occupiedCount_add b
  have h2 := occupiedCount_add (shifted d b)
  have h3 := occupiedCount_shifted_le d b h
  omega

theorem shift_never_adds_tiles_witness :
    WF chainBoard ∧
    ∃ b1 m, shift (0 + 5) Dir.left chainBoard = .ok (b1, m) ∧
      occupiedCount b1 ≤ occupiedCount chainBoard ∧
      get_valid_pos_count chainBoard ≤ get_valid_pos_count b1 :=
  ⟨ofVals_wf _ (by decide), shift_never_adds_tiles 0 Dir.left chainBoard (ofVals_wf _ (by decide))⟩

theorem pad4_compact (st : List Int) (h : st.length ≤ 4) (hz : ∀ x ∈ st, x ≠ 0) (t t' : Fin 4)
    (htt : t < t') (ht : (lineOf (pad4 st) t).isAvailable = true) :
    (lineOf (pad4 st) t').isAvailable = true := by
  rcases short_cases st h with rfl | ⟨x, rfl⟩ | ⟨x, y, rfl⟩ | ⟨x, y, z, rfl⟩ | ⟨x, y, z, w, rfl⟩ <;>
    fin_cases t <;> fin_cases t' <;>
    simp_all [lineOf, pad4, wfCell]

/-- C18: on a well-formed board the board a shift returns is compacted: in
every line along the direction of the shift, read from the edge the tiles move
to, no empty cell comes before an occupied cell. -/
theorem shift_compacts_lines (n : Nat) (d : Dir) (b : Board) (h : WF b) :
    ∃ b1 m, shift (n + 5) d b = .ok (b1, m) ∧
      ∀ k t t', t < t' → (lines d b1 k t).isAvailable = true →
        (lines d b1 k t').isAvailable = true := by
  refine ⟨shifted d b, moved d b, shift_wf n d b h, ?_⟩
  intro k t t' htt ht
  unfold shifted at ht ⊢
  rw [lines_unlines] at ht ⊢
  simp only [settled, settle_eq] at ht ⊢
  refine pad4_compact _ ?_ (stack_nonzero _) t t' htt ht
  have := stack_length (lineVals (lines d b k)) []
  simpa [lineVals] using this

theorem shift_compacts_lines_witness :
    WF slideMergeBoard ∧
    ∃ b1 m, shift (0 + 5) Dir.right slideMergeBoard = .ok (b1, m) ∧
      ∀ k t t', t < t' → (lines Dir.right b1 k t).isAvailable = true →
        (lines Dir.right b1 k t').isAvailable = true :=
  ⟨ofVals_wf _ (by decide), shift_compacts_lines 0 Dir.right slideMergeBoard (ofVals_wf _ (by decide))⟩

/-! ## Claim C14: tiles stay powers of two -/

theorem isTile_double (t : Int) (h : IsTile t) : IsTile (t * 2) := by
  obtain ⟨e, he, rfl⟩ := h
  exact ⟨e + 1, by omega, by rw [pow_succ]⟩

theorem isTile_pos (t : Int) (h : IsTile t) : 0 < t := by
  obtain ⟨e, _, rfl⟩ := h
  positivity

theorem isTile_two : IsTile 2 := ⟨1, le_refl 1, rfl⟩

theorem isTile_four : IsTile 4 := ⟨2, by decide, rfl⟩

theorem tileWF_wf (b : Board) (h : TileWF b) : WF b := by
  intro i j
  refine ⟨(h i j).1, ?_⟩
  cases ha : (b i j).isAvailable
  · exact le_of_lt (isTile_pos _ ((h i j).2 ha))
  · rw [((h i j).1).mp ha]

theorem pad4_all (P : Int → Prop) (st : List Int) (h : st.length ≤ 4) (hs : ∀ x ∈ st, P x) :
    ∀ x ∈ pad4 st, x = 0 ∨ P x := by
  rcases short_cases st h with rfl | ⟨x, rfl⟩ | ⟨x, y, rfl⟩ | ⟨x, y, z, rfl⟩ | ⟨x, y, z, w, rfl⟩ <;>
    simp_all [pad4]

theorem settle_all (P : Int → Prop) (hP : ∀ t, P t → P (t * 2)) (a b c d : Int)
    (h : ∀ v ∈ [a, b, c, d], v ≠ 0 → P v) : ∀ x ∈ settle [a, b, c, d], x = 0 ∨ P x := by
  have hs := stack_all P hP [a, b, c, d] [] (by simp) h
  have hl := stack_length [a, b, c, d] []
  rw [settle_eq]
  refine pad4_all P _ (by simpa using hl) (fun x hx => hs x (List.mem_reverse.mp hx))

theorem lineOf_settle_mem (vs : List Int) (t : Fin 4) : (lineOf (settle vs) t).val ∈ settle vs := by
  fin_cases t <;> simp [lineOf, settle, wfCell]

theorem shifted_tileWF (d : Dir) (b : Board) (h : TileWF b) : TileWF (shifted d b) := by
  intro i j
  obtain ⟨k, t, e⟩ := unlines_cell d (fun k => lineOf (settled d b k)) i j
  unfold shifted
  rw [e]
  have hw := tileWF_wf b h
  have hcell : ∀ t', (lines d b k t').val ≠ 0 → IsTile (lines d b k t').val := by
    intro t' hne
    obtain ⟨i', j', e'⟩ := lines_cell d b k t'
    rw [e'] at hne ⊢
    apply (h i' j').2
    cases ha : (b i' j').isAvailable
    · rfl
    · exact absurd (((h i' j').1).mp ha) hne
  have hall := settle_all IsTile isTile_double (lines d b k 0).val (lines d b k 1).val
    (lines d b k 2).val (lines d b k 3).val (by
      intro v hv
      simp only [List.mem_cons, List.mem_nil_iff, or_false] at hv
      rcases hv with rfl | rfl | rfl | rfl <;> exact hcell _)
  have hm := lineOf_settle_mem (lineVals (lines d b k)) t
  have hx := hall _ hm
  have hflag : (lineOf (settled d b k) t).isAvailable = true ↔ (lineOf (settled d b k) t).val = 0 := by
    fin_cases t <;> simp [lineOf, wfCell]
  refine ⟨hflag, fun ha => ?_⟩
  rcases hx with h0 | hp
  · have := hflag.mpr h0
    rw [ha] at this
    cases this
  · exact hp

theorem withCell_tileWF (b : Board) (p : Fin 4 × Fin 4) (v : Int) (h : TileWF b) (hv : IsTile v) :
    TileWF (withCell b p ⟨v, false⟩) := by
  intro i j
  unfold withCell
  split_ifs
  · refine ⟨?_, fun _ => hv⟩
    have := isTile_pos v hv
    simp only [Bool.false_eq_true, false_iff]
    omega
  · exact h i j

theorem drawnValue_isTile (d2 : Nat) : IsTile (drawnValue d2) := by
  rcases drawnValue_cases d2 with h | h <;> rw [h]
  · exact isTile_two
  · exact isTile_four

theorem spawn_tileWF (d1 d2 : Nat) (s : State) (h : TileWF s.board) :
    TileWF (spawn_random_number d1 d2 s).2.board := by
  by_cases hn : get_valid_pos_count s.board = 0
  · unfold spawn_random_number
    simp only [hn, if_true]
    exact h
  · cases hl : s.gLockNumGen
    · have hc := get_valid_pos_count_eq s.board
      obtain ⟨p, _, hs⟩ := spawn_spec d1 d2 s (by omega) hl
      rw [hs]
      exact withCell_tileWF _ _ _ h (drawnValue_isTile d2)
    · unfold spawn_random_number
      simp only [hn, if_false, hl, if_true]
      exact h

theorem freshDeal_sessionWF (s : State) (h : FreshDeal s) : SessionWF s := by
  have hb : TileWF s.board := by
    obtain ⟨_, _, p, v, hv, hb⟩ := h
    intro i j
    rw [hb i j]
    split_ifs
    · refine ⟨?_, fun _ => ?_⟩
      · simp only [Bool.false_eq_true, false_iff]; omega
      · rcases hv with rfl | rfl
        · exact isTile_two
        · exact isTile_four
    · simp
  refine ⟨hb, ?_⟩
  rw [h.2.1]
  exact hb

/-- C14: the tile invariant (in board and backup a cell is flagged available
exactly when its value is 0, and every occupied cell holds a power of two that
is at least 2) holds after `init` at program start and is kept by every
operation: the four directional moves (which return with fuel 5 or more),
revert, restart confirmed or declined, a declined exit, and
`spawn_random_number` with any draws. -/
theorem tile_invariant_preserved (d1 d2 : Nat) (s : State) (h : SessionWF s) :
    SessionWF (init d1 d2 startGlobals) ∧
    (∀ (n : Nat) (d : Dir) (c : Bool), ∃ s',
      make_move (n + 5) d.key c d1 d2 s = .ok (.running s') ∧ SessionWF s') ∧
    (∀ (fuel : Nat) (c : Bool), ∃ s',
      make_move fuel Key.r c d1 d2 s = .ok (.running s') ∧ SessionWF s') ∧
    (∀ (fuel : Nat) (c : Bool), ∃ s',
      make_move fuel Key.x c d1 d2 s = .ok (.running s') ∧ SessionWF s') ∧
    (∀ (fuel : Nat), ∃ s',
      make_move fuel Key.e false d1 d2 s = .ok (.running s') ∧ SessionWF s') ∧
    SessionWF (spawn_random_number d1 d2 s).2 := by
  refine ⟨freshDeal_sessionWF _ (init_fresh d1 d2 startGlobals rfl), ?_, ?_, ?_, ?_, ?_⟩
  · intro n d c
    exact ⟨_, make_move_wf n d c d1 d2 s (tileWF_wf _ h.1), shifted_tileWF d _ h.1, h.1⟩
  · intro fuel c
    exact ⟨_, rfl, h.2, h.2⟩
  · intro fuel c
    cases c with
    | false => exact ⟨_, rfl, h.1, h.1⟩
    | true =>
      exact ⟨_, rfl, freshDeal_sessionWF _
        (init_fresh d1 d2 (State.mk s.board s.board false) rfl)⟩
  · intro fuel
    exact ⟨_, rfl, h.1, h.1⟩
  · refine ⟨spawn_tileWF d1 d2 s h.1, ?_⟩
    rw [spawn_backup]
    exact h.2

theorem tile_invariant_preserved_witness :
    SessionWF (init 3 1 startGlobals) ∧
    ∃ s', make_move (0 + 5) Dir.up.key false 3 1 (init 3 1 startGlobals) = .ok (.running s') ∧
      SessionWF s' :=
  ⟨(tile_invariant_preserved 3 1 (init 3 1 startGlobals)
      (freshDeal_sessionWF _ (init_fresh 3 1 startGlobals rfl))).1,
   (tile_invariant_preserved 3 1 (init 3 1 startGlobals)
      (freshDeal_sessionWF _ (init_fresh 3 1 startGlobals rfl))).2.1 0 Dir.up false⟩


/-! ## The slide loops stay in range -/

theorem idx?_pred (curr : Fin 4) (c : Nat) (hc : curr.val = c + 1) :
    ∃ near : Fin 4, idx? ((curr : Int) - 1) = some near ∧ near.val = c := by
  have hlt := curr.isLt
  have h : 0 ≤ ((curr : Int) - 1) ∧ ((curr : Int) - 1) < 4 := by
    have : ((curr : Nat) : Int) = (c : Int) + 1 := by exact_mod_cast hc
    constructor <;> omega
  refine ⟨⟨((curr : Int) - 1).toNat, by omega⟩, ?_, ?_⟩
  · unfold idx?
    rw [dif_pos h]
  · show ((curr : Int) - 1).toNat = c
    have : ((curr : Nat) : Int) = (c : Int) + 1 := by exact_mod_cast hc
    omega


theorem whileLo_no_bounds (n : Nat) (l : Line) (curr : Fin 4) (nb : Int) (done dm : Bool)
    (h : nb < 4) : whileLo n l curr nb done dm ≠ .error .bounds := by
  induction n generalizing l curr nb done dm with
  | zero => intro e; cases e
  | succ n ih =>
    unfold whileLo
    split
    · rename_i hc
      have h0 : 0 ≤ nb := by
        simp only [Bool.and_eq_true, decide_eq_true_eq] at hc
        exact hc.2
      obtain ⟨near, hi⟩ : ∃ near, idx? nb = some near := by
        unfold idx?
        rw [dif_pos ⟨h0, h⟩]
        exact ⟨_, rfl⟩
      rw [hi]
      simp only
      split_ifs
      · exact ih _ _ _ _ _ (by omega)
      · exact ih _ _ _ _ _ h
      · exact ih _ _ _ _ _ h
    · intro e; cases e

theorem map_ne_bounds {α β : Type} (x : Except Fault α) (f : α → β) (h : x ≠ .error .bounds) :
    x.map f ≠ .error .bounds := by
  cases x with
  | error e =>
    intro he
    apply h
    cases e
    · cases he
    · rfl
  | ok a => intro he; cases he

theorem tileLo_no_bounds (n : Nat) (c : Fin 4) (st : Line × Bool) :
    tileLo n c st ≠ .error .bounds := by
  unfold tileLo
  split
  · exact whileLo_no_bounds _ _ _ _ _ _ (by have := c.isLt; omega)
  · intro e; cases e

theorem tileHi_no_bounds (n : Nat) (c : Fin 4) (st : Line × Bool) :
    tileHi n c st ≠ .error .bounds := by
  obtain ⟨l, dm⟩ := st
  rw [tileHi_mirror]
  exact map_ne_bounds _ _ (tileLo_no_bounds _ _ _)

theorem tileA_no_bounds (n : Nat) (c r : Fin 4) (st : Board × Bool) :
    tileA n c r st ≠ .error .bounds := by
  obtain ⟨b, dm⟩ := st
  have := tileA_line n c r b (b r) dm
  rw [putRow_self] at this
  rw [this]
  exact map_ne_bounds _ _ (tileLo_no_bounds _ _ _)

theorem tileD_no_bounds (n : Nat) (c r : Fin 4) (st : Board × Bool) :
    tileD n c r st ≠ .error .bounds := by
  obtain ⟨b, dm⟩ := st
  have := tileD_line n c r b (b r) dm
  rw [putRow_self] at this
  rw [this]
  exact map_ne_bounds _ _ (tileHi_no_bounds _ _ _)

theorem tileW_no_bounds (n : Nat) (i j : Fin 4) (st : Board × Bool) :
    tileW n i j st ≠ .error .bounds := by
  obtain ⟨b, dm⟩ := st
  have := tileW_line n i j b (col b j) dm
  rw [putCol_self] at this
  rw [this]
  exact map_ne_bounds _ _ (tileLo_no_bounds _ _ _)

theorem tileS_no_bounds (n : Nat) (i j : Fin 4) (st : Board × Bool) :
    tileS n i j st ≠ .error .bounds := by
  obtain ⟨b, dm⟩ := st
  have := tileS_line n i j b (col b j) dm
  rw [putCol_self] at this
  rw [this]
  exact map_ne_bounds _ _ (tileHi_no_bounds _ _ _)

theorem foldlM_no_bounds {σ ι : Type} (f : σ → ι → Except Fault σ)
    (h : ∀ s i, f s i ≠ .error .bounds) (l : List ι) (s : σ) :
    l.foldlM f s ≠ .error .bounds := by
  induction l generalizing s with
  | nil => intro e; cases e
  | cons i is ih =>
    rw [List.foldlM_cons]
    cases hf : f s i with
    | error e =>
      intro he
      apply h s i
      rw [hf]
      exact he
    | ok s' => exact ih s'

/-- No directional shift ever reads a cell outside the board, whatever the
board and the fuel. -/
theorem shift_no_bounds (n : Nat) (d : Dir) (b : Board) : shift n d b ≠ .error .bounds := by
  cases d
  · exact foldlM_no_bounds _ (fun s i => foldlM_no_bounds _ (fun s j => tileW_no_bounds n i j s) _ s)
      _ _
  · exact foldlM_no_bounds _ (fun s c => foldlM_no_bounds _ (fun s r => tileA_no_bounds n c r s) _ s)
      _ _
  · exact foldlM_no_bounds _ (fun s i => foldlM_no_bounds _ (fun s j => tileS_no_bounds n i j s) _ s)
      _ _
  · exact foldlM_no_bounds _ (fun s c => foldlM_no_bounds _ (fun s r => tileD_no_bounds n c r s) _ s)
      _ _

theorem slideShape_of (s c : Nat) (hs : s ≤ c) (hc : c ≤ 3) (tr : List Branch)
    (h : tr = List.replicate s Branch.slide ∨ tr = List.replicate s Branch.slide ++ [Branch.stop] ∨
      tr = List.replicate s Branch.slide ++ [Branch.merge, Branch.stop]) : SlideShape tr :=
  ⟨s, by omega, h⟩

theorem nonZero_mirror (l : Line) (h : NonZeroLine l) : NonZeroLine (mirror l) :=
  fun k hk => h k.rev hk


/-! ## Claim C16: the four routines are reflections of one another -/

theorem shift_eq_shiftOrd (n : Nat) (d : Dir) (b : Board) :
    shift n d b = shiftOrd n d [0, 1, 2, 3] b := by
  cases d <;> rfl

theorem map_map_except {α β γ : Type} (x : Except Fault α) (f : α → β) (g : β → γ) :
    (x.map f).map g = x.map (fun a => g (f a)) := by
  cases x <;> rfl

theorem map_congr_except {α β : Type} (x : Except Fault α) (f g : α → β) (h : ∀ a, f a = g a) :
    x.map f = x.map g := by
  cases x with
  | error e => rfl
  | ok a => simp [Except.map, h a]

theorem mirrorB_mirrorB (b : Board) : mirrorB (mirrorB b) = b := by
  funext i j; simp [mirrorB]

theorem transposeB_transposeB (b : Board) : transposeB (transposeB b) = b := rfl

theorem flipB_flipB (b : Board) : flipB (flipB b) = b := by
  funext i j; simp [flipB]

theorem putRow_mirror (b : Board) (r : Fin 4) (x : Line) :
    putRow b r (mirror x) = mirrorB (putRow (mirrorB b) r x) := by
  funext i j
  by_cases h : i = r <;> simp [putRow, mirrorB, mirror, h]

theorem putCol_transpose (b : Board) (j : Fin 4) (x : Line) :
    putCol b j x = transposeB (putRow (transposeB b) j x) := by
  funext i k
  by_cases h : k = j <;> simp [putCol, putRow, transposeB, h]

theorem putCol_flip (b : Board) (j : Fin 4) (x : Line) :
    putCol b j (mirror x) = flipB (putCol (flipB b) j x) := by
  funext i k
  by_cases h : k = j <;> simp [putCol, flipB, mirror, h]

theorem tileA_rows (n : Nat) (c r : Fin 4) (b : Board) (dm : Bool) :
    tileA n c r (b, dm) = (tileLo n c (b r, dm)).map (inRow b r) := by
  have := tileA_line n c r b (b r) dm
  rw [putRow_self] at this
  exact this

theorem tileD_rows (n : Nat) (c r : Fin 4) (b : Board) (dm : Bool) :
    tileD n c r (b, dm) = (tileHi n c (b r, dm)).map (inRow b r) := by
  have := tileD_line n c r b (b r) dm
  rw [putRow_self] at this
  exact this

theorem tileW_cols (n : Nat) (i j : Fin 4) (b : Board) (dm : Bool) :
    tileW n i j (b, dm) = (tileLo n i (col b j, dm)).map (inCol b j) := by
  have := tileW_line n i j b (col b j) dm
  rw [putCol_self] at this
  exact this

theorem tileS_cols (n : Nat) (i j : Fin 4) (b : Board) (dm : Bool) :
    tileS n i j (b, dm) = (tileHi n i (col b j, dm)).map (inCol b j) := by
  have := tileS_line n i j b (col b j) dm
  rw [putCol_self] at this
  exact this

theorem tileD_mirror (n : Nat) (c r : Fin 4) (st : Board × Bool) :
    tileD n c r st = (tileA n c.rev r (mapB mirrorB st)).map (mapB mirrorB) := by
  obtain ⟨b, dm⟩ := st
  show tileD n c r (b, dm) = (tileA n c.rev r (mirrorB b, dm)).map (mapB mirrorB)
  rw [tileD_rows, tileA_rows, tileHi_mirror, map_map_except, map_map_except]
  apply map_congr_except
  intro p
  show (putRow b r (mirror p.1), p.2) = (mirrorB (putRow (mirrorB b) r p.1), p.2)
  rw [putRow_mirror]

theorem tileW_transpose (n : Nat) (i j : Fin 4) (st : Board × Bool) :
    tileW n i j st = (tileA n i j (mapB transposeB st)).map (mapB transposeB) := by
  obtain ⟨b, dm⟩ := st
  show tileW n i j (b, dm) = (tileA n i j (transposeB b, dm)).map (mapB transposeB)
  rw [tileW_cols, tileA_rows, map_map_except]
  apply map_congr_except
  intro p
  show (putCol b j p.1, p.2) = (transposeB (putRow (transposeB b) j p.1), p.2)
  rw [putCol_transpose]

theorem tileS_flip (n : Nat) (i j : Fin 4) (st : Board × Bool) :
    tileS n i j st = (tileW n i.rev j (mapB flipB st)).map (mapB flipB) := by
  obtain ⟨b, dm⟩ := st
  show tileS n i j (b, dm) = (tileW n i.rev j (flipB b, dm)).map (mapB flipB)
  rw [tileS_cols, tileW_cols, tileHi_mirror, map_map_except, map_map_except]
  apply map_congr_except
  intro p
  show (putCol b j (mirror p.1), p.2) = (flipB (putCol (flipB b) j p.1), p.2)
  rw [putCol_flip]

/-- A fold whose steps are conjugate to the steps of another fold is conjugate to it. -/
theorem foldlM_conj {σ ι κ : Type} (φ : σ → σ) (hφ : ∀ s, φ (φ s) = s) (ρ : ι → κ)
    (f : σ → ι → Except Fault σ) (g : σ → κ → Except Fault σ)
    (h : ∀ s i, f s i = (g (φ s) (ρ i)).map φ) (l : List ι) (s : σ) :
    l.foldlM f s = ((l.map ρ).foldlM g (φ s)).map φ := by
  induction l generalizing s with
  | nil =>
    show Except.ok s = Except.ok (φ (φ s))
    rw [hφ]
  | cons i is ih =>
    rw [List.map_cons, List.foldlM_cons, List.foldlM_cons, h s i]
    cases hg : g (φ s) (ρ i) with
    | error e => rfl
    | ok s' =>
      show is.foldlM f (φ s') = _
      rw [ih (φ s'), hφ]
      rfl

theorem mapB_invol (f : Board → Board) (hf : ∀ b, f (f b) = b) (st : Board × Bool) :
    mapB f (mapB f st) = st := by
  obtain ⟨b, dm⟩ := st
  show (f (f b), dm) = (b, dm)
  rw [hf]

theorem shiftOrd_right (n : Nat) (order : List (Fin 4)) (b : Board) :
    shiftOrd n Dir.right order b
      = (shiftOrd n Dir.left order (mirrorB b)).map (mapB mirrorB) := by
  have inner : ∀ (st : Board × Bool) (c : Fin 4),
      order.foldlM (fun st r => tileD n c r st) st
        = (order.foldlM (fun st r => tileA n c.rev r st) (mapB mirrorB st)).map (mapB mirrorB) := by
    intro st c
    have := foldlM_conj (mapB mirrorB) (mapB_invol _ mirrorB_mirrorB) id
      (fun st r => tileD n c r st) (fun st r => tileA n c.rev r st)
      (fun s r => tileD_mirror n c r s) order st
    rw [List.map_id] at this
    exact this
  exact foldlM_conj (mapB mirrorB) (mapB_invol _ mirrorB_mirrorB) Fin.rev
    (fun st c => order.foldlM (fun st r => tileD n c r st) st)
    (fun st c => order.foldlM (fun st r => tileA n c r st) st) inner [2, 1, 0] (b, false)

theorem shiftOrd_up (n : Nat) (order : List (Fin 4)) (b : Board) :
    shiftOrd n Dir.up order b
      = (shiftOrd n Dir.left order (transposeB b)).map (mapB transposeB) := by
  have inner : ∀ (st : Board × Bool) (c : Fin 4),
      order.foldlM (fun st r => tileW n c r st) st
        = (order.foldlM (fun st r => tileA n c r st) (mapB transposeB st)).map
            (mapB transposeB) := by
    intro st c
    have := foldlM_conj (mapB transposeB) (mapB_invol _ transposeB_transposeB) id
      (fun st r => tileW n c r st) (fun st r => tileA n c r st)
      (fun s r => tileW_transpose n c r s) order st
    rw [List.map_id] at this
    exact this
  have := foldlM_conj (mapB transposeB) (mapB_invol _ transposeB_transposeB) id
    (fun st c => order.foldlM (fun st r => tileW n c r st) st)
    (fun st c => order.foldlM (fun st r => tileA n c r st) st) inner [1, 2, 3] (b, false)
  rw [List.map_id] at this
  exact this

theorem shiftOrd_down (n : Nat) (order : List (Fin 4)) (b : Board) :
    shiftOrd n Dir.down order b
      = (shiftOrd n Dir.up order (flipB b)).map (mapB flipB) := by
  have inner : ∀ (st : Board × Bool) (c : Fin 4),
      order.foldlM (fun st r => tileS n c r st) st
        = (order.foldlM (fun st r => tileW n c.rev r st) (mapB flipB st)).map (mapB flipB) := by
    intro st c
    have := foldlM_conj (mapB flipB) (mapB_invol _ flipB_flipB) id
      (fun st r => tileS n c r st) (fun st r => tileW n c.rev r st)
      (fun s r => tileS_flip n c r s) order st
    rw [List.map_id] at this
    exact this
  exact foldlM_conj (mapB flipB) (mapB_invol _ flipB_flipB) Fin.rev
    (fun st c => order.foldlM (fun st r => tileS n c r st) st)
    (fun st c => order.foldlM (fun st r => tileW n c r st) st) inner [2, 1, 0] (b, false)

theorem shifts_are_reflections_aux (n : Nat) (b : Board) :
    shiftD n b = (shiftA n (mirrorB b)).map (mapB mirrorB) ∧
    shiftW n b = (shiftA n (transposeB b)).map (mapB transposeB) ∧
    shiftS n b = (shiftW n (flipB b)).map (mapB flipB) :=
  ⟨shiftOrd_right n [0, 1, 2, 3] b, shiftOrd_up n [0, 1, 2, 3] b, shiftOrd_down n [0, 1, 2, 3] b⟩

/-- C16: for every board and every fuel, with the same `didMove` and the same
fault if any: the right shift is the left shift between two row reversals, the
up shift is the left shift between two transpositions, and the down shift is
the up shift between two reversals of the order of the rows. -/
theorem shifts_are_reflections (n : Nat) (b : Board) :
    shiftD n b = (shiftA n (mirrorB b)).map (mapB mirrorB) ∧
    shiftW n b = (shiftA n (transposeB b)).map (mapB transposeB) ∧
    shiftS n b = (shiftW n (flipB b)).map (mapB flipB) :=
  ⟨shiftOrd_right n [0, 1, 2, 3] b, shiftOrd_up n [0, 1, 2, 3] b, shiftOrd_down n [0, 1, 2, 3] b⟩


/-! ## Claim C17: lines are independent -/

theorem tileA_err {n : Nat} {c r : Fin 4} {B : Board} {e : Fault}
    (h : tileLo n c (B r, false) = .error e) (dm : Bool) : tileA n c r (B, dm) = .error e := by
  rw [tileA_rows, tileLo_flag, h]
  rfl

theorem fault_eq_fuel (e : Fault) (h : e ≠ Fault.bounds) : e = Fault.fuel := by
  cases e
  · rfl
  · exact absurd rfl h

theorem putRow_comm (B : Board) (r r' : Fin 4) (x y : Line) (h : r ≠ r') :
    putRow (putRow B r x) r' y = putRow (putRow B r' y) r x := by
  funext i j
  have h' : r' ≠ r := fun e => h e.symm
  by_cases h1 : i = r
  · subst h1
    simp [putRow, h]
  · by_cases h2 : i = r'
    · subst h2
      simp [putRow, h']
    · simp [putRow, h1, h2]

/-- Two tiles of the same pass in different rows can be handled in either order. -/
theorem tileA_comm (n : Nat) (c r r' : Fin 4) (st : Board × Bool) :
    (tileA n c r st >>= fun t => tileA n c r' t) = (tileA n c r' st >>= fun t => tileA n c r t) := by
  by_cases h : r = r'
  · subst h; rfl
  obtain ⟨B, dm⟩ := st
  have hne : r' ≠ r := fun e => h e.symm
  cases hx : tileLo n c (B r, false) with
  | error e =>
    have he : e = Fault.fuel := fault_eq_fuel e (fun hb => tileLo_no_bounds n c (B r, false) (hb ▸ hx))
    subst he
    rw [tileA_err hx dm]
    cases hy : tileLo n c (B r', false) with
    | error e' =>
      have he' : e' = Fault.fuel :=
        fault_eq_fuel e' (fun hb => tileLo_no_bounds n c (B r', false) (hb ▸ hy))
      subst he'
      rw [tileA_err hy dm]
      rfl
    | ok q =>
      obtain ⟨l', f'⟩ := q
      rw [tileA_eval hy dm, ok_bind]
      have hx' : tileLo n c (putRow B r' l' r, false) = .error Fault.fuel := by
        rw [putRow_other _ _ _ _ h]; exact hx
      rw [tileA_err hx']
      rfl
  | ok p =>
    obtain ⟨l, f⟩ := p
    rw [tileA_eval hx dm, ok_bind]
    cases hy : tileLo n c (B r', false) with
    | error e' =>
      have hy' : tileLo n c (putRow B r l r', false) = .error e' := by
        rw [putRow_other _ _ _ _ hne]; exact hy
      rw [tileA_err hy', tileA_err hy dm]
      rfl
    | ok q =>
      obtain ⟨l', f'⟩ := q
      have hy' : tileLo n c (putRow B r l r', false) = .ok (l', f') := by
        rw [putRow_other _ _ _ _ hne]; exact hy
      have hx' : tileLo n c (putRow B r' l' r, false) = .ok (l, f) := by
        rw [putRow_other _ _ _ _ h]; exact hx
      rw [tileA_eval hy', tileA_eval hy dm, ok_bind, tileA_eval hx', putRow_comm B r r' l l' h]
      congr 2
      cases dm <;> cases f <;> cases f' <;> rfl

/-- A monadic fold over commuting steps does not depend on the order of the list. -/
theorem foldlM_perm {σ ι : Type} (f : σ → ι → Except Fault σ)
    (hcomm : ∀ s i j, (f s i >>= fun t => f t j) = (f s j >>= fun t => f t i))
    {l1 l2 : List ι} (p : l1.Perm l2) (s : σ) : l1.foldlM f s = l2.foldlM f s := by
  induction p generalizing s with
  | nil => rfl
  | cons x _ ih =>
    rw [List.foldlM_cons, List.foldlM_cons]
    congr 1
    funext t
    exact ih t
  | swap x y l =>
    simp only [List.foldlM_cons]
    have e1 : (f s y >>= fun s' => f s' x >>= fun s'' => List.foldlM f s'' l)
        = ((f s y >>= fun t => f t x) >>= fun s'' => List.foldlM f s'' l) := by
      cases f s y <;> rfl
    have e2 : (f s x >>= fun s' => f s' y >>= fun s'' => List.foldlM f s'' l)
        = ((f s x >>= fun t => f t y) >>= fun s'' => List.foldlM f s'' l) := by
      cases f s x <;> rfl
    rw [e1, e2, hcomm s y x]
  | trans _ _ ih1 ih2 => exact (ih1 s).trans (ih2 s)

theorem shiftOrd_left_perm (n : Nat) (order : List (Fin 4)) (b : Board)
    (p : order.Perm [0, 1, 2, 3]) :
    shiftOrd n Dir.left order b = shiftOrd n Dir.left [0, 1, 2, 3] b := by
  have inner : (fun (st : Board × Bool) (c : Fin 4) => order.foldlM (fun st r => tileA n c r st) st)
      = (fun st c => [0, 1, 2, 3].foldlM (fun st r => tileA n c r st) st) := by
    funext st c
    exact foldlM_perm (fun st r => tileA n c r st) (fun s i j => tileA_comm n c i j s) p st
  show [1, 2, 3].foldlM (fun st c => order.foldlM (fun st r => tileA n c r st) st) (b, false) = _
  rw [inner]
  rfl

theorem shiftOrd_perm (n : Nat) (d : Dir) (order : List (Fin 4)) (b : Board)
    (p : order.Perm [0, 1, 2, 3]) : shiftOrd n d order b = shift n d b := by
  rw [shift_eq_shiftOrd]
  cases d with
  | left => exact shiftOrd_left_perm n order b p
  | right => rw [shiftOrd_right, shiftOrd_right, shiftOrd_left_perm n order _ p]
  | up => rw [shiftOrd_up, shiftOrd_up, shiftOrd_left_perm n order _ p]
  | down =>
    rw [shiftOrd_down, shiftOrd_down, shiftOrd_up, shiftOrd_up n [0, 1, 2, 3],
      shiftOrd_left_perm n order _ p]

theorem passA_ok_inv (n : Nat) (c : Fin 4) (B : Board) (dm : Bool) (R : Board × Bool)
    (h : [0, 1, 2, 3].foldlM (fun st r => tileA n c r st) (B, dm) = .ok R) :
    ∀ r, ∃ l f, tileLo n c (B r, false) = .ok (l, f) := by
  rw [List.foldlM_cons] at h
  cases h0 : tileLo n c (B 0, false) with
  | error e => rw [tileA_err h0 dm] at h; cases h
  | ok p0 =>
    obtain ⟨l0, f0⟩ := p0
    rw [tileA_eval h0 dm, ok_bind, List.foldlM_cons] at h
    cases h1 : tileLo n c (B 1, false) with
    | error e =>
      have h1' : tileLo n c (putRow B 0 l0 1, false) = .error e := by
        rw [putRow_other _ _ _ _ (by decide)]; exact h1
      rw [tileA_err h1'] at h; cases h
    | ok p1 =>
      obtain ⟨l1, f1⟩ := p1
      have h1' : tileLo n c (putRow B 0 l0 1, false) = .ok (l1, f1) := by
        rw [putRow_other _ _ _ _ (by decide)]; exact h1
      rw [tileA_eval h1', ok_bind, List.foldlM_cons] at h
      cases h2 : tileLo n c (B 2, false) with
      | error e =>
        have h2' : tileLo n c (putRow (putRow B 0 l0) 1 l1 2, false) = .error e := by
          rw [putRow_other _ _ _ _ (by decide), putRow_other _ _ _ _ (by decide)]; exact h2
        rw [tileA_err h2'] at h; cases h
      | ok p2 =>
        obtain ⟨l2, f2⟩ := p2
        have h2' : tileLo n c (putRow (putRow B 0 l0) 1 l1 2, false) = .ok (l2, f2) := by
          rw [putRow_other _ _ _ _ (by decide), putRow_other _ _ _ _ (by decide)]; exact h2
        rw [tileA_eval h2', ok_bind, List.foldlM_cons] at h
        cases h3 : tileLo n c (B 3, false) with
        | error e =>
          have h3' : tileLo n c (putRow (putRow (putRow B 0 l0) 1 l1) 2 l2 3, false)
              = .error e := by
            rw [putRow_other _ _ _ _ (by decide), putRow_other _ _ _ _ (by decide),
              putRow_other _ _ _ _ (by decide)]; exact h3
          rw [tileA_err h3'] at h; cases h
        | ok p3 =>
          obtain ⟨l3, f3⟩ := p3
          intro r
          fin_cases r
          · exact ⟨l0, f0, h0⟩
          · exact ⟨l1, f1, h1⟩
          · exact ⟨l2, f2, h2⟩
          · exact ⟨l3, f3, h3⟩

theorem shiftA_ok_inv (n : Nat) (b : Board) (R : Board × Bool) (h : shiftA n b = .ok R) :
    ∀ r, ∃ L m, lineLo n (b r) = .ok (L, m) := by
  have e : shiftA n b =
      ([0, 1, 2, 3].foldlM (fun st r => tileA n 1 r st) (b, false) >>= fun s1 =>
       [0, 1, 2, 3].foldlM (fun st r => tileA n 2 r st) s1 >>= fun s2 =>
       [0, 1, 2, 3].foldlM (fun st r => tileA n 3 r st) s2 >>= pure) := rfl
  rw [e] at h
  cases hp1 : [0, 1, 2, 3].foldlM (fun st r => tileA n 1 r st) (b, false) with
  | error e => rw [hp1] at h; cases h
  | ok R1 =>
    choose l1 f1 h1 using passA_ok_inv n 1 b false R1 hp1
    rw [passA n 1 b false l1 f1 h1, ok_bind] at h
    cases hp2 : [0, 1, 2, 3].foldlM (fun st r => tileA n 2 r st)
        (l1, false || f1 0 || f1 1 || f1 2 || f1 3) with
    | error e => rw [hp2] at h; cases h
    | ok R2 =>
      choose l2 f2 h2 using passA_ok_inv n 2 l1 _ R2 hp2
      rw [passA n 2 l1 _ l2 f2 h2, ok_bind] at h
      cases hp3 : [0, 1, 2, 3].foldlM (fun st r => tileA n 3 r st)
          (l2, false || f1 0 || f1 1 || f1 2 || f1 3 || f2 0 || f2 1 || f2 2 || f2 3) with
      | error e => rw [hp3] at h; cases h
      | ok R3 =>
        choose l3 f3 h3 using passA_ok_inv n 3 l2 _ R3 hp3
        intro r
        exact ⟨l3 r, f1 r || f2 r || f3 r,
          (lineLo_ok_iff n (b r) (l3 r) _).mpr ⟨l1 r, f1 r, l2 r, f2 r, f3 r, h1 r, h2 r, h3 r, rfl⟩⟩


theorem map_ok_inv {α β : Type} (x : Except Fault α) (f : α → β) (R : β) (h : x.map f = .ok R) :
    ∃ a, x = .ok a := by
  cases x with
  | error e => cases h
  | ok a => exact ⟨a, rfl⟩

theorem shift_ok_inv (n : Nat) (d : Dir) (b : Board) (R : Board × Bool) (h : shift n d b = .ok R) :
    ∀ k, ∃ L m, lineShift n d (cut d b k) = .ok (L, m) := by
  have up_case : ∀ (b' : Board) (R' : Board × Bool), shiftW n b' = .ok R' →
      ∀ k, ∃ L m, lineLo n (col b' k) = .ok (L, m) := by
    intro b' R' h' k
    rw [(shifts_are_reflections_aux n b').2.1] at h'
    obtain ⟨a, ha⟩ := map_ok_inv _ _ _ h'
    exact shiftA_ok_inv n (transposeB b') a ha k
  have hi_of_lo : ∀ (l : Line), (∃ L m, lineLo n (mirror l) = .ok (L, m)) →
      ∃ L m, lineHi n l = .ok (L, m) := by
    rintro l ⟨L, m, e⟩
    exact ⟨mirror L, m, by rw [lineHi_mirror, e]; rfl⟩
  cases d with
  | left => exact shiftA_ok_inv n b R h
  | up => exact up_case b R h
  | right =>
    intro k
    have h' : shiftD n b = .ok R := h
    rw [(shifts_are_reflections_aux n b).1] at h'
    obtain ⟨a, ha⟩ := map_ok_inv _ _ _ h'
    exact hi_of_lo (b k) (shiftA_ok_inv n (mirrorB b) a ha k)
  | down =>
    intro k
    have h' : shiftS n b = .ok R := h
    rw [(shifts_are_reflections_aux n b).2.2] at h'
    obtain ⟨a, ha⟩ := map_ok_inv _ _ _ h'
    exact hi_of_lo (col b k) (up_case (flipB b) a ha k)

theorem shift_of_cut (n : Nat) (d : Dir) (b : Board) (L : Fin 4 → Line) (m : Fin 4 → Bool)
    (h : ∀ k, lineShift n d (cut d b k) = .ok (L k, m k)) :
    shift n d b = .ok (paste d L, m 0 || m 1 || m 2 || m 3) := by
  cases d with
  | left => exact shiftA_of_lines n b L m h
  | up => exact shiftW_of_lines n b L m h
  | right => exact shiftD_of_lines n b L m h
  | down => exact shiftS_of_lines n b L m h

theorem vec4_eta (L : Fin 4 → Line) : ![L 0, L 1, L 2, L 3] = L := by
  funext k
  fin_cases k <;> rfl

theorem byLines_of_cut (n : Nat) (d : Dir) (b : Board) (L : Fin 4 → Line) (m : Fin 4 → Bool)
    (h : ∀ k, lineShift n d (cut d b k) = .ok (L k, m k)) :
    shiftByLines n d b = .ok (paste d L, m 0 || m 1 || m 2 || m 3) := by
  unfold shiftByLines
  rw [h 0, ok_bind, h 1, ok_bind, h 2, ok_bind, h 3, ok_bind]
  show Except.ok (paste d ![L 0, L 1, L 2, L 3], m 0 || m 1 || m 2 || m 3) = _
  rw [vec4_eta]

theorem byLines_ok_inv (n : Nat) (d : Dir) (b : Board) (R : Board × Bool)
    (h : shiftByLines n d b = .ok R) : ∀ k, ∃ L m, lineShift n d (cut d b k) = .ok (L, m) := by
  unfold shiftByLines at h
  cases h0 : lineShift n d (cut d b 0) with
  | error e => rw [h0] at h; cases h
  | ok p0 =>
    rw [h0, ok_bind] at h
    cases h1 : lineShift n d (cut d b 1) with
    | error e => rw [h1] at h; cases h
    | ok p1 =>
      rw [h1, ok_bind] at h
      cases h2 : lineShift n d (cut d b 2) with
      | error e => rw [h2] at h; cases h
      | ok p2 =>
        rw [h2, ok_bind] at h
        cases h3 : lineShift n d (cut d b 3) with
        | error e => rw [h3] at h; cases h
        | ok p3 =>
          intro k
          fin_cases k
          · exact ⟨p0.1, p0.2, h0⟩
          · exact ⟨p1.1, p1.2, h1⟩
          · exact ⟨p2.1, p2.2, h2⟩
          · exact ⟨p3.1, p3.2, h3⟩

theorem lineShift_no_bounds (n : Nat) (d : Dir) (l : Line) : lineShift n d l ≠ .error .bounds := by
  cases d
  · exact foldlM_no_bounds _ (fun s c => tileLo_no_bounds n c s) _ _
  · exact foldlM_no_bounds _ (fun s c => tileLo_no_bounds n c s) _ _
  · exact foldlM_no_bounds _ (fun s c => tileHi_no_bounds n c s) _ _
  · exact foldlM_no_bounds _ (fun s c => tileHi_no_bounds n c s) _ _

theorem bind_no_bounds {α β : Type} (x : Except Fault α) (f : α → Except Fault β)
    (hx : x ≠ .error .bounds) (hf : ∀ a, f a ≠ .error .bounds) : (x >>= f) ≠ .error .bounds := by
  cases x with
  | error e =>
    intro h
    apply hx
    cases e
    · cases h
    · rfl
  | ok a => exact hf a

theorem byLines_no_bounds (n : Nat) (d : Dir) (b : Board) :
    shiftByLines n d b ≠ .error .bounds := by
  unfold shiftByLines
  refine bind_no_bounds _ _ (lineShift_no_bounds n d _) (fun r0 => ?_)
  refine bind_no_bounds _ _ (lineShift_no_bounds n d _) (fun r1 => ?_)
  refine bind_no_bounds _ _ (lineShift_no_bounds n d _) (fun r2 => ?_)
  refine bind_no_bounds _ _ (lineShift_no_bounds n d _) (fun r3 => ?_)
  intro h
  cases h

theorem shift_eq_byLines (n : Nat) (d : Dir) (b : Board) : shift n d b = shiftByLines n d b := by
  cases hs : shift n d b with
  | ok R =>
    choose L m hL using shift_ok_inv n d b R hs
    rw [byLines_of_cut n d b L m hL, ← shift_of_cut n d b L m hL, hs]
  | error e =>
    have he : e = Fault.fuel := fault_eq_fuel e (fun hb => shift_no_bounds n d b (hb ▸ hs))
    subst he
    cases hb : shiftByLines n d b with
    | ok R =>
      choose L m hL using byLines_ok_inv n d b R hb
      rw [shift_of_cut n d b L m hL] at hs
      cases hs
    | error e' =>
      have he' : e' = Fault.fuel := fault_eq_fuel e' (fun hb' => byLines_no_bounds n d b (hb' ▸ hb))
      rw [he']

/-- C17: for every board, every fuel and each direction, the shift is the
single-line shift applied to each of the four lines on its own (rows for left
and right, columns for up and down), `didMove` being the disjunction of the
four line flags; and visiting the lines in any other order in the inner loop
gives the same result. -/
theorem lines_are_independent (n : Nat) (d : Dir) (b : Board) (order : List (Fin 4))
    (p : order.Perm [0, 1, 2, 3]) :
    shift n d b = shiftByLines n d b ∧ shiftOrd n d order b = shift n d b :=
  ⟨shift_eq_byLines n d b, shiftOrd_perm n d order b p⟩

theorem lines_are_independent_witness :
    [2, 0, 3, 1].Perm ([0, 1, 2, 3] : List (Fin 4)) ∧
    shift 5 Dir.down fullRowsBoard = shiftByLines 5 Dir.down fullRowsBoard ∧
    shiftOrd 5 Dir.down [2, 0, 3, 1] fullRowsBoard = shift 5 Dir.down fullRowsBoard :=
  ⟨by decide, lines_are_independent 5 Dir.down fullRowsBoard [2, 0, 3, 1] (by decide)⟩


/-! ## The shifts on the C `int`, line by line -/

theorem whileA32_line (n : Nat) (r : Fin 4) (b : Board) (l : Line) (curr : Fin 4) (nb : Int)
    (done dm : Bool) :
    whileA32 n r (putRow b r l) curr nb done dm = (whileLo32 n l curr nb done dm).map (inRow b r) := by
  induction n generalizing l curr nb done dm with
  | zero => rfl
  | succ n ih =>
    unfold whileA32 whileLo32
    split
    · cases h : idx? nb with
      | none => rfl
      | some near =>
        simp only [putRow_get, setVal_putRow, setAvail_putRow]
        split
        · exact ih _ _ _ _ _
        · split
          · exact ih _ _ _ _ _
          · exact ih _ _ _ _ _
    · rfl

theorem whileD32_line (n : Nat) (r : Fin 4) (b : Board) (l : Line) (curr : Fin 4) (nb : Int)
    (done dm : Bool) :
    whileD32 n r (putRow b r l) curr nb done dm = (whileHi32 n l curr nb done dm).map (inRow b r) := by
  induction n generalizing l curr nb done dm with
  | zero => rfl
  | succ n ih =>
    unfold whileD32 whileHi32
    split
    · cases h : idx? nb with
      | none => rfl
      | some near =>
        simp only [putRow_get, setVal_putRow, setAvail_putRow]
        split
        · exact ih _ _ _ _ _
        · split
          · exact ih _ _ _ _ _
          · exact ih _ _ _ _ _
    · rfl

theorem whileW32_line (n : Nat) (j : Fin 4) (b : Board) (l : Line) (curr : Fin 4) (nb : Int)
    (done dm : Bool) :
    whileW32 n j (putCol b j l) curr nb done dm = (whileLo32 n l curr nb done dm).map (inCol b j) := by
  induction n generalizing l curr nb done dm with
  | zero => rfl
  | succ n ih =>
    unfold whileW32 whileLo32
    split
    · cases h : idx? nb with
      | none => rfl
      | some near =>
        simp only [putCol_get, setVal_putCol, setAvail_putCol]
        split
        · exact ih _ _ _ _ _
        · split
          · exact ih _ _ _ _ _
          · exact ih _ _ _ _ _
    · rfl

theorem whileS32_line (n : Nat) (j : Fin 4) (b : Board) (l : Line) (curr : Fin 4) (nb : Int)
    (done dm : Bool) :
    whileS32 n j (putCol b j l) curr nb done dm = (whileHi32 n l curr nb done dm).map (inCol b j) := by
  induction n generalizing l curr nb done dm with
  | zero => rfl
  | succ n ih =>
    unfold whileS32 whileHi32
    split
    · cases h : idx? nb with
      | none => rfl
      | some near =>
        simp only [putCol_get, setVal_putCol, setAvail_putCol]
        split
        · exact ih _ _ _ _ _
        · split
          · exact ih _ _ _ _ _
          · exact ih _ _ _ _ _
    · rfl

theorem tileA32_line (n : Nat) (c r : Fin 4) (b : Board) (l : Line) (dm : Bool) :
    tileA32 n c r (putRow b r l, dm) = (tileLo32 n c (l, dm)).map (inRow b r) := by
  unfold tileA32 tileLo32
  simp only [putRow_get]
  split
  · exact whileA32_line _ _ _ _ _ _ _ _
  · rfl

theorem tileD32_line (n : Nat) (c r : Fin 4) (b : Board) (l : Line) (dm : Bool) :
    tileD32 n c r (putRow b r l, dm) = (tileHi32 n c (l, dm)).map (inRow b r) := by
  unfold tileD32 tileHi32
  simp only [putRow_get]
  split
  · exact whileD32_line _ _ _ _ _ _ _ _
  · rfl

theorem tileW32_line (n : Nat) (i j : Fin 4) (b : Board) (l : Line) (dm : Bool) :
    tileW32 n i j (putCol b j l, dm) = (tileLo32 n i (l, dm)).map (inCol b j) := by
  unfold tileW32 tileLo32
  simp only [putCol_get]
  split
  · exact whileW32_line _ _ _ _ _ _ _ _
  · rfl

theorem tileS32_line (n : Nat) (i j : Fin 4) (b : Board) (l : Line) (dm : Bool) :
    tileS32 n i j (putCol b j l, dm) = (tileHi32 n i (l, dm)).map (inCol b j) := by
  unfold tileS32 tileHi32
  simp only [putCol_get]
  split
  · exact whileS32_line _ _ _ _ _ _ _ _
  · rfl

theorem whileLo32_flag (n : Nat) (l : Line) (curr : Fin 4) (nb : Int) (done dm : Bool) :
    whileLo32 n l curr nb done dm = (whileLo32 n l curr nb done false).map (orFlag dm) := by
  induction n generalizing l curr nb done dm with
  | zero => rfl
  | succ n ih =>
    unfold whileLo32
    split
    · cases h : idx? nb with
      | none => rfl
      | some near =>
        simp only
        split
        · rw [ih _ _ _ _ true]
          cases whileLo32 n _ near (nb - 1) done false <;> simp [Except.map, orFlag]
        · split
          · rw [ih _ _ _ _ true]
            cases whileLo32 n _ curr nb done false <;> simp [Except.map, orFlag]
          · exact ih _ _ _ _ _
    · simp [Except.map, orFlag]

theorem whileHi32_flag (n : Nat) (l : Line) (curr : Fin 4) (nb : Int) (done dm : Bool) :
    whileHi32 n l curr nb done dm = (whileHi32 n l curr nb done false).map (orFlag dm) := by
  induction n generalizing l curr nb done dm with
  | zero => rfl
  | succ n ih =>
    unfold whileHi32
    split
    · cases h : idx? nb with
      | none => rfl
      | some near =>
        simp only
        split
        · rw [ih _ _ _ _ true]
          cases whileHi32 n _ near (nb + 1) done false <;> simp [Except.map, orFlag]
        · split
          · rw [ih _ _ _ _ true]
            cases whileHi32 n _ curr nb done false <;> simp [Except.map, orFlag]
          · exact ih _ _ _ _ _
    · simp [Except.map, orFlag]

theorem tileLo32_flag (n : Nat) (c : Fin 4) (l : Line) (dm : Bool) :
    tileLo32 n c (l, dm) = (tileLo32 n c (l, false)).map (orFlag dm) := by
  unfold tileLo32
  split
  · exact whileLo32_flag _ _ _ _ _ _
  · simp [Except.map, orFlag]

theorem tileHi32_flag (n : Nat) (c : Fin 4) (l : Line) (dm : Bool) :
    tileHi32 n c (l, dm) = (tileHi32 n c (l, false)).map (orFlag dm) := by
  unfold tileHi32
  split
  · exact whileHi32_flag _ _ _ _ _ _
  · simp [Except.map, orFlag]

theorem tileLo32_eval {n : Nat} {c : Fin 4} {l l1 : Line} {f : Bool}
    (h : tileLo32 n c (l, false) = .ok (l1, f)) (dm : Bool) :
    tileLo32 n c (l, dm) = .ok (l1, dm || f) := by
  rw [tileLo32_flag, h]; rfl

theorem tileHi32_eval {n : Nat} {c : Fin 4} {l l1 : Line} {f : Bool}
    (h : tileHi32 n c (l, false) = .ok (l1, f)) (dm : Bool) :
    tileHi32 n c (l, dm) = .ok (l1, dm || f) := by
  rw [tileHi32_flag, h]; rfl

theorem lineLo32_ok_iff (n : Nat) (l L : Line) (m : Bool) :
    lineLo32 n l = .ok (L, m) ↔ ∃ l1 f1 l2 f2 f3,
      tileLo32 n 1 (l, false) = .ok (l1, f1) ∧ tileLo32 n 2 (l1, false) = .ok (l2, f2) ∧
      tileLo32 n 3 (l2, false) = .ok (L, f3) ∧ m = (f1 || f2 || f3) := by
  unfold lineLo32
  simp only [List.foldlM, bind_pure]
  constructor
  · intro h
    cases h1 : tileLo32 n 1 (l, false) with
    | error e => rw [h1] at h; cases h
    | ok p1 =>
      obtain ⟨l1, f1⟩ := p1
      rw [h1, ok_bind] at h
      cases h2 : tileLo32 n 2 (l1, false) with
      | error e => rw [tileLo32_flag, h2] at h; cases h
      | ok p2 =>
        obtain ⟨l2, f2⟩ := p2
        rw [tileLo32_eval h2, ok_bind] at h
        cases h3 : tileLo32 n 3 (l2, false) with
        | error e => rw [tileLo32_flag, h3] at h; cases h
        | ok p3 =>
          obtain ⟨l3, f3⟩ := p3
          rw [tileLo32_eval h3] at h
          injection h with h
          injection h with hL hm
          subst hL
          exact ⟨l1, f1, l2, f2, f3, rfl, h2, h3, hm.symm⟩
  · rintro ⟨l1, f1, l2, f2, f3, h1, h2, h3, rfl⟩
    rw [h1, ok_bind, tileLo32_eval h2, ok_bind, tileLo32_eval h3]

theorem lineHi32_ok_iff (n : Nat) (l L : Line) (m : Bool) :
    lineHi32 n l = .ok (L, m) ↔ ∃ l1 f1 l2 f2 f3,
      tileHi32 n 2 (l, false) = .ok (l1, f1) ∧ tileHi32 n 1 (l1, false) = .ok (l2, f2) ∧
      tileHi32 n 0 (l2, false) = .ok (L, f3) ∧ m = (f1 || f2 || f3) := by
  unfold lineHi32
  simp only [List.foldlM, bind_pure]
  constructor
  · intro h
    cases h1 : tileHi32 n 2 (l, false) with
    | error e => rw [h1] at h; cases h
    | ok p1 =>
      obtain ⟨l1, f1⟩ := p1
      rw [h1, ok_bind] at h
      cases h2 : tileHi32 n 1 (l1, false) with
      | error e => rw [tileHi32_flag, h2] at h; cases h
      | ok p2 =>
        obtain ⟨l2, f2⟩ := p2
        rw [tileHi32_eval h2, ok_bind] at h
        cases h3 : tileHi32 n 0 (l2, false) with
        | error e => rw [tileHi32_flag, h3] at h; cases h
        | ok p3 =>
          obtain ⟨l3, f3⟩ := p3
          rw [tileHi32_eval h3] at h
          injection h with h
          injection h with hL hm
          subst hL
          exact ⟨l1, f1, l2, f2, f3, rfl, h2, h3, hm.symm⟩
  · rintro ⟨l1, f1, l2, f2, f3, h1, h2, h3, rfl⟩
    rw [h1, ok_bind, tileHi32_eval h2, ok_bind, tileHi32_eval h3]

theorem tileA32_eval {n : Nat} {c r : Fin 4} {B : Board} {l1 : Line} {f : Bool}
    (h : tileLo32 n c (B r, false) = .ok (l1, f)) (dm : Bool) :
    tileA32 n c r (B, dm) = .ok (putRow B r l1, dm || f) := by
  have := tileA32_line n c r B (B r) dm
  rw [putRow_self, tileLo32_eval h] at this
  exact this

theorem tileD32_eval {n : Nat} {c r : Fin 4} {B : Board} {l1 : Line} {f : Bool}
    (h : tileHi32 n c (B r, false) = .ok (l1, f)) (dm : Bool) :
    tileD32 n c r (B, dm) = .ok (putRow B r l1, dm || f) := by
  have := tileD32_line n c r B (B r) dm
  rw [putRow_self, tileHi32_eval h] at this
  exact this

theorem tileW32_eval {n : Nat} {i j : Fin 4} {B : Board} {l1 : Line} {f : Bool}
    (h : tileLo32 n i (col B j, false) = .ok (l1, f)) (dm : Bool) :
    tileW32 n i j (B, dm) = .ok (putCol B j l1, dm || f) := by
  have := tileW32_line n i j B (col B j) dm
  rw [putCol_self, tileLo32_eval h] at this
  exact this

theorem tileS32_eval {n : Nat} {i j : Fin 4} {B : Board} {l1 : Line} {f : Bool}
    (h : tileHi32 n i (col B j, false) = .ok (l1, f)) (dm : Bool) :
    tileS32 n i j (B, dm) = .ok (putCol B j l1, dm || f) := by
  have := tileS32_line n i j B (col B j) dm
  rw [putCol_self, tileHi32_eval h] at this
  exact this

theorem passA32 (n : Nat) (c : Fin 4) (B : Board) (dm : Bool) (L : Fin 4 → Line) (f : Fin 4 → Bool)
    (h : ∀ r, tileLo32 n c (B r, false) = .ok (L r, f r)) :
    [0, 1, 2, 3].foldlM (fun st r => tileA32 n c r st) (B, dm)
      = .ok (L, dm || f 0 || f 1 || f 2 || f 3) := by
  have e0 := tileA32_eval (h 0) dm
  have e1 : tileA32 n c 1 (putRow B 0 (L 0), dm || f 0) = _ :=
    tileA32_eval (B := putRow B 0 (L 0)) (by rw [putRow_other _ _ _ _ (by decide)]; exact h 1) _
  have e2 : tileA32 n c 2 (putRow (putRow B 0 (L 0)) 1 (L 1), dm || f 0 || f 1) = _ :=
    tileA32_eval (B := putRow (putRow B 0 (L 0)) 1 (L 1))
      (by rw [putRow_other _ _ _ _ (by decide), putRow_other _ _ _ _ (by decide)]; exact h 2) _
  have e3 : tileA32 n c 3 (putRow (putRow (putRow B 0 (L 0)) 1 (L 1)) 2 (L 2),
      dm || f 0 || f 1 || f 2) = _ :=
    tileA32_eval (B := putRow (putRow (putRow B 0 (L 0)) 1 (L 1)) 2 (L 2))
      (by rw [putRow_other _ _ _ _ (by decide), putRow_other _ _ _ _ (by decide),
            putRow_other _ _ _ _ (by decide)]; exact h 3) _
  simp only [List.foldlM, bind_pure, e0, ok_bind, e1, e2, e3]
  congr 2
  funext i j
  fin_cases i <;> simp [putRow]

theorem passD32 (n : Nat) (c : Fin 4) (B : Board) (dm : Bool) (L : Fin 4 → Line) (f : Fin 4 → Bool)
    (h : ∀ r, tileHi32 n c (B r, false) = .ok (L r, f r)) :
    [0, 1, 2, 3].foldlM (fun st r => tileD32 n c r st) (B, dm)
      = .ok (L, dm || f 0 || f 1 || f 2 || f 3) := by
  have e0 := tileD32_eval (h 0) dm
  have e1 : tileD32 n c 1 (putRow B 0 (L 0), dm || f 0) = _ :=
    tileD32_eval (B := putRow B 0 (L 0)) (by rw [putRow_other _ _ _ _ (by decide)]; exact h 1) _
  have e2 : tileD32 n c 2 (putRow (putRow B 0 (L 0)) 1 (L 1), dm || f 0 || f 1) = _ :=
    tileD32_eval (B := putRow (putRow B 0 (L 0)) 1 (L 1))
      (by rw [putRow_other _ _ _ _ (by decide), putRow_other _ _ _ _ (by decide)]; exact h 2) _
  have e3 : tileD32 n c 3 (putRow (putRow (putRow B 0 (L 0)) 1 (L 1)) 2 (L 2),
      dm || f 0 || f 1 || f 2) = _ :=
    tileD32_eval (B := putRow (putRow (putRow B 0 (L 0)) 1 (L 1)) 2 (L 2))
      (by rw [putRow_other _ _ _ _ (by decide), putRow_other _ _ _ _ (by decide),
            putRow_other _ _ _ _ (by decide)]; exact h 3) _
  simp only [List.foldlM, bind_pure, e0, ok_bind, e1, e2, e3]
  congr 2
  funext i j
  fin_cases i <;> simp [putRow]

theorem passW32 (n : Nat) (i : Fin 4) (B : Board) (dm : Bool) (L : Fin 4 → Line) (f : Fin 4 → Bool)
    (h : ∀ j, tileLo32 n i (col B j, false) = .ok (L j, f j)) :
    [0, 1, 2, 3].foldlM (fun st j => tileW32 n i j st) (B, dm)
      = .ok (ofCols L, dm || f 0 || f 1 || f 2 || f 3) := by
  have e0 := tileW32_eval (h 0) dm
  have e1 : tileW32 n i 1 (putCol B 0 (L 0), dm || f 0) = _ :=
    tileW32_eval (B := putCol B 0 (L 0)) (by rw [col_putCol_other _ _ _ _ (by decide)]; exact h 1) _
  have e2 : tileW32 n i 2 (putCol (putCol B 0 (L 0)) 1 (L 1), dm || f 0 || f 1) = _ :=
    tileW32_eval (B := putCol (putCol B 0 (L 0)) 1 (L 1))
      (by rw [col_putCol_other _ _ _ _ (by decide), col_putCol_other _ _ _ _ (by decide)]
          exact h 2) _
  have e3 : tileW32 n i 3 (putCol (putCol (putCol B 0 (L 0)) 1 (L 1)) 2 (L 2),
      dm || f 0 || f 1 || f 2) = _ :=
    tileW32_eval (B := putCol (putCol (putCol B 0 (L 0)) 1 (L 1)) 2 (L 2))
      (by rw [col_putCol_other _ _ _ _ (by decide), col_putCol_other _ _ _ _ (by decide),
            col_putCol_other _ _ _ _ (by decide)]; exact h 3) _
  simp only [List.foldlM, bind_pure, e0, ok_bind, e1, e2, e3]
  congr 2
  funext i j
  fin_cases j <;> simp [putCol, ofCols]

theorem passS32 (n : Nat) (i : Fin 4) (B : Board) (dm : Bool) (L : Fin 4 → Line) (f : Fin 4 → Bool)
    (h : ∀ j, tileHi32 n i (col B j, false) = .ok (L j, f j)) :
    [0, 1, 2, 3].foldlM (fun st j => tileS32 n i j st) (B, dm)
      = .ok (ofCols L, dm || f 0 || f 1 || f 2 || f 3) := by
  have e0 := tileS32_eval (h 0) dm
  have e1 : tileS32 n i 1 (putCol B 0 (L 0), dm || f 0) = _ :=
    tileS32_eval (B := putCol B 0 (L 0)) (by rw [col_putCol_other _ _ _ _ (by decide)]; exact h 1) _
  have e2 : tileS32 n i 2 (putCol (putCol B 0 (L 0)) 1 (L 1), dm || f 0 || f 1) = _ :=
    tileS32_eval (B := putCol (putCol B 0 (L 0)) 1 (L 1))
      (by rw [col_putCol_other _ _ _ _ (by decide), col_putCol_other _ _ _ _ (by decide)]
          exact h 2) _
  have e3 : tileS32 n i 3 (putCol (putCol (putCol B 0 (L 0)) 1 (L 1)) 2 (L 2),
      dm || f 0 || f 1 || f 2) = _ :=
    tileS32_eval (B := putCol (putCol (putCol B 0 (L 0)) 1 (L 1)) 2 (L 2))
      (by rw [col_putCol_other _ _ _ _ (by decide), col_putCol_other _ _ _ _ (by decide),
            col_putCol_other _ _ _ _ (by decide)]; exact h 3) _
  simp only [List.foldlM, bind_pure, e0, ok_bind, e1, e2, e3]
  congr 2
  funext i j
  fin_cases j <;> simp [putCol, ofCols]

theorem shiftA32_of_lines (n : Nat) (b : Board) (L : Fin 4 → Line) (m : Fin 4 → Bool)
    (h : ∀ r, lineLo32 n (b r) = .ok (L r, m r)) :
    shiftA32 n b = .ok (L, m 0 || m 1 || m 2 || m 3) := by
  choose l1 f1 l2 f2 f3 h1 h2 h3 hm using fun r => (lineLo32_ok_iff n (b r) (L r) (m r)).mp (h r)
  have e : shiftA32 n b =
      ([0, 1, 2, 3].foldlM (fun st r => tileA32 n 1 r st) (b, false) >>= fun s1 =>
       [0, 1, 2, 3].foldlM (fun st r => tileA32 n 2 r st) s1 >>= fun s2 =>
       [0, 1, 2, 3].foldlM (fun st r => tileA32 n 3 r st) s2 >>= pure) := rfl
  rw [e]
  rw [passA32 n 1 b false l1 f1 h1, ok_bind, passA32 n 2 l1 _ l2 f2 h2, ok_bind,
    passA32 n 3 l2 _ L f3 h3, ok_bind]
  simp only [hm]
  show Except.ok _ = Except.ok _
  congr 2
  simp only [Bool.false_or, Bool.or_assoc, Bool.or_comm, Bool.or_left_comm]

theorem shiftD32_of_lines (n : Nat) (b : Board) (L : Fin 4 → Line) (m : Fin 4 → Bool)
    (h : ∀ r, lineHi32 n (b r) = .ok (L r, m r)) :
    shiftD32 n b = .ok (L, m 0 || m 1 || m 2 || m 3) := by
  choose l1 f1 l2 f2 f3 h1 h2 h3 hm using fun r => (lineHi32_ok_iff n (b r) (L r) (m r)).mp (h r)
  have e : shiftD32 n b =
      ([0, 1, 2, 3].foldlM (fun st r => tileD32 n 2 r st) (b, false) >>= fun s1 =>
       [0, 1, 2, 3].foldlM (fun st r => tileD32 n 1 r st) s1 >>= fun s2 =>
       [0, 1, 2, 3].foldlM (fun st r => tileD32 n 0 r st) s2 >>= pure) := rfl
  rw [e]
  rw [passD32 n 2 b false l1 f1 h1, ok_bind, passD32 n 1 l1 _ l2 f2 h2, ok_bind,
    passD32 n 0 l2 _ L f3 h3, ok_bind]
  simp only [hm]
  show Except.ok _ = Except.ok _
  congr 2
  simp only [Bool.false_or, Bool.or_assoc, Bool.or_comm, Bool.or_left_comm]

theorem shiftW32_of_lines (n : Nat) (b : Board) (L : Fin 4 → Line) (m : Fin 4 → Bool)
    (h : ∀ j, lineLo32 n (col b j) = .ok (L j, m j)) :
    shiftW32 n b = .ok (ofCols L, m 0 || m 1 || m 2 || m 3) := by
  choose l1 f1 l2 f2 f3 h1 h2 h3 hm using
    fun j => (lineLo32_ok_iff n (col b j) (L j) (m j)).mp (h j)
  have e : shiftW32 n b =
      ([0, 1, 2, 3].foldlM (fun st j => tileW32 n 1 j st) (b, false) >>= fun s1 =>
       [0, 1, 2, 3].foldlM (fun st j => tileW32 n 2 j st) s1 >>= fun s2 =>
       [0, 1, 2, 3].foldlM (fun st j => tileW32 n 3 j st) s2 >>= pure) := rfl
  rw [e]
  rw [passW32 n 1 b false l1 f1 h1, ok_bind, passW32 n 2 (ofCols l1) _ l2 f2 h2, ok_bind,
    passW32 n 3 (ofCols l2) _ L f3 h3, ok_bind]
  simp only [hm]
  show Except.ok _ = Except.ok _
  congr 2
  simp only [Bool.false_or, Bool.or_assoc, Bool.or_comm, Bool.or_left_comm]

theorem shiftS32_of_lines (n : Nat) (b : Board) (L : Fin 4 → Line) (m : Fin 4 → Bool)
    (h : ∀ j, lineHi32 n (col b j) = .ok (L j, m j)) :
    shiftS32 n b = .ok (ofCols L, m 0 || m 1 || m 2 || m 3) := by
  choose l1 f1 l2 f2 f3 h1 h2 h3 hm using
    fun j => (lineHi32_ok_iff n (col b j) (L j) (m j)).mp (h j)
  have e : shiftS32 n b =
      ([0, 1, 2, 3].foldlM (fun st j => tileS32 n 2 j st) (b, false) >>= fun s1 =>
       [0, 1, 2, 3].foldlM (fun st j => tileS32 n 1 j st) s1 >>= fun s2 =>
       [0, 1, 2, 3].foldlM (fun st j => tileS32 n 0 j st) s2 >>= pure) := rfl
  rw [e]
  rw [passS32 n 2 b false l1 f1 h1, ok_bind, passS32 n 1 (ofCols l1) _ l2 f2 h2, ok_bind,
    passS32 n 0 (ofCols l2) _ L f3 h3, ok_bind]
  simp only [hm]
  show Except.ok _ = Except.ok _
  congr 2
  simp only [Bool.false_or, Bool.or_assoc, Bool.or_comm, Bool.or_left_comm]

theorem whileLo32_succ (n : Nat) (l : Line) (curr : Fin 4) (nb : Int) (done dm : Bool) :
    whileLo32 (n + 1) l curr nb done dm =
    if !done && decide (0 ≤ nb) then
      match idx? nb with
      | none => .error .bounds
      | some near =>
        if (l near).isAvailable then
          whileLo32 n (lsetAvail (lsetAvail (lsetVal (lsetVal l near (l curr).val) curr 0)
            near false) curr true) near (nb - 1) done true
        else if (l near).val = (l curr).val then
          whileLo32 n (lsetAvail (lsetAvail (lsetVal (lsetVal l near (wrap32 ((l near).val * 2))) curr 0)
            near false) curr true) curr nb done true
        else whileLo32 n l curr nb true dm
    else .ok (l, dm) := rfl

theorem tileLo32_1 (n : Nat) (l : Line) (dm : Bool) :
    tileLo32 n 1 (l, dm) = if !(l 1).isAvailable then whileLo32 n l 1 0 false dm else .ok (l, dm) := rfl
theorem tileLo32_2 (n : Nat) (l : Line) (dm : Bool) :
    tileLo32 n 2 (l, dm) = if !(l 2).isAvailable then whileLo32 n l 2 1 false dm else .ok (l, dm) := rfl
theorem tileLo32_3 (n : Nat) (l : Line) (dm : Bool) :
    tileLo32 n 3 (l, dm) = if !(l 3).isAvailable then whileLo32 n l 3 2 false dm else .ok (l, dm) := rfl

theorem lineLo32_unfold (n : Nat) (l : Line) :
    lineLo32 n l = (tileLo32 n 1 (l, false) >>= fun s1 => tileLo32 n 2 s1 >>= fun s2 =>
      tileLo32 n 3 s2 >>= pure) := rfl

theorem whileHi32_mirror (n : Nat) (l : Line) (curr : Fin 4) (nb : Int) (done dm : Bool) :
    whileHi32 n l curr nb done dm
      = (whileLo32 n (mirror l) curr.rev (3 - nb) done dm).map mirrorRes := by
  induction n generalizing l curr nb done dm with
  | zero => rfl
  | succ n ih =>
    unfold whileHi32 whileLo32
    have hc : (!done && decide (nb < 4)) = (!done && decide (0 ≤ 3 - nb)) := by
      congr 1
      by_cases h : nb < 4
      · have : 0 ≤ 3 - nb := by omega
        simp [h, this]
      · have : ¬ 0 ≤ 3 - nb := by omega
        simp [h, this]
    rw [hc, idx?_mirror]
    split
    · cases h : idx? nb with
      | none => rfl
      | some near =>
        simp only [Option.map_some', mirror_rev, lsetVal_mirror, lsetAvail_mirror]
        have e : 3 - nb - 1 = 3 - (nb + 1) := by omega
        split
        · rw [e]; exact ih _ _ _ _ _
        · split
          · exact ih _ _ _ _ _
          · exact ih _ _ _ _ _
    · simp [Except.map, mirrorRes]

theorem tileHi32_mirror (n : Nat) (c : Fin 4) (l : Line) (dm : Bool) :
    tileHi32 n c (l, dm) = (tileLo32 n c.rev (mirror l, dm)).map mirrorRes := by
  unfold tileHi32 tileLo32
  simp only [mirror_rev]
  have e : ((c.rev : Fin 4) : Int) - 1 = 3 - ((c : Int) + 1) := by
    have := Fin.val_rev c
    have := c.isLt
    omega
  split
  · rw [e]; exact whileHi32_mirror _ _ _ _ _ _
  · simp [Except.map, mirrorRes]

theorem lineHi32_mirror (n : Nat) (l : Line) :
    lineHi32 n l = (lineLo32 n (mirror l)).map mirrorRes := by
  have e : lineHi32 n l = (tileHi32 n 2 (l, false) >>= fun s1 => tileHi32 n 1 s1 >>= fun s2 =>
      tileHi32 n 0 s2 >>= pure) := rfl
  rw [e, lineLo32_unfold, tileHi32_mirror]
  have r2 : (2 : Fin 4).rev = 1 := rfl
  have r1 : (1 : Fin 4).rev = 2 := rfl
  have r0 : (0 : Fin 4).rev = 3 := rfl
  rw [r2]
  cases h1 : tileLo32 n 1 (mirror l, false) with
  | error e => rfl
  | ok p1 =>
    obtain ⟨l1, f1⟩ := p1
    show tileHi32 n 1 (mirror l1, f1) >>= _ = _
    rw [tileHi32_mirror, r1, mirror_mirror, ok_bind]
    cases h2 : tileLo32 n 2 (l1, f1) with
    | error e => rfl
    | ok p2 =>
      obtain ⟨l2, f2⟩ := p2
      show tileHi32 n 0 (mirror l2, f2) >>= _ = _
      rw [tileHi32_mirror, r0, mirror_mirror, ok_bind]
      cases h3 : tileLo32 n 3 (l2, f2) with
      | error e => rfl
      | ok p3 => rfl

theorem shift32_of_lines (n : Nat) (d : Dir) (b : Board) (L : Fin 4 → Line) (m : Fin 4 → Bool)
    (h : ∀ k, lineLo32 n (lines d b k) = .ok (L k, m k)) :
    shift32 n d b = .ok (unlines d L, m 0 || m 1 || m 2 || m 3) := by
  cases d with
  | left => exact shiftA32_of_lines n b L m h
  | up => exact shiftW32_of_lines n b L m h
  | right =>
    refine shiftD32_of_lines n b (fun r => mirror (L r)) m (fun r => ?_)
    have := h r
    simp only [lines] at this
    rw [lineHi32_mirror, this]
    rfl
  | down =>
    refine shiftS32_of_lines n b (fun j => mirror (L j)) m (fun j => ?_)
    have := h j
    simp only [lines] at this
    rw [lineHi32_mirror, this]
    rfl

theorem whileLoTrace32_erase (n : Nat) (l : Line) (curr : Fin 4) (nb : Int) (done dm : Bool)
    (tr : List Branch) :
    (whileLoTrace32 n l curr nb done dm tr).map dropTrace = whileLo32 n l curr nb done dm := by
  induction n generalizing l curr nb done dm tr with
  | zero => rfl
  | succ n ih =>
    unfold whileLoTrace32 whileLo32
    split
    · cases h : idx? nb with
      | none => rfl
      | some near =>
        simp only
        split
        · exact ih _ _ _ _ _ _
        · split
          · exact ih _ _ _ _ _ _
          · exact ih _ _ _ _ _ _
    · rfl

theorem whileHiTrace32_erase (n : Nat) (l : Line) (curr : Fin 4) (nb : Int) (done dm : Bool)
    (tr : List Branch) :
    (whileHiTrace32 n l curr nb done dm tr).map dropTrace = whileHi32 n l curr nb done dm := by
  induction n generalizing l curr nb done dm tr with
  | zero => rfl
  | succ n ih =>
    unfold whileHiTrace32 whileHi32
    split
    · cases h : idx? nb with
      | none => rfl
      | some near =>
        simp only
        split
        · exact ih _ _ _ _ _ _
        · split
          · exact ih _ _ _ _ _ _
          · exact ih _ _ _ _ _ _
    · rfl

theorem whileHiTrace32_mirror (n : Nat) (l : Line) (curr : Fin 4) (nb : Int) (done dm : Bool)
    (tr : List Branch) :
    whileHiTrace32 n l curr nb done dm tr
      = (whileLoTrace32 n (mirror l) curr.rev (3 - nb) done dm tr).map
          (fun p => (mirror p.1, p.2)) := by
  induction n generalizing l curr nb done dm tr with
  | zero => rfl
  | succ n ih =>
    unfold whileHiTrace32 whileLoTrace32
    have hc : (!done && decide (nb < 4)) = (!done && decide (0 ≤ 3 - nb)) := by
      congr 1
      by_cases h : nb < 4
      · have : 0 ≤ 3 - nb := by omega
        simp [h, this]
      · have : ¬ 0 ≤ 3 - nb := by omega
        simp [h, this]
    rw [hc, idx?_mirror]
    split
    · cases h : idx? nb with
      | none => rfl
      | some near =>
        simp only [Option.map_some', mirror_rev, lsetVal_mirror, lsetAvail_mirror]
        have e : 3 - nb - 1 = 3 - (nb + 1) := by omega
        split
        · rw [e]; exact ih _ _ _ _ _ _
        · split
          · exact ih _ _ _ _ _ _
          · exact ih _ _ _ _ _ _
    · simp [Except.map]

theorem whileLo32_no_bounds (n : Nat) (l : Line) (curr : Fin 4) (nb : Int) (done dm : Bool)
    (h : nb < 4) : whileLo32 n l curr nb done dm ≠ .error .bounds := by
  induction n generalizing l curr nb done dm with
  | zero => intro e; cases e
  | succ n ih =>
    unfold whileLo32
    split
    · rename_i hc
      have h0 : 0 ≤ nb := by
        simp only [Bool.and_eq_true, decide_eq_true_eq] at hc
        exact hc.2
      obtain ⟨near, hi⟩ : ∃ near, idx? nb = some near := by
        unfold idx?
        rw [dif_pos ⟨h0, h⟩]
        exact ⟨_, rfl⟩
      rw [hi]
      simp only
      split_ifs
      · exact ih _ _ _ _ _ (by omega)
      · exact ih _ _ _ _ _ h
      · exact ih _ _ _ _ _ h
    · intro e; cases e

theorem tileLo32_no_bounds (n : Nat) (c : Fin 4) (st : Line × Bool) :
    tileLo32 n c st ≠ .error .bounds := by
  unfold tileLo32
  split
  · exact whileLo32_no_bounds _ _ _ _ _ _ (by have := c.isLt; omega)
  · intro e; cases e

theorem tileHi32_no_bounds (n : Nat) (c : Fin 4) (st : Line × Bool) :
    tileHi32 n c st ≠ .error .bounds := by
  obtain ⟨l, dm⟩ := st
  rw [tileHi32_mirror]
  exact map_ne_bounds _ _ (tileLo32_no_bounds _ _ _)

theorem tileA32_no_bounds (n : Nat) (c r : Fin 4) (st : Board × Bool) :
    tileA32 n c r st ≠ .error .bounds := by
  obtain ⟨b, dm⟩ := st
  have := tileA32_line n c r b (b r) dm
  rw [putRow_self] at this
  rw [this]
  exact map_ne_bounds _ _ (tileLo32_no_bounds _ _ _)

theorem tileD32_no_bounds (n : Nat) (c r : Fin 4) (st : Board × Bool) :
    tileD32 n c r st ≠ .error .bounds := by
  obtain ⟨b, dm⟩ := st
  have := tileD32_line n c r b (b r) dm
  rw [putRow_self] at this
  rw [this]
  exact map_ne_bounds _ _ (tileHi32_no_bounds _ _ _)

theorem tileW32_no_bounds (n : Nat) (i j : Fin 4) (st : Board × Bool) :
    tileW32 n i j st ≠ .error .bounds := by
  obtain ⟨b, dm⟩ := st
  have := tileW32_line n i j b (col b j) dm
  rw [putCol_self] at this
  rw [this]
  exact map_ne_bounds _ _ (tileLo32_no_bounds _ _ _)

theorem tileS32_no_bounds (n : Nat) (i j : Fin 4) (st : Board × Bool) :
    tileS32 n i j st ≠ .error .bounds := by
  obtain ⟨b, dm⟩ := st
  have := tileS32_line n i j b (col b j) dm
  rw [putCol_self] at this
  rw [this]
  exact map_ne_bounds _ _ (tileHi32_no_bounds _ _ _)

theorem shift32_no_bounds (n : Nat) (d : Dir) (b : Board) : shift32 n d b ≠ .error .bounds := by
  cases d
  · exact foldlM_no_bounds _ (fun s i => foldlM_no_bounds _ (fun s j => tileW32_no_bounds n i j s) _ s)
      _ _
  · exact foldlM_no_bounds _ (fun s c => foldlM_no_bounds _ (fun s r => tileA32_no_bounds n c r s) _ s)
      _ _
  · exact foldlM_no_bounds _ (fun s i => foldlM_no_bounds _ (fun s j => tileS32_no_bounds n i j s) _ s)
      _ _
  · exact foldlM_no_bounds _ (fun s c => foldlM_no_bounds _ (fun s r => tileD32_no_bounds n c r s) _ s)
      _ _


/-! ## The slide loops on the C `int`: termination -/

theorem wrap32_double_ne_zero (v : Int) (h : SafeTile v) : wrap32 (v * 2) ≠ 0 := by
  unfold SafeTile INT_MIN INT_MAX at h
  unfold wrap32
  omega

theorem wrap32_double_small (v : Int) (h1 : -1073741824 ≤ v) (h2 : v < 1073741824) :
    wrap32 (v * 2) = v * 2 := by
  unfold wrap32
  omega

theorem wrap32_range (v : Int) : INT_MIN ≤ wrap32 v ∧ wrap32 v ≤ INT_MAX := by
  unfold wrap32 INT_MIN INT_MAX
  omega

/-- One tile on the C `int`: when the value of the arriving tile is an `int`
other than 0 and `INT_MIN`, with fuel `curr + 2` or more the loop towards index
0 returns, leaves the cells beyond the tile as they were, keeps occupied cells
non-zero, and takes at most `curr` slides followed by nothing, a stop, or one
merge and a stop. -/
theorem whileLoTrace32_shape (c : Nat) :
    ∀ (curr : Fin 4) (m : Nat) (l : Line) (dm : Bool) (tr : List Branch), curr.val = c →
      SafeTile (l curr).val →
      ∃ l' dm' s, s ≤ c ∧ (∀ k : Fin 4, c < k.val → l' k = l k) ∧
        (NonZeroLine l → NonZeroLine l') ∧
        ((whileLoTrace32 (c + 2 + m) l curr ((curr : Int) - 1) false dm tr
            = .ok (l', dm', tr ++ List.replicate s Branch.slide)) ∨
         (whileLoTrace32 (c + 2 + m) l curr ((curr : Int) - 1) false dm tr
            = .ok (l', dm', tr ++ (List.replicate s Branch.slide ++ [Branch.stop]))) ∨
         (whileLoTrace32 (c + 2 + m) l curr ((curr : Int) - 1) false dm tr
            = .ok (l', dm', tr ++ (List.replicate s Branch.slide ++ [Branch.merge, Branch.stop])))) := by
  induction c with
  | zero =>
    intro curr m l dm tr hc _
    refine ⟨l, dm, 0, le_refl 0, fun _ _ => rfl, id, Or.inl ?_⟩
    have hneg : ¬ (0 : Int) ≤ (curr : Int) - 1 := by
      have : ((curr : Nat) : Int) = 0 := by exact_mod_cast hc
      omega
    have e : 0 + 2 + m = (m + 1) + 1 := by omega
    rw [e]
    unfold whileLoTrace32
    simp [hneg]
  | succ c ih =>
    intro curr m l dm tr hc hsafe
    obtain ⟨near, hidx, hnear⟩ := idx?_pred curr c hc
    have hne : near ≠ curr := by
      intro e
      rw [e] at hnear
      omega
    have hne' : curr ≠ near := fun e => hne e.symm
    have hpos : (0 : Int) ≤ (curr : Int) - 1 := by
      have : ((curr : Nat) : Int) = (c : Int) + 1 := by exact_mod_cast hc
      omega
    have hv : (l curr).val ≠ 0 := hsafe.2.2
    have hbeyond : ∀ k : Fin 4, c + 1 < k.val → k ≠ curr ∧ k ≠ near := by
      intro k hk
      constructor
      · intro e; rw [e] at hk; omega
      · intro e; rw [e] at hk; omega
    have e : c + 1 + 2 + m = (c + 2 + m) + 1 := by omega
    rw [e]
    unfold whileLoTrace32
    simp only [Bool.not_false, hpos, decide_True, Bool.and_self, if_true, hidx]
    by_cases ha : (l near).isAvailable = true
    · -- slide
      simp only [ha, if_true]
      have hnb : (curr : Int) - 1 - 1 = (near : Int) - 1 := by
        have h1 : ((curr : Nat) : Int) = (c : Int) + 1 := by exact_mod_cast hc
        have h2 : ((near : Nat) : Int) = (c : Int) := by exact_mod_cast hnear
        omega
      rw [hnb]
      have hl1 : NonZeroLine l → NonZeroLine (lsetAvail (lsetAvail (lsetVal (lsetVal l near
          (l curr).val) curr 0) near false) curr true) := by
        intro hl k hk
        by_cases k1 : k = curr
        · subst k1
          simp [lsetAvail] at hk
        · by_cases k2 : k = near
          · subst k2
            simp [lsetAvail, lsetVal, k1, hv]
          · simp only [lsetAvail, lsetVal, k1, k2, if_false] at hk ⊢
            exact hl k hk
      have hsafe1 : SafeTile ((lsetAvail (lsetAvail (lsetVal (lsetVal l near (l curr).val) curr 0)
          near false) curr true) near).val := by
        have : ((lsetAvail (lsetAvail (lsetVal (lsetVal l near (l curr).val) curr 0)
          near false) curr true) near).val = (l curr).val := by
          simp [lsetAvail, lsetVal, hne]
        rw [this]
        exact hsafe
      obtain ⟨l', dm', s, hs, hfr, hnz, hres⟩ :=
        ih near m _ true (tr ++ [Branch.slide]) hnear hsafe1
      have hfr' : ∀ k : Fin 4, c + 1 < k.val → l' k = l k := by
        intro k hk
        rw [hfr k (by omega)]
        obtain ⟨k1, k2⟩ := hbeyond k hk
        simp [lsetAvail, lsetVal, k1, k2]
      refine ⟨l', dm', s + 1, by omega, hfr', fun hl => hnz (hl1 hl), ?_⟩
      have r1 : ∀ (x : List Branch), tr ++ [Branch.slide] ++ x
          = tr ++ (Branch.slide :: x) := by
        intro x; simp
      have r2 : List.replicate (s + 1) Branch.slide = Branch.slide :: List.replicate s Branch.slide :=
        rfl
      rcases hres with h | h | h
      · left; rw [h, r2, r1]
      · right; left; rw [h, r2, r1]; rfl
      · right; right; rw [h, r2, r1]; rfl
    · simp only [ha, Bool.false_eq_true, if_false]
      by_cases hq : (l near).val = (l curr).val
      · -- merge, then stop
        simp only [hq, if_true]
        have hw : ¬ wrap32 ((l curr).val * 2) = 0 := wrap32_double_ne_zero _ hsafe
        have hl2 : NonZeroLine l → NonZeroLine (lsetAvail (lsetAvail (lsetVal (lsetVal l near
            (wrap32 ((l curr).val * 2))) curr 0) near false) curr true) := by
          intro hl k hk
          by_cases k1 : k = curr
          · subst k1
            simp [lsetAvail] at hk
          · by_cases k2 : k = near
            · subst k2
              simp only [lsetAvail, lsetVal, k1, if_false, if_true]
              exact hw
            · simp only [lsetAvail, lsetVal, k1, k2, if_false] at hk ⊢
              exact hl k hk
        have hfr2 : ∀ k : Fin 4, c + 1 < k.val → (lsetAvail (lsetAvail (lsetVal (lsetVal l near
            (wrap32 ((l curr).val * 2))) curr 0) near false) curr true) k = l k := by
          intro k hk
          obtain ⟨k1, k2⟩ := hbeyond k hk
          simp [lsetAvail, lsetVal, k1, k2]
        refine ⟨_, true, 0, Nat.zero_le _, hfr2, hl2, Or.inr (Or.inr ?_)⟩
        have e2 : c + 2 + m = (c + m + 1) + 1 := by omega
        rw [e2]
        unfold whileLoTrace32
        simp only [Bool.not_false, hpos, decide_True, Bool.and_self, if_true, hidx]
        have hn1 : ((lsetAvail (lsetAvail (lsetVal (lsetVal l near (wrap32 ((l curr).val * 2)))
            curr 0) near false) curr true) near).isAvailable = false := by
          simp [lsetAvail, lsetVal, hne]
        have hn2 : ((lsetAvail (lsetAvail (lsetVal (lsetVal l near (wrap32 ((l curr).val * 2)))
            curr 0) near false) curr true) near).val = wrap32 ((l curr).val * 2) := by
          simp [lsetAvail, lsetVal, hne]
        have hn3 : ((lsetAvail (lsetAvail (lsetVal (lsetVal l near (wrap32 ((l curr).val * 2)))
            curr 0) near false) curr true) curr).val = 0 := by
          simp [lsetAvail, lsetVal, hne']
        simp only [hn1, hn2, hn3, hw, Bool.false_eq_true, if_false]
        unfold whileLoTrace32
        simp
      · -- stop
        simp only [hq, if_false]
        refine ⟨l, dm, 0, Nat.zero_le _, fun _ _ => rfl, id, Or.inr (Or.inl ?_)⟩
        have e2 : c + 2 + m = (c + m + 1) + 1 := by omega
        rw [e2]
        unfold whileLoTrace32
        simp

theorem tile_loop_lo32 (n : Nat) (l : Line) (c : Fin 4) (dm : Bool)
    (hsafe : SafeTile (l c).val) :
    ∃ l' dm' tr, whileLoTrace32 (n + 5) l c ((c : Int) - 1) false dm [] = .ok (l', dm', tr) ∧
      whileLo32 (n + 5) l c ((c : Int) - 1) false dm = .ok (l', dm') ∧ SlideShape tr ∧
      (∀ k : Fin 4, c.val < k.val → l' k = l k) ∧ (NonZeroLine l → NonZeroLine l') := by
  have hc3 : c.val ≤ 3 := by have := c.isLt; omega
  obtain ⟨l', dm', s, hs, hfr, hnz, hres⟩ :=
    whileLoTrace32_shape c.val c (n + 3 - c.val) l dm [] rfl hsafe
  have e : c.val + 2 + (n + 3 - c.val) = n + 5 := by omega
  rw [e] at hres
  simp only [List.nil_append] at hres
  have key : ∀ tr, whileLoTrace32 (n + 5) l c ((c : Int) - 1) false dm [] = .ok (l', dm', tr) →
      whileLo32 (n + 5) l c ((c : Int) - 1) false dm = .ok (l', dm') := by
    intro tr h
    rw [← whileLoTrace32_erase _ _ _ _ _ _ [], h]
    rfl
  rcases hres with h | h | h
  · exact ⟨l', dm', _, h, key _ h, slideShape_of s _ hs hc3 _ (Or.inl rfl), hfr, hnz⟩
  · exact ⟨l', dm', _, h, key _ h, slideShape_of s _ hs hc3 _ (Or.inr (Or.inl rfl)), hfr, hnz⟩
  · exact ⟨l', dm', _, h, key _ h, slideShape_of s _ hs hc3 _ (Or.inr (Or.inr rfl)), hfr, hnz⟩

theorem tile_loop_hi32 (n : Nat) (l : Line) (c : Fin 4) (dm : Bool)
    (hsafe : SafeTile (l c).val) :
    ∃ l' dm' tr, whileHiTrace32 (n + 5) l c ((c : Int) + 1) false dm [] = .ok (l', dm', tr) ∧
      whileHi32 (n + 5) l c ((c : Int) + 1) false dm = .ok (l', dm') ∧ SlideShape tr ∧
      (∀ k : Fin 4, k.val < c.val → l' k = l k) ∧ (NonZeroLine l → NonZeroLine l') := by
  have hsafe' : SafeTile (mirror l c.rev).val := by rw [mirror_rev]; exact hsafe
  obtain ⟨l', dm', tr, h1, _, h3, hfr, hnz⟩ := tile_loop_lo32 n (mirror l) c.rev dm hsafe'
  have e : (3 : Int) - ((c : Int) + 1) = ((c.rev : Fin 4) : Int) - 1 := by
    have := Fin.val_rev c
    have := c.isLt
    omega
  have ht : whileHiTrace32 (n + 5) l c ((c : Int) + 1) false dm [] = .ok (mirror l', dm', tr) := by
    rw [whileHiTrace32_mirror, e, h1]
    rfl
  refine ⟨mirror l', dm', tr, ht, ?_, h3, ?_, ?_⟩
  · rw [← whileHiTrace32_erase _ _ _ _ _ _ [], ht]
    rfl
  · intro k hk
    have hk' : c.rev.val < k.rev.val := by
      have h1 := Fin.val_rev c
      have h2 := Fin.val_rev k
      have h3 := c.isLt
      have h4 := k.isLt
      omega
    show l' k.rev = l k
    rw [hfr k.rev hk']
    exact mirror_rev l k
  · intro hl
    exact nonZero_mirror l' (hnz (nonZero_mirror l hl))

theorem tileLo32_safe (n : Nat) (c : Fin 4) (l : Line) (dm : Bool)
    (h : (l c).isAvailable = false → SafeTile (l c).val) :
    ∃ l' dm', tileLo32 (n + 5) c (l, dm) = .ok (l', dm') ∧
      (∀ k : Fin 4, c.val < k.val → l' k = l k) ∧ (NonZeroLine l → NonZeroLine l') := by
  unfold tileLo32
  cases ha : (l c).isAvailable
  · obtain ⟨l', dm', _, _, h1, _, hfr, hnz⟩ := tile_loop_lo32 n l c dm (h ha)
    exact ⟨l', dm', by simpa using h1, hfr, hnz⟩
  · exact ⟨l, dm, by simp, fun _ _ => rfl, id⟩

theorem lineLo32_safe (n : Nat) (l : Line) (hl : SafeLine l) :
    ∃ l' m, lineLo32 (n + 5) l = .ok (l', m) ∧ NonZeroLine l' := by
  have hz : NonZeroLine l := fun k hk => (hl k hk).2.2
  obtain ⟨l1, m1, h1, f1, z1⟩ := tileLo32_safe n 1 l false (hl 1)
  have s2 : (l1 2).isAvailable = false → SafeTile (l1 2).val := by
    rw [f1 2 (by decide)]
    exact hl 2
  obtain ⟨l2, m2, h2, f2, z2⟩ := tileLo32_safe n 2 l1 m1 s2
  have s3 : (l2 3).isAvailable = false → SafeTile (l2 3).val := by
    rw [f2 3 (by decide), f1 3 (by decide)]
    exact hl 3
  obtain ⟨l3, m3, h3, _, z3⟩ := tileLo32_safe n 3 l2 m2 s3
  refine ⟨l3, m3, ?_, z3 (z2 (z1 hz))⟩
  rw [lineLo32_unfold, h1, ok_bind, h2, ok_bind, h3]
  rfl

theorem lines_safe (d : Dir) (b : Board) (h : SafeTiles b) (k : Fin 4) :
    SafeLine (lines d b k) := by
  intro t ht
  obtain ⟨i, j, e⟩ := lines_cell d b k t
  rw [e] at ht ⊢
  exact h i j ht

theorem shift32_safe (n : Nat) (d : Dir) (b : Board) (h : SafeTiles b) :
    ∃ b1 m, shift32 (n + 5) d b = .ok (b1, m) ∧ NonZeroTiles b1 := by
  choose L m hL hnz using fun k => lineLo32_safe n (lines d b k) (lines_safe d b h k)
  refine ⟨unlines d L, _, shift32_of_lines (n + 5) d b L m hL, ?_⟩
  intro i j hij
  obtain ⟨k, t, e⟩ := unlines_cell d L i j
  rw [e] at hij ⊢
  exact hnz k t hij


/-! ## Two tiles of value `INT_MIN`: the merge loop that never ends -/

theorem whileLo32_spins (n : Nat) (l : Line) (dm : Bool) (h0 : l 0 = ⟨0, false⟩)
    (h1 : (l 1).val = 0) : whileLo32 n l 1 0 false dm = .error .fuel := by
  induction n generalizing l dm with
  | zero => rfl
  | succ n ih =>
    rw [whileLo32_succ]
    have hw : wrap32 (0 * 2) = 0 := by decide
    simp only [Bool.not_false, le_refl, decide_True, Bool.and_self, if_true, idx?_0, h0, h1,
      Bool.false_eq_true, if_false, hw]
    apply ih
    · simp [lsetAvail, lsetVal, h0]
    · simp [lsetAvail, lsetVal]

theorem whileLo32_int_min (n : Nat) (l : Line) (dm : Bool) (h0 : l 0 = ⟨INT_MIN, false⟩)
    (h1 : (l 1).val = INT_MIN) : whileLo32 n l 1 0 false dm = .error .fuel := by
  cases n with
  | zero => rfl
  | succ n =>
    rw [whileLo32_succ]
    have hw : wrap32 (INT_MIN * 2) = 0 := by decide
    simp only [Bool.not_false, le_refl, decide_True, Bool.and_self, if_true, idx?_0, h0, h1,
      Bool.false_eq_true, if_false, hw]
    apply whileLo32_spins
    · simp [lsetAvail, lsetVal, h0]
    · simp [lsetAvail, lsetVal]

theorem shift32_int_min_spins (n : Nat) : shift32 n Dir.left intMinBoard = .error .fuel := by
  have e : shiftA32 n intMinBoard =
      ((tileA32 n 1 0 (intMinBoard, false) >>= fun s0 =>
        [1, 2, 3].foldlM (fun st r => tileA32 n 1 r st) s0) >>= fun s1 =>
        [2, 3].foldlM (fun st c => [0, 1, 2, 3].foldlM (fun st r => tileA32 n c r st) st) s1) := rfl
  have t : tileA32 n 1 0 (intMinBoard, false) = .error .fuel := by
    have := tileA32_line n 1 0 intMinBoard (intMinBoard 0) false
    rw [putRow_self] at this
    rw [this, tileLo32_1]
    have hs := whileLo32_int_min n (intMinBoard 0) false rfl rfl
    have ho : (intMinBoard 0 1).isAvailable = false := by decide
    simp only [ho, Bool.not_false, if_true, hs]
    rfl
  show shiftA32 n intMinBoard = _
  rw [e, t]
  rfl

/-- C19, as the claim states it, fails on the C `int`: the board whose first row
starts with two tiles of value `INT_MIN` has no occupied cell of value 0, yet
its left shift never returns: the first merge stores `INT_MIN * 2`, which wraps
to 0, next to the emptied cell's 0, and the merge branch repeats. -/
theorem int_min_tiles_merge_forever :
    NonZeroTiles intMinBoard ∧
    vals intMinBoard
      = [[-2147483648, -2147483648, 0, 0], [0, 0, 0, 0], [0, 0, 0, 0], [0, 0, 0, 0]] ∧
    wrap32 (-2147483648 * 2) = 0 ∧
    (∀ fuel : Nat, shift32 fuel Dir.left intMinBoard = .error .fuel) ∧
    ¬ ∃ (fuel : Nat) (R : Board × Bool), shift32 fuel Dir.left intMinBoard = .ok R := by
  refine ⟨fun i j => by fin_cases i <;> fin_cases j <;> decide, by decide, by decide,
    shift32_int_min_spins, ?_⟩
  rintro ⟨fuel, R, h⟩
  rw [shift32_int_min_spins] at h
  cases h


/-! ## Claim C19: the slide loops on the C `int` terminate and stay in range -/

/-- C19 amended: on a board whose occupied cells all hold `int` values other
than 0 and `INT_MIN`, every directional shift on the C `int` returns with fuel
5 per slide loop and leaves no occupied cell of value 0, and no shift (any
board, any fuel) reads outside indices 0..3.  The slide loop of one tile whose
value is an `int` other than 0 and `INT_MIN` takes at most 3 slides followed by
nothing, by a stop, or by one merge and then at once a stop.  The four board
loops are the two line loops run on a row or a column. -/
theorem slide_loops_terminate_on_int (n : Nat) (d : Dir) (b : Board) (h : SafeTiles b) :
    (∃ b1 m, shift32 (n + 5) d b = .ok (b1, m) ∧ NonZeroTiles b1) ∧
    (∀ (fuel : Nat) (b' : Board), shift32 fuel d b' ≠ .error .bounds) ∧
    (∀ (l : Line) (c : Fin 4) (dm : Bool), SafeTile (l c).val →
      (∃ l' dm' tr, whileLoTrace32 (n + 5) l c ((c : Int) - 1) false dm [] = .ok (l', dm', tr) ∧
        whileLo32 (n + 5) l c ((c : Int) - 1) false dm = .ok (l', dm') ∧ SlideShape tr ∧
        (NonZeroLine l → NonZeroLine l')) ∧
      (∃ l' dm' tr, whileHiTrace32 (n + 5) l c ((c : Int) + 1) false dm [] = .ok (l', dm', tr) ∧
        whileHi32 (n + 5) l c ((c : Int) + 1) false dm = .ok (l', dm') ∧ SlideShape tr ∧
        (NonZeroLine l → NonZeroLine l'))) ∧
    (∀ (fuel : Nat) (k : Fin 4) (B : Board) (curr : Fin 4) (nb : Int) (done dm : Bool),
      whileA32 fuel k B curr nb done dm
        = (whileLo32 fuel (B k) curr nb done dm).map (inRow B k) ∧
      whileD32 fuel k B curr nb done dm
        = (whileHi32 fuel (B k) curr nb done dm).map (inRow B k) ∧
      whileW32 fuel k B curr nb done dm
        = (whileLo32 fuel (col B k) curr nb done dm).map (inCol B k) ∧
      whileS32 fuel k B curr nb done dm
        = (whileHi32 fuel (col B k) curr nb done dm).map (inCol B k)) := by
  refine ⟨shift32_safe n d b h, fun fuel b' => shift32_no_bounds fuel d b', ?_, ?_⟩
  · intro l c dm hs
    obtain ⟨l1, dm1, tr1, a1, a2, a3, _, a5⟩ := tile_loop_lo32 n l c dm hs
    obtain ⟨l2, dm2, tr2, b1, b2, b3, _, b5⟩ := tile_loop_hi32 n l c dm hs
    exact ⟨⟨l1, dm1, tr1, a1, a2, a3, a5⟩, ⟨l2, dm2, tr2, b1, b2, b3, b5⟩⟩
  · intro fuel k B curr nb done dm
    have a := whileA32_line fuel k B (B k) curr nb done dm
    have d' := whileD32_line fuel k B (B k) curr nb done dm
    have w := whileW32_line fuel k B (col B k) curr nb done dm
    have s := whileS32_line fuel k B (col B k) curr nb done dm
    rw [putRow_self] at a d'
    rw [putCol_self] at w s
    exact ⟨a, d', w, s⟩

theorem slide_loops_terminate_on_int_witness :
    SafeTiles fullRowsBoard ∧
    ∃ b1 m, shift32 (0 + 5) Dir.up fullRowsBoard = .ok (b1, m) ∧ NonZeroTiles b1 :=
  ⟨fun i j => by fin_cases i <;> fin_cases j <;> decide,
   (slide_loops_terminate_on_int 0 Dir.up fullRowsBoard
      (fun i j => by fin_cases i <;> fin_cases j <;> decide)).1⟩


/-! ## Claim C12: four equal tiles on the C `int` -/

theorem cell_eq_mk (x : cell) (v : Int) (f : Bool) (h1 : x.val = v) (h2 : x.isAvailable = f) :
    x = ⟨v, f⟩ := by
  cases x
  simp_all

theorem lineLo32_four (n : Nat) (v : Int) (hv : 0 < v) (hv2 : v < 1073741824) :
    lineLo32 (n + 5) (ln ⟨v, false⟩ ⟨v, false⟩ ⟨v, false⟩ ⟨v, false⟩)
      = .ok (ln ⟨v * 2, false⟩ ⟨v * 2, false⟩ ⟨0, true⟩ ⟨0, true⟩, true) := by
  have hw : wrap32 (v * 2) = v * 2 := wrap32_double_small v (by omega) hv2
  have h0 : ¬ v = 0 := by omega
  rw [lineLo32_unfold]
  simp [tileLo32_1, tileLo32_2, tileLo32_3, whileLo32_succ, hw, h0]

/-- C12, as the claim states it, fails on the C `int`: four tiles of value 2^30 in
a row, shifted left, leave two tiles of value -2^31, not of value 2 * 2^30. -/
theorem four_tiles_of_two_pow_30_wrap :
    vals bigRowBoard = [[1073741824, 1073741824, 1073741824, 1073741824], [0, 0, 0, 0],
      [0, 0, 0, 0], [0, 0, 0, 0]] ∧
    shiftVals (shift32 5 Dir.left bigRowBoard)
      = some [[-2147483648, -2147483648, 0, 0], [0, 0, 0, 0], [0, 0, 0, 0], [0, 0, 0, 0]] ∧
    shiftVals (shift32 5 Dir.left bigRowBoard)
      ≠ some [[2 * 1073741824, 2 * 1073741824, 0, 0], [0, 0, 0, 0], [0, 0, 0, 0], [0, 0, 0, 0]] := by
  decide

theorem line_of_vals_flags (l : Line) (v : Int) (hk : lineVals l = [v, v, v, v])
    (hf : lineFlags l = [false, false, false, false]) :
    l = ln ⟨v, false⟩ ⟨v, false⟩ ⟨v, false⟩ ⟨v, false⟩ := by
  simp only [lineVals, lineFlags, List.cons.injEq, and_true] at hk hf
  obtain ⟨a0, a1, a2, a3⟩ := hk
  obtain ⟨f0, f1, f2, f3⟩ := hf
  funext t
  fin_cases t
  · exact cell_eq_mk _ _ _ a0 f0
  · exact cell_eq_mk _ _ _ a1 f1
  · exact cell_eq_mk _ _ _ a2 f2
  · exact cell_eq_mk _ _ _ a3 f3

/-- C12 amended: on the C `int`, on a board whose occupied cells hold `int`
values other than 0 and `INT_MIN`, a line (read from the edge the tiles move
to) whose four cells are occupied by the same positive value `v` below 2^30
holds, after the shift along it in any of the four directions, two occupied
cells of value `2v` followed by two empty cells of value 0, never a single
tile `4v`, and the move reports a change; in particular row `[2,2,2,2]`
shifted left becomes `[4,4,0,0]` with the last two cells empty. -/
theorem four_equal_tiles_merge_pairwise_on_int (n : Nat) (d : Dir) (b : Board)
    (h : SafeTiles b) (k : Fin 4) (v : Int) (hv : 0 < v) (hv2 : v < 1073741824)
    (hk : lineVals (lines d b k) = [v, v, v, v])
    (hf : lineFlags (lines d b k) = [false, false, false, false]) :
    (∃ b1, shift32 (n + 5) d b = .ok (b1, true) ∧
      lineVals (lines d b1 k) = [2 * v, 2 * v, 0, 0] ∧
      lineFlags (lines d b1 k) = [false, false, true, true] ∧
      lineVals (lines d b1 k) ≠ [4 * v, 0, 0, 0]) ∧
    shiftVals (shift32 5 Dir.left twosRowBoard)
      = some [[4, 4, 0, 0], [0, 0, 0, 0], [0, 0, 0, 0], [0, 0, 0, 0]] ∧
    shiftFlags (shift32 5 Dir.left twosRowBoard)
      = some [[false, false, true, true], [true, true, true, true], [true, true, true, true],
          [true, true, true, true]] := by
  refine ⟨?_, by decide, by decide⟩
  choose L m hL _ using fun k => lineLo32_safe n (lines d b k) (lines_safe d b h k)
  have hline := line_of_vals_flags (lines d b k) v hk hf
  have hk' := hL k
  rw [hline, lineLo32_four n v hv hv2] at hk'
  injection hk' with hk'
  injection hk' with hLk hmk
  have hm : (m 0 || m 1 || m 2 || m 3) = true := by
    fin_cases k <;> simp_all
  refine ⟨unlines d L, ?_, ?_, ?_, ?_⟩
  · rw [shift32_of_lines (n + 5) d b L m hL, hm]
  · rw [lines_unlines, ← hLk]
    simp [lineVals, mul_comm]
  · rw [lines_unlines, ← hLk]
    simp [lineFlags]
  · rw [lines_unlines, ← hLk]
    simp only [lineVals, ln_0, ne_eq, List.cons.injEq, and_true, not_and]
    intro h0
    omega

theorem four_equal_tiles_merge_pairwise_on_int_witness :
    SafeTiles fullRowsBoard ∧ (0 : Int) < 2 ∧ (2 : Int) < 1073741824 ∧
    lineVals (lines Dir.down fullRowsBoard 1) = [2, 2, 2, 2] ∧
    lineFlags (lines Dir.down fullRowsBoard 1) = [false, false, false, false] ∧
    ∃ b1, shift32 (0 + 5) Dir.down fullRowsBoard = .ok (b1, true) ∧
      lineVals (lines Dir.down b1 1) = [2 * 2, 2 * 2, 0, 0] ∧
      lineFlags (lines Dir.down b1 1) = [false, false, true, true] ∧
      lineVals (lines Dir.down b1 1) ≠ [4 * 2, 0, 0, 0] :=
  ⟨fun i j => by fin_cases i <;> fin_cases j <;> decide, by decide, by decide, by decide,
   by decide,
   (four_equal_tiles_merge_pairwise_on_int 0 Dir.down fullRowsBoard
      (fun i j => by fin_cases i <;> fin_cases j <;> decide) 1 2 (by decide) (by decide)
      (by decide) (by decide)).1⟩


/-! ## The two readings of `val *= 2` agree on tiles below 2^30 -/

theorem idx?_val (nb : Int) (near : Fin 4) (h : idx? nb = some near) : (near : Int) = nb := by
  unfold idx? at h
  split at h
  · injection h with h
    rw [← h]
    show ((nb.toNat : Nat) : Int) = nb
    omega
  · cases h

theorem whileLo32_small (n : Nat) (l : Line) (curr : Fin 4) (nb : Int) (done dm : Bool)
    (h : -1073741824 ≤ (l curr).val ∧ (l curr).val < 1073741824) :
    whileLo32 n l curr nb done dm = whileLo n l curr nb done dm := by
  induction n generalizing l curr nb done dm with
  | zero => rfl
  | succ n ih =>
    rw [whileLo32_succ, whileLo_succ]
    split
    · cases hi : idx? nb with
      | none => rfl
      | some near =>
        simp only
        split
        · apply ih
          by_cases e : near = curr
          · subst e
            simp [lsetAvail, lsetVal]
          · have hval : ((lsetAvail (lsetAvail (lsetVal (lsetVal l near (l curr).val) curr 0)
                near false) curr true) near).val = (l curr).val := by
              simp [lsetAvail, lsetVal, e]
            rw [hval]
            exact h
        · split
          · rename_i hq
            rw [hq, wrap32_double_small _ h.1 h.2]
            apply ih
            by_cases e : curr = near <;> simp [lsetAvail, lsetVal, e]
          · exact ih _ _ _ _ _ h
    · rfl

theorem whileLo_frame (n : Nat) (l : Line) (curr : Fin 4) (nb : Int) (done dm : Bool)
    (hnb : nb < (curr : Int)) (l' : Line) (dm' : Bool)
    (h : whileLo n l curr nb done dm = .ok (l', dm')) :
    ∀ k : Fin 4, curr.val < k.val → l' k = l k := by
  induction n generalizing l curr nb done dm with
  | zero => cases h
  | succ n ih =>
    rw [whileLo_succ] at h
    split at h
    · cases hi : idx? nb with
      | none => rw [hi] at h; cases h
      | some near =>
        rw [hi] at h
        simp only at h
        have hnear := idx?_val nb near hi
        have hlt : near.val < curr.val := by omega
        split at h
        · intro k hk
          have h1 := ih _ near (nb - 1) done true (by omega) h k (by omega)
          rw [h1]
          have k1 : k ≠ curr := by intro e; rw [e] at hk; omega
          have k2 : k ≠ near := by intro e; rw [e] at hk; omega
          simp [lsetAvail, lsetVal, k1, k2]
        · split at h
          · intro k hk
            have h1 := ih _ curr nb done true hnb h k hk
            rw [h1]
            have k1 : k ≠ curr := by intro e; rw [e] at hk; omega
            have k2 : k ≠ near := by intro e; rw [e] at hk; omega
            simp [lsetAvail, lsetVal, k1, k2]
          · exact ih _ curr nb true dm hnb h
    · injection h with h
      injection h with h1 h2
      intro k _
      rw [h1]

theorem tileLo32_small (n : Nat) (c : Fin 4) (l : Line) (dm : Bool)
    (h : (l c).isAvailable = false → -1073741824 ≤ (l c).val ∧ (l c).val < 1073741824) :
    tileLo32 n c (l, dm) = tileLo n c (l, dm) := by
  unfold tileLo32 tileLo
  cases ha : (l c).isAvailable
  · simp only [ha, Bool.not_false, if_true]
    exact whileLo32_small _ _ _ _ _ _ (h ha)
  · simp [ha]

theorem tileLo_frame (n : Nat) (c : Fin 4) (l : Line) (dm : Bool) (l' : Line) (dm' : Bool)
    (h : tileLo n c (l, dm) = .ok (l', dm')) : ∀ k : Fin 4, c.val < k.val → l' k = l k := by
  unfold tileLo at h
  split at h
  · exact whileLo_frame n l c _ false dm (by omega) l' dm' h
  · injection h with h
    injection h with h1 h2
    intro k _
    rw [h1]

/-- On a line whose occupied cells hold values from -2^30 up to 2^30 - 1 the
line shift on the C `int` is the line shift on the mathematical integers. -/
theorem lineLo32_small (n : Nat) (l : Line)
    (h : ∀ k, (l k).isAvailable = false → -1073741824 ≤ (l k).val ∧ (l k).val < 1073741824) :
    lineLo32 n l = lineLo n l := by
  rw [lineLo32_unfold, lineLo_unfold, tileLo32_small n 1 l false (h 1)]
  cases h1 : tileLo n 1 (l, false) with
  | error e => rfl
  | ok p1 =>
    obtain ⟨l1, m1⟩ := p1
    have f1 := tileLo_frame n 1 l false l1 m1 h1
    simp only [ok_bind]
    rw [tileLo32_small n 2 l1 m1 (by rw [f1 2 (by decide)]; exact h 2)]
    cases h2 : tileLo n 2 (l1, m1) with
    | error e => rfl
    | ok p2 =>
      obtain ⟨l2, m2⟩ := p2
      have f2 := tileLo_frame n 2 l1 m1 l2 m2 h2
      simp only [ok_bind]
      rw [tileLo32_small n 3 l2 m2 (by rw [f2 3 (by decide), f1 3 (by decide)]; exact h 3)]

theorem lineLo_of_lineShift (n : Nat) (d : Dir) (b : Board) (k : Fin 4)
    (h : ∃ L m, lineShift n d (cut d b k) = .ok (L, m)) :
    ∃ L m, lineLo n (lines d b k) = .ok (L, m) := by
  obtain ⟨L, m, e⟩ := h
  cases d with
  | left => exact ⟨L, m, e⟩
  | up => exact ⟨L, m, e⟩
  | right =>
    have e' : lineHi n (b k) = .ok (L, m) := e
    rw [lineHi_mirror] at e'
    obtain ⟨a, ha⟩ := map_ok_inv _ _ _ e'
    exact ⟨a.1, a.2, ha⟩
  | down =>
    have e' : lineHi n (col b k) = .ok (L, m) := e
    rw [lineHi_mirror] at e'
    obtain ⟨a, ha⟩ := map_ok_inv _ _ _ e'
    exact ⟨a.1, a.2, ha⟩

/-- On a board whose occupied cells hold values from -2^30 up to 2^30 - 1,
whatever a directional shift returns on the mathematical integers it returns
on the C `int` as well: no product wraps. -/
theorem shift32_of_shift (n : Nat) (d : Dir) (b : Board) (R : Board × Bool) (hs : SmallTiles b)
    (h : shift n d b = .ok R) : shift32 n d b = .ok R := by
  choose L m hL using fun k => lineLo_of_lineShift n d b k (shift_ok_inv n d b R h k)
  have hR := shift_of_lines n d b L m hL
  rw [h] at hR
  rw [hR]
  refine shift32_of_lines n d b L m (fun k => ?_)
  rw [lineLo32_small n (lines d b k), hL k]
  intro t ht
  obtain ⟨i, j, e⟩ := lines_cell d b k t
  rw [e] at ht ⊢
  exact hs i j ht

/-- On a well-formed board with tiles below 2^30 the shift on the C `int`
returns the closed form of the shift on the mathematical integers. -/
theorem shift32_wf (n : Nat) (d : Dir) (b : Board) (h : WF b) (hs : SmallTiles b) :
    shift32 (n + 5) d b = .ok (shifted d b, moved d b) :=
  shift32_of_shift (n + 5) d b _ hs (shift_wf n d b h)


end Game2048
